import Mathlib

/-!
A shallow embedding of the go-radix radix tree (src/radix.go) and proofs
about it.  Keys are byte strings, modelled as `List Nat`; values are an
arbitrary type `V` (the Go code stores `interface{}`; the Go `nil` interface
is modelled as `Option.none`).  Node edges are `(label, child)` pairs kept in
a list sorted by label, as in the source.
-/

namespace Radix

/-- Keys are byte strings; bytes are modelled as `Nat` (the value bound 256
plays no role in any of the algorithms). -/
abbrev Key := List Nat

/-- The `Node` type of src/radix.go: an optional stored value (`leaf`, a Go
`*leafNode` pointer modelled as `Option V`), the compressed prefix string
(source field `prefix`, named `pfx` here), and the sorted edge list, each
edge being a `(label, child)` pair as in the source `Edge` struct. -/
inductive Node (V : Type) : Type where
  | mk (leaf : Option V) (pfx : Key) (edges : List (Nat × Node V)) : Node V

variable {V : Type}

/-- Projection for the `leaf` field of `Node`. -/
def Node.leaf : Node V → Option V
  | .mk l _ _ => l

/-- Projection for the `prefix` field of `Node` (source name `prefix`). -/
def Node.pfx : Node V → Key
  | .mk _ p _ => p

/-- Projection for the `edges` field of `Node`. -/
def Node.edges : Node V → List (Nat × Node V)
  | .mk _ _ e => e

instance : Inhabited (Node V) := ⟨Node.mk none [] []⟩

/-- `HasValue` of the source: whether the node stores a value. -/
def Node.HasValue (n : Node V) : Bool := n.leaf.isSome

/-- `Value` of the source: the stored value; the Go version returns the nil
interface when there is no leaf, modelled by `Option`. -/
def Node.Value (n : Node V) : Option V := n.leaf

/-- The length of the shared prefix of two keys (source function
`longestPrefix`; renamed to avoid clashing with the tree method). -/
def longestPrefixLen : Key → Key → Nat
  | a :: as, b :: bs => if a = b then longestPrefixLen as bs + 1 else 0
  | _, _ => 0

/-- Ordered insertion of an edge by label.  The source `addEdge` appends the
new edge and re-sorts the list; on the label-sorted, duplicate-free edge
lists the tree maintains, and a fresh label, that is exactly ordered
insertion. -/
def insEdge (e : Nat × Node V) : List (Nat × Node V) → List (Nat × Node V)
  | [] => [e]
  | f :: tl => if f.1 < e.1 then f :: insEdge e tl else e :: f :: tl

/-- `addEdge` of the source: insert an edge, keeping the list sorted. -/
def Node.addEdge (n : Node V) (e : Nat × Node V) : Node V :=
  Node.mk n.leaf n.pfx (insEdge e n.edges)

/-- The loop of Go's `sort.Search(n, f)`: binary search for the smallest
index `i` in `[0, n]` with `f i = true` (assuming `f` monotone). -/
def sortSearchGo (f : Nat → Bool) (i j : Nat) : Nat :=
  if h : i < j then
    let m := (i + j) / 2
    if f m then sortSearchGo f i m else sortSearchGo f (m + 1) j
  else i
termination_by j - i
decreasing_by
  · have h1 : i ≤ (i + j) / 2 := Nat.le_div_iff_mul_le (by omega) |>.2 (by omega)
    have h2 : (i + j) / 2 < j := Nat.div_lt_iff_lt_mul (by omega) |>.2 (by omega)
    omega
  · have h1 : i ≤ (i + j) / 2 := Nat.le_div_iff_mul_le (by omega) |>.2 (by omega)
    have h2 : (i + j) / 2 < j := Nat.div_lt_iff_lt_mul (by omega) |>.2 (by omega)
    omega

/-- Go's `sort.Search` over `[0, n)`. -/
def sortSearch (n : Nat) (f : Nat → Bool) : Nat := sortSearchGo f 0 n

/-- The predicate `func(i int) bool { return n.edges[i].label >= label }`
passed to `sort.Search` by `updateEdge` and `delEdge`. -/
def geLabel (es : List (Nat × Node V)) (label : Nat) (i : Nat) : Bool :=
  label ≤ (es.getD i default).1

/-- `updateEdge` of the source: replace the child of the existing edge with
the given label; panics (modelled as `none`) when no such edge exists. -/
def Node.updateEdge (n : Node V) (label : Nat) (c : Node V) : Option (Node V) :=
  let num := n.edges.length
  let idx := sortSearch num (geLabel n.edges label)
  if idx < num ∧ (n.edges.getD idx default).1 = label then
    some (Node.mk n.leaf n.pfx (n.edges.set idx (label, c)))
  else
    none

/-- `delEdge` of the source: remove the edge with the given label (found by
`sort.Search`), preserving order; no-op when absent. -/
def Node.delEdge (n : Node V) (label : Nat) : Node V :=
  let num := n.edges.length
  let idx := sortSearch num (geLabel n.edges label)
  if idx < num ∧ (n.edges.getD idx default).1 = label then
    Node.mk n.leaf n.pfx (n.edges.eraseIdx idx)
  else
    n

/-- The binary-search loop of the source `getEdge`, over `Int` bounds as in
the Go code (where `right` starts at `len - 1` and may reach `-1`).  The
result is bundled with a membership proof, used only for termination of the
descent functions below. -/
def getEdgeGo (es : List (Nat × Node V)) (label : Nat) (left right : Int) :
    Option {c : Node V // ∃ p, (p, c) ∈ es} :=
  if h : left ≤ right then
    match hm : es.get? ((left + right) / 2).toNat with
    | none => none
    | some e =>
      if e.1 < label then getEdgeGo es label ((left + right) / 2 + 1) right
      else if label < e.1 then getEdgeGo es label left ((left + right) / 2 - 1)
      else some ⟨e.2, ⟨e.1, by
        have : e ∈ es := List.get?_mem hm
        simpa using this⟩⟩
  else none
termination_by (right + 1 - left).toNat
decreasing_by
  · omega
  · omega

/-- `getEdge` of the source: find the child under the edge with the given
label by binary search. -/
def Node.getEdge (n : Node V) (label : Nat) :
    Option {c : Node V // ∃ p, (p, c) ∈ n.edges} :=
  getEdgeGo n.edges label 0 (n.edges.length - 1)

/-- `mergeChild` of the source: fold the (only) child into the node.  The
source indexes `edges[0]` under a caller-guaranteed single-edge condition;
the impossible empty case is the identity here. -/
def Node.mergeChild (n : Node V) : Node V :=
  match n.edges with
  | [] => n
  | (_, c) :: _ => Node.mk c.leaf (n.pfx ++ c.pfx) c.edges

/-- Models the Go in-place mutation of the child node reached through the
edge with the given label (the code updates fields of `*Node` through the
pointer stored in the edge; the label itself never changes). -/
def Node.replaceEdge (n : Node V) (label : Nat) (c : Node V) : Node V :=
  Node.mk n.leaf n.pfx (n.edges.map fun e => if e.1 = label then (e.1, c) else e)

mutual

/-- The stored entries of the subtree at `n`, with the key bytes accumulated
in `pre`, in the pre-order (value before children, edges in list order) of
the source traversals: the specification of the tree contents used to state
the claims. -/
def entriesN (pre : Key) (n : Node V) : List (Key × V) :=
  match n with
  | .mk leaf p es =>
    (match leaf with | some v => [(pre ++ p, v)] | none => []) ++ entriesL (pre ++ p) es

/-- Entries contributed by an edge list (see `entriesN`). -/
def entriesL (pre : Key) (es : List (Nat × Node V)) : List (Key × V) :=
  match es with
  | [] => []
  | (_, c) :: tl => entriesN pre c ++ entriesL pre tl

end

mutual

/-- Number of value-bearing nodes in the subtree at `n`. -/
def numLeavesN (n : Node V) : Nat :=
  match n with
  | .mk leaf _ es => (if leaf.isSome then 1 else 0) + numLeavesL es

/-- Number of value-bearing nodes under an edge list. -/
def numLeavesL (es : List (Nat × Node V)) : Nat :=
  match es with
  | [] => 0
  | (_, c) :: tl => numLeavesN c + numLeavesL tl

end

/-- Strict sortedness of a label list, as a boolean. -/
def sortedLabelsB : List Nat → Bool
  | [] => true
  | [_] => true
  | a :: b :: tl => decide (a < b) && sortedLabelsB (b :: tl)

mutual

/-- Search well-formedness of a node, maintained by every operation of the
source: edges are strictly sorted by label (hence labels are unique), and
each child has a nonempty compressed prefix whose first byte equals the
edge label. -/
def wfbN (n : Node V) : Bool :=
  match n with
  | .mk _ _ es => sortedLabelsB (es.map Prod.fst) && wfbL es

/-- Well-formedness of all children in an edge list (see `wfbN`). -/
def wfbL (es : List (Nat × Node V)) : Bool :=
  match es with
  | [] => true
  | (l, c) :: tl =>
    !c.pfx.isEmpty && decide (c.pfx.head? = some l) && wfbN c && wfbL tl

end

mutual

/-- The structural compaction invariant of the spec: every node except the
root (`isRoot` exempts only the node itself) has at least two children or
holds a value. -/
def compactN (isRoot : Bool) (n : Node V) : Bool :=
  match n with
  | .mk leaf _ es => (isRoot || decide (2 ≤ es.length) || leaf.isSome) && compactL es

/-- Compaction of every node in an edge list (see `compactN`). -/
def compactL (es : List (Nat × Node V)) : Bool :=
  match es with
  | [] => true
  | (_, c) :: tl => compactN false c && compactL tl

end

mutual

/-- `recursiveWalk` of the source.  The boolean is the source's return value
(walk aborted); the list additionally records, in order, the arguments of
the successive callback invocations, so that the claims about visit order
can be stated (the source itself only calls `fn`). -/
def recursiveWalkN (fn : Key → V → Bool) (pre : Key) (n : Node V) :
    Bool × List (Key × V) :=
  match n with
  | .mk leaf p es =>
    match leaf with
    | some v =>
      if fn (pre ++ p) v then (true, [(pre ++ p, v)])
      else
        let r := recursiveWalkL fn (pre ++ p) es
        (r.1, (pre ++ p, v) :: r.2)
    | none => recursiveWalkL fn (pre ++ p) es

/-- The loop over the edges in `recursiveWalk`. -/
def recursiveWalkL (fn : Key → V → Bool) (pre : Key) (es : List (Nat × Node V)) :
    Bool × List (Key × V) :=
  match es with
  | [] => (false, [])
  | (_, c) :: tl =>
    let r := recursiveWalkN fn pre c
    if r.1 then (true, r.2)
    else
      let r2 := recursiveWalkL fn pre tl
      (r2.1, r.2 ++ r2.2)

end

/-- The specification of an early-terminating walk over an entry list: visit
entries in order, stopping right after the first one on which the callback
returns `true`. -/
def stopTrace (fn : Key → V → Bool) : List (Key × V) → Bool × List (Key × V)
  | [] => (false, [])
  | e :: tl =>
    if fn e.1 e.2 then (true, [e])
    else
      let r := stopTrace fn tl
      (r.1, e :: r.2)

/-- The loop of the source `Minimum`: return the value as soon as a node has
one, otherwise descend along the first (lowest-labeled) edge, accumulating
the descendant's prefix. -/
def minGo (n : Node V) (pre : Key) : Key × Option V × Bool :=
  match n with
  | .mk leaf _ es =>
    if leaf.isSome then (pre, leaf, true)
    else
      match es with
      | [] => ([], none, false)
      | (_, c) :: _ => minGo c (pre ++ c.pfx)

/-- The loop of the source `Maximum`: descend along the last
(highest-labeled) edge while there are edges, then return the value if the
final node has one. -/
def maxGo (n : Node V) (pre : Key) : Key × Option V × Bool :=
  match n with
  | .mk leaf _ es =>
    match h : es.getLast? with
    | some e => maxGo e.2 (pre ++ e.2.pfx)
    | none => if leaf.isSome then (pre, leaf, true) else ([], none, false)
termination_by sizeOf n
decreasing_by
  rename_i pp es
  have h1 : e ∈ es.getLast? := by rw [h]; rfl
  obtain ⟨hne, he⟩ := List.mem_getLast?_eq_getLast h1
  have h2 : e ∈ es := he ▸ List.getLast_mem hne
  have h3 := List.sizeOf_lt_of_mem h2
  have h4 : sizeOf e.2 < sizeOf e := by cases e; simp
  simp only [Node.mk.sizeOf_spec]
  omega

/-- The loop of the source `Find`: descend from `n`, consuming each child's
full prefix from the remaining `search` key, recording the last value-bearing
node passed (before descending from it).  Returns the remaining search key,
the last value-bearing node, and the last node reached (note the source
breaks after `n = child`, so on a prefix mismatch the last node is the
mismatching child). -/
def findGo (n : Node V) (search : Key) (lastLeaf : Option (Node V)) :
    Key × Option (Node V) × Node V :=
  match search with
  | [] => ([], lastLeaf, n)
  | l :: _ =>
    let lastLeaf2 := if n.leaf.isSome then some n else lastLeaf
    match n.getEdge l with
    | none => (search, lastLeaf2, n)
    | some ⟨child, hc⟩ =>
      if child.pfx.isPrefixOf search then
        findGo child (search.drop child.pfx.length) lastLeaf2
      else (search, lastLeaf2, child)
termination_by sizeOf n
decreasing_by
  obtain ⟨p, hp⟩ := hc
  have h1 := List.sizeOf_lt_of_mem hp
  have h2 : sizeOf child < sizeOf (p, child) := by simp
  have h3 : sizeOf n.edges < sizeOf n := by cases n; simp [Node.edges]
  omega

/-- `Insert` descent of the source, acting on a node.  Returns `none` when
the source would panic (in `updateEdge`), otherwise the previous value for
the key (the source's `(interface{}, bool)` pair with `nil` as `none`) and
the updated node. -/
def nodeInsert (n : Node V) (s : Key) (v : V) : Option (Option V × Node V) :=
  match s with
  | [] =>
    match n.leaf with
    | some old => some (some old, Node.mk (some v) n.pfx n.edges)
    | none => some (none, Node.mk (some v) n.pfx n.edges)
  | l :: _ =>
    match n.getEdge l with
    | none => some (none, n.addEdge (l, Node.mk (some v) s []))
    | some ⟨child, hc⟩ =>
      let cp := longestPrefixLen s child.pfx
      if cp = child.pfx.length then
        match nodeInsert child (s.drop cp) v with
        | none => none
        | some (old, child2) => some (old, n.replaceEdge l child2)
      else
        let trimmed := Node.mk child.leaf (child.pfx.drop cp) child.edges
        let rest := s.drop cp
        let withOld := (Node.mk none (s.take cp) []).addEdge (child.pfx.getD cp 0, trimmed)
        let newChild :=
          match rest with
          | [] => Node.mk (some v) withOld.pfx withOld.edges
          | r :: _ => withOld.addEdge (r, Node.mk (some v) rest [])
        match n.updateEdge l newChild with
        | none => none
        | some n2 => some (none, n2)
termination_by sizeOf n
decreasing_by
  obtain ⟨p, hp⟩ := hc
  have h1 := List.sizeOf_lt_of_mem hp
  have h2 : sizeOf child < sizeOf (p, child) := by simp
  have h3 : sizeOf n.edges < sizeOf n := by cases n; simp [Node.edges]
  omega

/-- `Delete` descent of the source for a nonempty remaining key, carried out
at the parent of each visited node, so that the parent-level fixups
(`delEdge`, the merges) can be expressed functionally.  The current node `n`
plays the role of the source's `parent` once the key is exhausted at its
child; `isRoot` says whether `n` is the tree root.  Returns the deleted
value and the updated node, or `none` when the key is absent.  (The source
handles the empty-key-at-root case before this loop; see `Tree.Delete`.)
`deleteFix` is the fixup block at the source's `DELETE` label, applied at the
parent `n` of the deleted child: prune the now-valueless childless child from
the parent, merge it with its single grandchild otherwise, then apply the
parent-level merge to `n` itself. -/
def deleteFix (isRoot : Bool) (n : Node V) (l : Nat) (child : Node V) : Node V :=
  let child1 := Node.mk none child.pfx child.edges
  let n1 :=
    if child1.edges.isEmpty then n.delEdge l
    else if child1.edges.length = 1 then n.replaceEdge l child1.mergeChild
    else n.replaceEdge l child1
  if !isRoot && n1.edges.length = 1 && !n1.leaf.isSome then n1.mergeChild else n1

def nodeDelete (isRoot : Bool) (n : Node V) (s : Key) : Option (V × Node V) :=
  match s with
  | [] => none
  | l :: _ =>
    match n.getEdge l with
    | none => none
    | some ⟨child, hc⟩ =>
      if child.pfx.isPrefixOf s then
        match s.drop child.pfx.length with
        | [] =>
          match child.leaf with
          | none => none
          | some v => some (v, deleteFix isRoot n l child)
        | _ :: _ =>
          match nodeDelete false child (s.drop child.pfx.length) with
          | none => none
          | some (v, child2) => some (v, n.replaceEdge l child2)
      else none
termination_by sizeOf n
decreasing_by
  obtain ⟨p, hp⟩ := hc
  have h1 := List.sizeOf_lt_of_mem hp
  have h2 : sizeOf child < sizeOf (p, child) := by simp
  have h3 : sizeOf n.edges < sizeOf n := by cases n; simp [Node.edges]
  omega

/-- `deletePrefix` of the source, in the same parent-carrying style as
`nodeDelete`: when the remaining target prefix would be exhausted at the
child (or strictly inside the child's own prefix), the child's value and
edges are cleared at the parent frame, the removed value-bearing nodes are
counted by the source's counting walk, and the parent compaction rule is
applied.  The `[]` branch is the source's base case with a nil parent,
reached only for an empty initial prefix (the recursion always passes a
nonempty remainder). -/
def nodeDeletePrefix (isRoot : Bool) (n : Node V) (s : Key) : Nat × Node V :=
  match s with
  | [] =>
    let cnt := (recursiveWalkN (fun _ _ => false) [] n).2.length
    (cnt, Node.mk none n.pfx [])
  | l :: _ =>
    match n.getEdge l with
    | none => (0, n)
    | some ⟨child, hc⟩ =>
      if !child.pfx.isPrefixOf s && !s.isPrefixOf child.pfx then (0, n)
      else
        match (if child.pfx.length > s.length then ([] : Key) else s.drop child.pfx.length) with
        | [] =>
          let cnt := (recursiveWalkN (fun _ _ => false) [] child).2.length
          let child1 := Node.mk none child.pfx []
          let n1 := n.replaceEdge l child1
          let n2 :=
            if !isRoot && n1.edges.length = 1 && !n1.leaf.isSome then n1.mergeChild
            else n1
          (cnt, n2)
        | rest1 :: rest2 =>
          let r := nodeDeletePrefix false child (rest1 :: rest2)
          (r.1, n.replaceEdge l r.2)
termination_by sizeOf n
decreasing_by
  obtain ⟨p, hp⟩ := hc
  have h1 := List.sizeOf_lt_of_mem hp
  have h2 : sizeOf child < sizeOf (p, child) := by simp
  have h3 : sizeOf n.edges < sizeOf n := by cases n; simp [Node.edges]
  omega

/-- The `Tree` of the source: a root node (always present) and the running
count of stored keys.  `size` is a Go `int`, modelled as `Int`. -/
structure Tree (V : Type) : Type where
  root : Node V
  size : Int

/-- `New` of the source: an empty tree. -/
def Tree.New : Tree V := ⟨Node.mk none [] [], 0⟩

/-- `Len` of the source. -/
def Tree.Len (t : Tree V) : Int := t.size

/-- `Root` of the source. -/
def Tree.Root (t : Tree V) : Node V := t.root

/-- `Find` of the source: returns whether the key was fully consumed, the
number of consumed bytes, the last value-bearing node passed, and the last
node reached. -/
def Tree.Find (t : Tree V) (parent : Node V) (s : Key) :
    Bool × Nat × Option (Node V) × Node V :=
  match findGo parent s none with
  | (search, lastLeafNode, lastNode) =>
    (search.isEmpty, s.length - search.length, lastLeafNode, lastNode)

/-- `Get` of the source: `Find` from the root and report the last node's
value on an exact match.  (On a miss the source returns the untyped constant
`0` with `false`; the junk value is modelled as `none`.) -/
def Tree.Get (t : Tree V) (s : Key) : Option V × Bool :=
  match t.Find t.Root s with
  | (isFound, _, _, lastNode) =>
    if !isFound then (none, false) else (lastNode.Value, true)

/-- `LongestPrefix` of the source.  Note that the source binds the *fourth*
component of `Find`'s result (the last node reached) under the local name
`lastLeafNode`, discarding the third (the actual last value-bearing node);
the `_` patterns here mirror that assignment exactly. -/
def Tree.LongestPrefix (t : Tree V) (s : Key) : Key × Option V × Bool :=
  match t.Find t.Root s with
  | (_, prefixLen, _, lastLeafNode) => (s.take prefixLen, lastLeafNode.Value, true)

/-- `Minimum` of the source. -/
def Tree.Minimum (t : Tree V) : Key × Option V × Bool := minGo t.root []

/-- `Maximum` of the source. -/
def Tree.Maximum (t : Tree V) : Key × Option V × Bool := maxGo t.root []

/-- `Insert` of the source: `none` models the (unreachable on well-formed
trees) `updateEdge` panic; otherwise the previous value and the new tree,
with `size` incremented exactly when a new key was stored. -/
def Tree.Insert (t : Tree V) (s : Key) (v : V) : Option (Option V × Tree V) :=
  match nodeInsert t.root s v with
  | none => none
  | some (old, root2) =>
    some (old, ⟨root2, if old.isSome then t.size else t.size + 1⟩)

/-- `Delete` of the source: the empty key is deleted at the root itself (no
fixups apply there); otherwise the descent `nodeDelete` runs from the root.
Returns the previous value with the `existed` flag, and the new tree. -/
def Tree.Delete (t : Tree V) (s : Key) : (Option V × Bool) × Tree V :=
  match s with
  | [] =>
    match t.root.leaf with
    | none => ((none, false), t)
    | some v => ((some v, true), ⟨Node.mk none t.root.pfx t.root.edges, t.size - 1⟩)
  | _ :: _ =>
    match nodeDelete true t.root s with
    | none => ((none, false), t)
    | some (v, root2) => ((some v, true), ⟨root2, t.size - 1⟩)

/-- `DeletePrefix` of the source: delete the whole subtree under a prefix,
returning how many stored keys were removed. -/
def Tree.DeletePrefix (t : Tree V) (s : Key) : Nat × Tree V :=
  match nodeDeletePrefix true t.root s with
  | (cnt, root2) => (cnt, ⟨root2, t.size - (cnt : Int)⟩)

/-- `Walk` of the source (with the invocation trace, see `recursiveWalkN`). -/
def Tree.Walk (t : Tree V) (parent : Node V) (pre : Key) (fn : Key → V → Bool) :
    Bool × List (Key × V) :=
  recursiveWalkN fn pre parent

/-- `ToMap` of the source: walk the whole tree collecting every entry.  The
Go version inserts the visited pairs into a map; since the visited keys are
distinct, the resulting mapping is this association list. -/
def Tree.ToMap (t : Tree V) : List (Key × V) :=
  (t.Walk t.Root [] (fun _ _ => false)).2

/-- `NewFromMap` of the source: build a tree by inserting every entry of the
mapping (the Go map iteration order is unspecified; here the list order is
used).  `none` models the unreachable insertion panic. -/
def NewFromMap (l : List (Key × V)) : Option (Tree V) :=
  l.foldlM (fun t kv => (Tree.Insert t kv.1 kv.2).map Prod.snd) Tree.New

/-- Delete a list of keys one by one (used to state the claim comparing
`DeletePrefix` with individual deletions). -/
def deleteAll (t : Tree V) (ks : List Key) : Tree V :=
  ks.foldl (fun t k => (Tree.Delete t k).2) t

/-- Subnode relation: `NodeIn m n` when `m` is `n` or a node of the subtree
under `n`. -/
inductive NodeIn : Node V → Node V → Prop where
  | refl (n : Node V) : NodeIn n n
  | step {m c n : Node V} {l : Nat} : NodeIn m c → (l, c) ∈ n.edges → NodeIn m n

/-- Trees reachable from the empty tree by the mutating operations of the
source (`Insert`, `Delete`, `DeletePrefix`); the read-only operations do not
produce trees. -/
inductive Reachable : Tree V → Prop where
  | base : Reachable Tree.New
  | ins {t : Tree V} {s : Key} {v : V} {old : Option V} {t2 : Tree V} :
      Reachable t → Tree.Insert t s v = some (old, t2) → Reachable t2
  | del {t : Tree V} (s : Key) : Reachable t → Reachable (Tree.Delete t s).2
  | dp {t : Tree V} (s : Key) : Reachable t → Reachable (Tree.DeletePrefix t s).2

/-- Trees reachable from the empty tree by `Insert` and `Delete` only. -/
inductive ReachableID : Tree V → Prop where
  | base : ReachableID Tree.New
  | ins {t : Tree V} {s : Key} {v : V} {old : Option V} {t2 : Tree V} :
      ReachableID t → Tree.Insert t s v = some (old, t2) → ReachableID t2
  | del {t : Tree V} (s : Key) : ReachableID t → ReachableID (Tree.Delete t s).2

/-! Concrete example trees used to exercise the claims: the states reached
from the empty tree by the operation chains proved below. -/

/-- After `Insert [1] 10` on the empty tree. -/
def exA1 : Tree Nat := ⟨Node.mk none [] [(1, Node.mk (some 10) [1] [])], 1⟩

/-- After `Insert [1,2] 20` on `exA1`. -/
def exA2 : Tree Nat :=
  ⟨Node.mk none [] [(1, Node.mk (some 10) [1] [(2, Node.mk (some 20) [2] [])])], 2⟩

/-- After `DeletePrefix [1,2]` on `exA2`: the cleared child node with key
`[1,2]` is left dangling, valueless and childless. -/
def exA3 : Tree Nat :=
  ⟨Node.mk none [] [(1, Node.mk (some 10) [1] [(2, Node.mk none [2] [])])], 1⟩

/-- After `Insert [1,2,3] 30` on `exA1`. -/
def exB2 : Tree Nat :=
  ⟨Node.mk none [] [(1, Node.mk (some 10) [1] [(2, Node.mk (some 30) [2, 3] [])])], 2⟩

/-- After `Insert [1,2] 20` on the empty tree. -/
def exC1 : Tree Nat := ⟨Node.mk none [] [(1, Node.mk (some 20) [1, 2] [])], 1⟩

/-- After `Insert [1,3] 30` on `exC1`: the insertion splits the `[1,2]` node
into a valueless `[1]` node with two children. -/
def exC2 : Tree Nat :=
  ⟨Node.mk none [] [(1, Node.mk none [1]
    [(2, Node.mk (some 20) [2] []), (3, Node.mk (some 30) [3] [])])], 2⟩

/-- After `DeletePrefix [1,2]` on `exC2`: the dangling cleared node sits on
the minimum-descent path. -/
def exC3 : Tree Nat :=
  ⟨Node.mk none [] [(1, Node.mk none [1]
    [(2, Node.mk none [2] []), (3, Node.mk (some 30) [3] [])])], 1⟩

/-! Theorems.  First the structural toolkit: projections, an induction
principle for the nested `Node` type, unfolding equations for the mutual
definitions, and facts about keys and sorted edge lists; then the
characterizations of the operations; finally the claims. -/

@[simp] theorem Node.leaf_mk (l : Option V) (p : Key) (e : List (Nat × Node V)) :
    (Node.mk l p e).leaf = l := rfl

@[simp] theorem Node.pfx_mk (l : Option V) (p : Key) (e : List (Nat × Node V)) :
    (Node.mk l p e).pfx = p := rfl

@[simp] theorem Node.edges_mk (l : Option V) (p : Key) (e : List (Nat × Node V)) :
    (Node.mk l p e).edges = e := rfl

theorem Node.eta (n : Node V) : Node.mk n.leaf n.pfx n.edges = n := by
  cases n; rfl

/-- Induction over a node and all its descendants. -/
theorem Node.indOn {motive : Node V → Prop}
    (h : ∀ lf p es, (∀ e ∈ es, motive e.2) → motive (Node.mk lf p es)) :
    ∀ n, motive n := by
  have key : ∀ k (n : Node V), sizeOf n ≤ k → motive n := by
    intro k
    induction k with
    | zero =>
      intro n hn
      exfalso
      cases n with
      | mk lf p es => simp only [Node.mk.sizeOf_spec] at hn; omega
    | succ k ih =>
      intro n hn
      cases n with
      | mk lf p es =>
        apply h
        intro e he
        have h1 := List.sizeOf_lt_of_mem he
        have h2 : sizeOf e.2 < sizeOf e := by cases e; simp
        simp only [Node.mk.sizeOf_spec] at hn
        exact ih e.2 (by omega)
  exact fun n => key (sizeOf n) n le_rfl

theorem entriesN_eq (pre : Key) (n : Node V) :
    entriesN pre n =
      (match n.leaf with | some v => [(pre ++ n.pfx, v)] | none => []) ++
        entriesL (pre ++ n.pfx) n.edges := by
  cases n; rw [entriesN.eq_def]; rfl

@[simp] theorem entriesL_nil (pre : Key) : entriesL pre ([] : List (Nat × Node V)) = [] := by
  rw [entriesL]

@[simp] theorem entriesL_cons (pre : Key) (e : Nat × Node V) (tl : List (Nat × Node V)) :
    entriesL pre (e :: tl) = entriesN pre e.2 ++ entriesL pre tl := by
  cases e; rw [entriesL]

theorem entriesL_append (pre : Key) (l1 l2 : List (Nat × Node V)) :
    entriesL pre (l1 ++ l2) = entriesL pre l1 ++ entriesL pre l2 := by
  induction l1 with
  | nil => simp
  | cons e tl ih => simp [ih]

theorem numLeavesN_eq (n : Node V) :
    numLeavesN n = (if n.leaf.isSome then 1 else 0) + numLeavesL n.edges := by
  cases n; rw [numLeavesN]; simp

@[simp] theorem numLeavesL_nil : numLeavesL ([] : List (Nat × Node V)) = 0 := by
  rw [numLeavesL]

@[simp] theorem numLeavesL_cons (e : Nat × Node V) (tl : List (Nat × Node V)) :
    numLeavesL (e :: tl) = numLeavesN e.2 + numLeavesL tl := by
  cases e; rw [numLeavesL]

theorem wfbN_eq (n : Node V) :
    wfbN n = (sortedLabelsB (n.edges.map Prod.fst) && wfbL n.edges) := by
  cases n; rw [wfbN]; simp

@[simp] theorem wfbL_nil : wfbL ([] : List (Nat × Node V)) = true := by
  rw [wfbL]

@[simp] theorem wfbL_cons (e : Nat × Node V) (tl : List (Nat × Node V)) :
    wfbL (e :: tl) =
      (!e.2.pfx.isEmpty && decide (e.2.pfx.head? = some e.1) && wfbN e.2 && wfbL tl) := by
  cases e; rw [wfbL]

theorem compactN_eq (isRoot : Bool) (n : Node V) :
    compactN isRoot n =
      ((isRoot || decide (2 ≤ n.edges.length) || n.leaf.isSome) && compactL n.edges) := by
  cases n; rw [compactN]; simp

@[simp] theorem compactL_nil : compactL ([] : List (Nat × Node V)) = true := by
  rw [compactL]

@[simp] theorem compactL_cons (e : Nat × Node V) (tl : List (Nat × Node V)) :
    compactL (e :: tl) = (compactN false e.2 && compactL tl) := by
  cases e; rw [compactL]

theorem recursiveWalkN_eq (fn : Key → V → Bool) (pre : Key) (n : Node V) :
    recursiveWalkN fn pre n =
      match n.leaf with
      | some v =>
        if fn (pre ++ n.pfx) v then (true, [(pre ++ n.pfx, v)])
        else
          let r := recursiveWalkL fn (pre ++ n.pfx) n.edges
          (r.1, (pre ++ n.pfx, v) :: r.2)
      | none => recursiveWalkL fn (pre ++ n.pfx) n.edges := by
  cases n; rw [recursiveWalkN.eq_def]; rfl

@[simp] theorem recursiveWalkL_nil (fn : Key → V → Bool) (pre : Key) :
    recursiveWalkL fn pre ([] : List (Nat × Node V)) = (false, []) := by
  rw [recursiveWalkL]

theorem recursiveWalkL_cons (fn : Key → V → Bool) (pre : Key) (e : Nat × Node V)
    (tl : List (Nat × Node V)) :
    recursiveWalkL fn pre (e :: tl) =
      (let r := recursiveWalkN fn pre e.2
       if r.1 then (true, r.2)
       else
         let r2 := recursiveWalkL fn pre tl
         (r2.1, r.2 ++ r2.2)) := by
  cases e; rw [recursiveWalkL]

/-! Lexicographic byte order on keys. -/

theorem lex_append_right (k : Key) {l : Key} (h : l ≠ []) :
    List.Lex (· < ·) k (k ++ l) := by
  induction k with
  | nil =>
    cases l with
    | nil => exact absurd rfl h
    | cons a tl => exact List.Lex.nil
  | cons a tl ih => exact List.Lex.cons ih

theorem lex_append_lt {x y : Nat} (a u w : Key) (h : x < y) :
    List.Lex (· < ·) (a ++ x :: u) (a ++ y :: w) := by
  induction a with
  | nil => exact List.Lex.rel h
  | cons b tl ih => exact List.Lex.cons ih

theorem lex_irrefl (k : Key) : ¬ List.Lex (· < ·) k k := by
  induction k with
  | nil => intro h; cases h
  | cons a tl ih =>
    intro h
    cases h with
    | cons h => exact ih h
    | rel h => exact lt_irrefl a h

/-! Sorted label lists. -/

theorem sortedLabelsB_iff (l : List Nat) :
    sortedLabelsB l = true ↔ l.Chain' (· < ·) := by
  induction l with
  | nil => simp [sortedLabelsB]
  | cons a tl ih =>
    cases tl with
    | nil => simp [sortedLabelsB]
    | cons b tl2 =>
      rw [sortedLabelsB]
      simp only [Bool.and_eq_true, decide_eq_true_eq, List.chain'_cons]
      rw [ih]

theorem sortedLabelsB_pairwise (l : List Nat) :
    sortedLabelsB l = true ↔ List.Pairwise (· < ·) l := by
  rw [sortedLabelsB_iff, List.chain'_iff_pairwise]

theorem sorted_mem_unique {es : List (Nat × Node V)}
    (hs : List.Pairwise (· < ·) (es.map Prod.fst))
    {l : Nat} {c c' : Node V} (h1 : (l, c) ∈ es) (h2 : (l, c') ∈ es) : c = c' := by
  rw [List.pairwise_map] at hs
  induction es with
  | nil => cases h1
  | cons e tl ih =>
    rcases List.pairwise_cons.1 hs with ⟨he, htl⟩
    rcases List.mem_cons.1 h1 with h1 | h1 <;> rcases List.mem_cons.1 h2 with h2 | h2
    · rw [← h1] at h2; exact (Prod.mk.injEq _ _ _ _ ▸ h2.symm).2
    · exfalso; have := he _ h2; rw [← h1] at this; exact lt_irrefl l this
    · exfalso; have := he _ h1; rw [← h2] at this; exact lt_irrefl l this
    · exact ih htl h1 h2

theorem sorted_split {es : List (Nat × Node V)}
    (hs : List.Pairwise (· < ·) (es.map Prod.fst))
    {l : Nat} {c : Node V} (h : (l, c) ∈ es) :
    ∃ es1 es2, es = es1 ++ (l, c) :: es2 ∧
      (∀ x ∈ es1, x.1 < l) ∧ (∀ x ∈ es2, l < x.1) := by
  obtain ⟨es1, es2, rfl⟩ := List.append_of_mem h
  refine ⟨es1, es2, rfl, ?_, ?_⟩
  · intro x hx
    rw [List.pairwise_map, List.pairwise_append] at hs
    have := hs.2.2 x hx (l, c) (List.mem_cons_self _ _)
    exact this
  · intro x hx
    rw [List.pairwise_map, List.pairwise_append, List.pairwise_cons] at hs
    exact hs.2.1.1 x hx

theorem replaceEdge_split (n : Node V) {l : Nat} {c0 : Node V} (c : Node V)
    {es1 es2 : List (Nat × Node V)}
    (he : n.edges = es1 ++ (l, c0) :: es2)
    (h1 : ∀ x ∈ es1, x.1 ≠ l) (h2 : ∀ x ∈ es2, x.1 ≠ l) :
    n.replaceEdge l c = Node.mk n.leaf n.pfx (es1 ++ (l, c) :: es2) := by
  rw [Node.replaceEdge, he, List.map_append, List.map_cons]
  have key : ∀ (es : List (Nat × Node V)), (∀ x ∈ es, x.1 ≠ l) →
      List.map (fun e => if e.1 = l then (e.1, c) else e) es = es := by
    intro es hnl
    induction es with
    | nil => rfl
    | cons a tl ih =>
      simp only [List.map_cons, if_neg (hnl a (by simp)), List.cons.injEq, true_and]
      exact ih fun x hx => hnl x (by simp [hx])
  rw [key es1 h1, key es2 h2]
  simp

/-! Characterization of the binary searches on sorted edge lists. -/

theorem sortSearchGo_spec (f : Nat → Bool) (n : Nat)
    (hmono : ∀ x y, x ≤ y → y < n → f x = true → f y = true) :
    ∀ i j, i ≤ j → j ≤ n →
      i ≤ sortSearchGo f i j ∧ sortSearchGo f i j ≤ j ∧
      (∀ x, i ≤ x → x < sortSearchGo f i j → f x = false) ∧
      (sortSearchGo f i j < j → f (sortSearchGo f i j) = true) := by
  intro i j
  induction i, j using sortSearchGo.induct f with
  | case1 i j h m hf ih =>
    intro hij hjn
    rw [sortSearchGo, dif_pos h]
    simp only [show ((i + j) / 2) = m from rfl, hf, if_pos]
    have hm1 : i ≤ m := Nat.le_div_iff_mul_le (by omega) |>.2 (by omega)
    have hm2 : m < j := Nat.div_lt_iff_lt_mul (by omega) |>.2 (by omega)
    obtain ⟨a, b, c, d⟩ := ih hm1 (by omega)
    refine ⟨a, by omega, c, ?_⟩
    intro hlt
    rcases Nat.lt_or_ge (sortSearchGo f i m) m with hc | hc
    · exact d hc
    · have : sortSearchGo f i m = m := by omega
      rw [this]; exact hf
  | case2 i j h m hf ih =>
    intro hij hjn
    rw [sortSearchGo, dif_pos h]
    simp only [show ((i + j) / 2) = m from rfl, hf, if_neg, Bool.false_eq_true, if_false]
    have hm1 : i ≤ m := Nat.le_div_iff_mul_le (by omega) |>.2 (by omega)
    have hm2 : m < j := Nat.div_lt_iff_lt_mul (by omega) |>.2 (by omega)
    obtain ⟨a, b, c, d⟩ := ih (by omega) hjn
    refine ⟨by omega, b, ?_, d⟩
    intro x hx hxr
    rcases Nat.lt_or_ge x (m + 1) with hc | hc
    · by_contra hfx
      have hft : f x = true := by
        cases hq : f x
        · exact absurd hq hfx
        · rfl
      have := hmono x m (by omega) (by omega) hft
      rw [this] at hf; exact hf rfl
    · exact c x hc hxr
  | case3 i j h =>
    intro hij hjn
    rw [sortSearchGo, dif_neg h]
    exact ⟨le_rfl, by omega, by omega, by omega⟩

theorem sortSearch_spec (f : Nat → Bool) (n : Nat)
    (hmono : ∀ x y, x ≤ y → y < n → f x = true → f y = true) :
    sortSearch n f ≤ n ∧ (∀ x < sortSearch n f, f x = false) ∧
      (sortSearch n f < n → f (sortSearch n f) = true) := by
  obtain ⟨a, b, c, d⟩ := sortSearchGo_spec f n hmono 0 n (Nat.zero_le n) le_rfl
  exact ⟨b, fun x hx => c x (Nat.zero_le x) hx, d⟩

theorem set_length_append {α : Type} (es1 : List α) (a b : α) (es2 : List α) :
    (es1 ++ a :: es2).set es1.length b = es1 ++ b :: es2 := by
  induction es1 with
  | nil => rfl
  | cons x tl ih => simp [List.set, ih]

theorem eraseIdx_length_append {α : Type} (es1 : List α) (a : α) (es2 : List α) :
    (es1 ++ a :: es2).eraseIdx es1.length = es1 ++ es2 := by
  induction es1 with
  | nil => rfl
  | cons x tl ih => simp [List.eraseIdx, ih]

theorem sortSearch_find_label (es : List (Nat × Node V)) {l : Nat} {c0 : Node V}
    {es1 es2 : List (Nat × Node V)} (he : es = es1 ++ (l, c0) :: es2)
    (h1 : ∀ x ∈ es1, x.1 < l) (h2 : ∀ x ∈ es2, l < x.1) :
    sortSearch es.length (geLabel es l) = es1.length := by
  have hk : es1.length < es.length := by subst he; simp
  have hgk : es.getD es1.length default = (l, c0) := by
    subst he
    rw [List.getD_eq_getElem _ _ hk, List.getElem_append_right le_rfl]
    simp
  have hfk : geLabel es l es1.length = true := by
    rw [geLabel, hgk]; simp
  have hflt : ∀ x, x < es1.length → geLabel es l x = false := by
    intro x hx
    have hxe : es.getD x default = es1.getD x default := by
      subst he
      rw [List.getD_eq_getElem _ _ (by simp; omega), List.getD_eq_getElem _ _ hx,
        List.getElem_append_left]
    have hmem : es1.getD x default ∈ es1 := by
      rw [List.getD_eq_getElem _ _ hx]; exact List.getElem_mem _
    have hlab := h1 _ hmem
    rw [geLabel, hxe]
    exact decide_eq_false (by omega)
  have hfge : ∀ y, es1.length ≤ y → y < es.length → geLabel es l y = true := by
    intro y hy1 hy2
    have hmem : es.getD y default ∈ (l, c0) :: es2 := by
      subst he
      rw [List.getD_eq_getElem _ _ hy2, List.getElem_append_right (by omega)]
      exact List.getElem_mem _
    have hle : l ≤ (es.getD y default).1 := by
      rcases List.mem_cons.1 hmem with hq | hq
      · rw [hq]
      · exact le_of_lt (h2 _ hq)
    rw [geLabel]
    exact decide_eq_true hle
  have hmono : ∀ x y, x ≤ y → y < es.length → geLabel es l x = true →
      geLabel es l y = true := by
    intro x y hxy hy hfx
    rcases Nat.lt_or_ge x es1.length with hc | hc
    · rw [hflt x hc] at hfx; cases hfx
    · exact hfge y (by omega) hy
  obtain ⟨hb, hbelow, hat⟩ := sortSearch_spec (geLabel es l) es.length hmono
  rcases Nat.lt_trichotomy (sortSearch es.length (geLabel es l)) es1.length with hc | hc | hc
  · have := hflt _ hc
    rw [hat (by omega)] at this
    cases this
  · exact hc
  · have := hbelow es1.length hc
    rw [hfk] at this
    cases this

theorem updateEdge_absent (n : Node V) (l : Nat) (c : Node V)
    (h : ∀ x ∈ n.edges, x.1 ≠ l) : n.updateEdge l c = none := by
  rw [Node.updateEdge]
  rw [if_neg]
  rintro ⟨h1, h2⟩
  have hm : n.edges.getD (sortSearch n.edges.length (geLabel n.edges l)) default ∈ n.edges := by
    rw [List.getD_eq_getElem _ _ h1]; exact List.getElem_mem _
  exact h _ hm h2

theorem updateEdge_present (n : Node V) {l : Nat} {c0 : Node V} (c : Node V)
    (hs : List.Pairwise (· < ·) (n.edges.map Prod.fst))
    (hmem : (l, c0) ∈ n.edges) :
    ∃ es1 es2, n.edges = es1 ++ (l, c0) :: es2 ∧ (∀ x ∈ es1, x.1 < l) ∧
      (∀ x ∈ es2, l < x.1) ∧
      n.updateEdge l c = some (Node.mk n.leaf n.pfx (es1 ++ (l, c) :: es2)) := by
  obtain ⟨es1, es2, he, h1, h2⟩ := sorted_split hs hmem
  refine ⟨es1, es2, he, h1, h2, ?_⟩
  rw [Node.updateEdge]
  have hidx := sortSearch_find_label n.edges he h1 h2
  have hk : es1.length < n.edges.length := by rw [he]; simp
  have hgk : n.edges.getD es1.length default = (l, c0) := by
    rw [he, List.getD_eq_getElem _ _ (he ▸ hk), List.getElem_append_right le_rfl]
    simp
  rw [hidx, if_pos ⟨hk, by rw [hgk]⟩, he, set_length_append]

theorem delEdge_absent (n : Node V) (l : Nat)
    (h : ∀ x ∈ n.edges, x.1 ≠ l) : n.delEdge l = n := by
  rw [Node.delEdge]
  rw [if_neg]
  rintro ⟨h1, h2⟩
  have hm : n.edges.getD (sortSearch n.edges.length (geLabel n.edges l)) default ∈ n.edges := by
    rw [List.getD_eq_getElem _ _ h1]; exact List.getElem_mem _
  exact h _ hm h2

theorem delEdge_present (n : Node V) {l : Nat} {c0 : Node V}
    (hs : List.Pairwise (· < ·) (n.edges.map Prod.fst))
    (hmem : (l, c0) ∈ n.edges) :
    ∃ es1 es2, n.edges = es1 ++ (l, c0) :: es2 ∧ (∀ x ∈ es1, x.1 < l) ∧
      (∀ x ∈ es2, l < x.1) ∧
      n.delEdge l = Node.mk n.leaf n.pfx (es1 ++ es2) := by
  obtain ⟨es1, es2, he, h1, h2⟩ := sorted_split hs hmem
  refine ⟨es1, es2, he, h1, h2, ?_⟩
  rw [Node.delEdge]
  have hidx := sortSearch_find_label n.edges he h1 h2
  have hk : es1.length < n.edges.length := by rw [he]; simp
  have hgk : n.edges.getD es1.length default = (l, c0) := by
    rw [he, List.getD_eq_getElem _ _ (he ▸ hk), List.getElem_append_right le_rfl]
    simp
  rw [hidx, if_pos ⟨hk, by rw [hgk]⟩, he, eraseIdx_length_append]

theorem getEdgeGo_val_eq (es : List (Nat × Node V)) (label : Nat) (left right : Int) :
    (getEdgeGo es label left right).map Subtype.val =
      if left ≤ right then
        match es.get? ((left + right) / 2).toNat with
        | none => none
        | some e =>
          if e.1 < label then
            (getEdgeGo es label ((left + right) / 2 + 1) right).map Subtype.val
          else if label < e.1 then
            (getEdgeGo es label left ((left + right) / 2 - 1)).map Subtype.val
          else some e.2
      else none := by
  by_cases h : left ≤ right
  · rw [getEdgeGo, dif_pos h, if_pos h]
    split
    · next hm => simp only [hm, Option.map_none']
    · next e hm =>
      simp only [hm]
      by_cases h1 : e.1 < label
      · rw [if_pos h1, if_pos h1]
      · rw [if_neg h1, if_neg h1]
        by_cases h2 : label < e.1
        · rw [if_pos h2, if_pos h2]
        · rw [if_neg h2, if_neg h2, Option.map_some']
  · rw [getEdgeGo, dif_neg h, if_neg h, Option.map_none']

theorem getEdgeGo_mem {es : List (Nat × Node V)} {label : Nat} :
    ∀ left right (c : Node V),
      (getEdgeGo es label left right).map Subtype.val = some c → (label, c) ∈ es := by
  intro left right
  induction left, right using getEdgeGo.induct es label with
  | case1 left right h hm =>
    intro c hs
    rw [getEdgeGo_val_eq, if_pos h] at hs
    simp only [hm] at hs
    cases hs
  | case2 left right h e hm hlt ih =>
    intro c hs
    rw [getEdgeGo_val_eq, if_pos h] at hs
    simp only [hm, if_pos hlt] at hs
    exact ih c hs
  | case3 left right h e hm hnlt hlt ih =>
    intro c hs
    rw [getEdgeGo_val_eq, if_pos h] at hs
    simp only [hm, if_neg hnlt, if_pos hlt] at hs
    exact ih c hs
  | case4 left right h e hm hnlt hnlt2 =>
    intro c hs
    rw [getEdgeGo_val_eq, if_pos h] at hs
    simp only [hm, if_neg hnlt, if_neg hnlt2, Option.some.injEq] at hs
    have hlab : e.1 = label := by omega
    have hmem : e ∈ es := List.get?_mem hm
    rw [← hs, ← hlab]
    simpa using hmem
  | case5 left right h =>
    intro c hs
    rw [getEdgeGo_val_eq, if_neg h] at hs
    cases hs

theorem getEdgeGo_absent {es : List (Nat × Node V)} {label : Nat}
    (hab : ∀ x ∈ es, x.1 ≠ label) :
    ∀ left right, (getEdgeGo es label left right).map Subtype.val = none := by
  intro left right
  induction left, right using getEdgeGo.induct es label with
  | case1 left right h hm =>
    rw [getEdgeGo_val_eq, if_pos h]
    simp only [hm]
  | case2 left right h e hm hlt ih =>
    rw [getEdgeGo_val_eq, if_pos h]
    simp only [hm, if_pos hlt]
    exact ih
  | case3 left right h e hm hnlt hlt ih =>
    rw [getEdgeGo_val_eq, if_pos h]
    simp only [hm, if_neg hnlt, if_pos hlt]
    exact ih
  | case4 left right h e hm hnlt hnlt2 =>
    exfalso
    have hlab : e.1 = label := by omega
    exact hab e (List.get?_mem hm) hlab
  | case5 left right h =>
    rw [getEdgeGo_val_eq, if_neg h]

theorem getEdgeGo_present {es : List (Nat × Node V)}
    (hs : List.Pairwise (fun a b : Nat × Node V => a.1 < b.1) es)
    {label : Nat} {c : Node V} {k : Nat} (hk : es.get? k = some (label, c)) :
    ∀ left right, left ≤ (k : Int) → (k : Int) ≤ right → right < (es.length : Int) →
      (getEdgeGo es label left right).map Subtype.val = some c := by
  obtain ⟨hklen, hkel⟩ := List.get?_eq_some.1 hk
  intro left right
  induction left, right using getEdgeGo.induct es label with
  | case1 left right h hm =>
    intro h1 h2 h3
    exfalso
    have hnone := List.get?_eq_none.1 hm
    omega
  | case2 left right h e hm hlt ih =>
    intro h1 h2 h3
    rw [getEdgeGo_val_eq, if_pos h]
    simp only [hm, if_pos hlt]
    obtain ⟨hmlen, hmel⟩ := List.get?_eq_some.1 hm
    have hmk : ((left + right) / 2).toNat < k := by
      rcases Nat.lt_trichotomy (((left + right) / 2).toNat) k with hq | hq | hq
      · exact hq
      · exfalso
        rw [← hq] at hk
        rw [hk] at hm
        injection hm with hme
        rw [← hme] at hlt
        simp at hlt
      · exfalso
        have hpg := List.pairwise_iff_get.1 hs ⟨k, hklen⟩ ⟨_, hmlen⟩ hq
        rw [hkel, hmel] at hpg
        simp at hpg
        omega
    exact ih (by omega) h2 h3
  | case3 left right h e hm hnlt hlt ih =>
    intro h1 h2 h3
    rw [getEdgeGo_val_eq, if_pos h]
    simp only [hm, if_neg hnlt, if_pos hlt]
    obtain ⟨hmlen, hmel⟩ := List.get?_eq_some.1 hm
    have hmk : k < ((left + right) / 2).toNat := by
      rcases Nat.lt_trichotomy k (((left + right) / 2).toNat) with hq | hq | hq
      · exact hq
      · exfalso
        rw [hq] at hk
        rw [hk] at hm
        injection hm with hme
        rw [← hme] at hlt
        simp at hlt
      · exfalso
        have hpg := List.pairwise_iff_get.1 hs ⟨_, hmlen⟩ ⟨k, hklen⟩ hq
        rw [hkel, hmel] at hpg
        simp at hpg
        omega
    exact ih h1 (by omega) (by omega)
  | case4 left right h e hm hnlt hnlt2 =>
    intro h1 h2 h3
    rw [getEdgeGo_val_eq, if_pos h]
    simp only [hm, if_neg hnlt, if_neg hnlt2]
    obtain ⟨hmlen, hmel⟩ := List.get?_eq_some.1 hm
    have hke : e = (label, c) := by
      rcases Nat.lt_trichotomy k (((left + right) / 2).toNat) with hq | hq | hq
      · exfalso
        have hpg := List.pairwise_iff_get.1 hs ⟨k, hklen⟩ ⟨_, hmlen⟩ hq
        rw [hkel, hmel] at hpg
        simp at hpg
        omega
      · rw [hq] at hk
        rw [hk] at hm
        injection hm with hme
        exact hme.symm
      · exfalso
        have hpg := List.pairwise_iff_get.1 hs ⟨_, hmlen⟩ ⟨k, hklen⟩ hq
        rw [hkel, hmel] at hpg
        simp at hpg
        omega
    rw [hke]
  | case5 left right h =>
    intro h1 h2 h3
    exfalso
    omega

theorem getEdge_mem {n : Node V} {label : Nat} {s : {c : Node V // ∃ p, (p, c) ∈ n.edges}}
    (h : n.getEdge label = some s) : (label, s.val) ∈ n.edges := by
  apply getEdgeGo_mem 0 ((n.edges.length : Int) - 1)
  rw [Node.getEdge] at h
  rw [h, Option.map_some']

theorem getEdge_none {n : Node V} {label : Nat}
    (hab : ∀ x ∈ n.edges, x.1 ≠ label) : n.getEdge label = none := by
  have := getEdgeGo_absent hab (0 : Int) ((n.edges.length : Int) - 1)
  rw [Node.getEdge]
  exact Option.map_eq_none.1 this

theorem getEdge_present {n : Node V}
    (hs : List.Pairwise (· < ·) (n.edges.map Prod.fst)) {label : Nat} {c : Node V}
    (hmem : (label, c) ∈ n.edges) :
    ((n.getEdge label).map Subtype.val) = some c := by
  obtain ⟨⟨k, hklen⟩, hkel⟩ := List.get_of_mem hmem
  have hk : n.edges.get? k = some (label, c) := by
    rw [List.get?_eq_some]
    exact ⟨hklen, hkel⟩
  have hs2 : List.Pairwise (fun a b : Nat × Node V => a.1 < b.1) n.edges :=
    (List.pairwise_map).1 hs
  exact getEdgeGo_present hs2 hk 0 ((n.edges.length : Int) - 1) (by omega) (by omega)
    (by omega)

/-! Facts about `entriesN`, `numLeavesN`, `wfbN`, `compactN` and the walk. -/

theorem entriesL_shift_aux (a pre : Key) (es : List (Nat × Node V))
    (h : ∀ e ∈ es, ∀ (b q : Key),
      entriesN (b ++ q) e.2 = (entriesN q e.2).map fun kv => (b ++ kv.1, kv.2)) :
    entriesL (a ++ pre) es = (entriesL pre es).map fun kv => (a ++ kv.1, kv.2) := by
  induction es with
  | nil => simp
  | cons e tl ih =>
    simp only [entriesL_cons, List.map_append]
    rw [h e (List.mem_cons_self _ _) a pre,
      ih fun x hx => h x (List.mem_cons_of_mem _ hx)]

theorem entriesN_shift (n : Node V) : ∀ (a pre : Key),
    entriesN (a ++ pre) n = (entriesN pre n).map fun kv => (a ++ kv.1, kv.2) := by
  induction n using Node.indOn with
  | _ lf p es ih =>
    intro a pre
    rw [entriesN_eq, entriesN_eq]
    simp only [Node.leaf_mk, Node.pfx_mk, Node.edges_mk, List.map_append]
    have hassoc : a ++ pre ++ p = a ++ (pre ++ p) := by simp
    rw [hassoc, entriesL_shift_aux a (pre ++ p) es fun e he b q => ih e he b q]
    congr 1
    cases lf <;> simp

theorem entriesL_shift (a pre : Key) (es : List (Nat × Node V)) :
    entriesL (a ++ pre) es = (entriesL pre es).map fun kv => (a ++ kv.1, kv.2) :=
  entriesL_shift_aux a pre es fun e _ b q => entriesN_shift e.2 b q

theorem entries_key_extends (n : Node V) : ∀ (pre : Key),
    ∀ kv ∈ entriesN pre n, (pre ++ n.pfx) <+: kv.1 := by
  induction n using Node.indOn with
  | _ lf p es ih =>
    intro pre kv hkv
    rw [entriesN_eq] at hkv
    simp only [Node.leaf_mk, Node.pfx_mk, Node.edges_mk] at hkv ⊢
    rcases List.mem_append.1 hkv with hm | hm
    · cases lf with
      | none => cases hm
      | some v =>
        simp only [List.mem_singleton] at hm
        rw [hm]
    · clear hkv
      induction es with
      | nil => cases hm
      | cons e tl ihl =>
        rw [entriesL_cons] at hm
        rcases List.mem_append.1 hm with hm2 | hm2
        · have := ih e (List.mem_cons_self _ _) (pre ++ p) kv hm2
          exact (List.prefix_append _ _).trans this
        · exact ihl (fun x hx => ih x (List.mem_cons_of_mem _ hx)) hm2

theorem entriesL_key_extends (pre : Key) (es : List (Nat × Node V)) :
    ∀ kv ∈ entriesL pre es, pre <+: kv.1 := by
  induction es with
  | nil => intro kv h; cases h
  | cons e tl ih =>
    intro kv h
    rw [entriesL_cons] at h
    rcases List.mem_append.1 h with hm | hm
    · exact (List.prefix_append _ _).trans (entries_key_extends e.2 pre kv hm)
    · exact ih kv hm

theorem numLeavesL_aux (pre : Key) (es : List (Nat × Node V))
    (h : ∀ e ∈ es, ∀ q : Key, numLeavesN e.2 = (entriesN q e.2).length) :
    numLeavesL es = (entriesL pre es).length := by
  induction es with
  | nil => simp
  | cons e tl ih =>
    simp only [numLeavesL_cons, entriesL_cons, List.length_append]
    rw [h e (List.mem_cons_self _ _) pre, ih fun x hx => h x (List.mem_cons_of_mem _ hx)]

theorem numLeavesN_entries (n : Node V) : ∀ pre : Key,
    numLeavesN n = (entriesN pre n).length := by
  induction n using Node.indOn with
  | _ lf p es ih =>
    intro pre
    rw [numLeavesN_eq, entriesN_eq]
    simp only [Node.leaf_mk, Node.pfx_mk, Node.edges_mk, List.length_append]
    rw [numLeavesL_aux (pre ++ p) es fun e he q => ih e he q]
    congr 1
    cases lf <;> simp

theorem wfbL_forall (es : List (Nat × Node V)) :
    wfbL es = true ↔
      ∀ e ∈ es, e.2.pfx ≠ [] ∧ e.2.pfx.head? = some e.1 ∧ wfbN e.2 = true := by
  induction es with
  | nil => simp
  | cons e tl ih =>
    rw [wfbL_cons]
    simp only [Bool.and_eq_true, decide_eq_true_eq, Bool.not_eq_true', List.isEmpty_eq_false,
      List.mem_cons, ih]
    constructor
    · rintro ⟨⟨⟨h1, h2⟩, h3⟩, h4⟩
      rintro x (rfl | hx)
      · exact ⟨by simpa using h1, h2, h3⟩
      · exact h4 x hx
    · intro h
      obtain ⟨h1, h2, h3⟩ := h e (Or.inl rfl)
      exact ⟨⟨⟨by simpa using h1, h2⟩, h3⟩, fun x hx => h x (Or.inr hx)⟩

theorem wfbN_parts (n : Node V) (h : wfbN n = true) :
    List.Pairwise (· < ·) (n.edges.map Prod.fst) ∧
      ∀ e ∈ n.edges, e.2.pfx ≠ [] ∧ e.2.pfx.head? = some e.1 ∧ wfbN e.2 = true := by
  rw [wfbN_eq, Bool.and_eq_true, sortedLabelsB_pairwise, wfbL_forall] at h
  exact h

theorem wfbN_intro (n : Node V)
    (h1 : List.Pairwise (· < ·) (n.edges.map Prod.fst))
    (h2 : ∀ e ∈ n.edges, e.2.pfx ≠ [] ∧ e.2.pfx.head? = some e.1 ∧ wfbN e.2 = true) :
    wfbN n = true := by
  rw [wfbN_eq, Bool.and_eq_true, sortedLabelsB_pairwise, wfbL_forall]
  exact ⟨h1, h2⟩

theorem compactL_forall (es : List (Nat × Node V)) :
    compactL es = true ↔ ∀ e ∈ es, compactN false e.2 = true := by
  induction es with
  | nil => simp
  | cons e tl ih =>
    rw [compactL_cons]
    simp only [Bool.and_eq_true, List.mem_cons, ih]
    constructor
    · rintro ⟨h1, h2⟩ x (rfl | hx)
      · exact h1
      · exact h2 x hx
    · intro h
      exact ⟨h e (Or.inl rfl), fun x hx => h x (Or.inr hx)⟩

theorem compactN_parts (isRoot : Bool) (n : Node V) (h : compactN isRoot n = true) :
    (isRoot = true ∨ 2 ≤ n.edges.length ∨ n.leaf.isSome = true) ∧
      ∀ e ∈ n.edges, compactN false e.2 = true := by
  rw [compactN_eq, Bool.and_eq_true, compactL_forall] at h
  obtain ⟨h1, h2⟩ := h
  refine ⟨?_, h2⟩
  have h1b : (isRoot = true ∨ 2 ≤ n.edges.length) ∨ n.leaf.isSome = true := by
    simpa using h1
  tauto

theorem compactN_intro (isRoot : Bool) (n : Node V)
    (h1 : isRoot = true ∨ 2 ≤ n.edges.length ∨ n.leaf.isSome = true)
    (h2 : ∀ e ∈ n.edges, compactN false e.2 = true) :
    compactN isRoot n = true := by
  rw [compactN_eq, Bool.and_eq_true, compactL_forall]
  refine ⟨?_, h2⟩
  rcases h1 with hq | hq | hq
  · simp [hq]
  · simp [hq]
  · simp [hq]

theorem compactN_mono (n : Node V) (h : compactN false n = true) (io : Bool) :
    compactN io n = true := by
  obtain ⟨h1, h2⟩ := compactN_parts false n h
  apply compactN_intro
  · rcases h1 with hq | hq
    · cases hq
    · exact Or.inr hq
  · exact h2

theorem entriesL_mem (pre : Key) (es : List (Nat × Node V)) {kv : Key × V}
    (h : kv ∈ entriesL pre es) : ∃ e ∈ es, kv ∈ entriesN pre e.2 := by
  induction es with
  | nil => cases h
  | cons e tl ih =>
    rw [entriesL_cons] at h
    rcases List.mem_append.1 h with hm | hm
    · exact ⟨e, List.mem_cons_self _ _, hm⟩
    · obtain ⟨x, hx1, hx2⟩ := ih hm
      exact ⟨x, List.mem_cons_of_mem _ hx1, hx2⟩

theorem entries_key_cons {c : Node V} {l : Nat} (pre : Key)
    (hne : c.pfx ≠ []) (hhd : c.pfx.head? = some l) :
    ∀ kv ∈ entriesN pre c, ∃ t, kv.1 = pre ++ l :: t := by
  intro kv hkv
  have hp := entries_key_extends c pre kv hkv
  cases hcp : c.pfx with
  | nil => exact absurd hcp hne
  | cons hd tlp =>
    rw [hcp] at hhd hp
    simp only [List.head?_cons, Option.some.injEq] at hhd
    obtain ⟨rest, hrest⟩ := hp
    exact ⟨tlp ++ rest, by rw [← hrest, hhd]; simp⟩

/-! The walk is the early-stopping traversal of the entry list. -/

theorem stopTrace_false_eq (fn : Key → V → Bool) (l : List (Key × V))
    (h : (stopTrace fn l).1 = false) : (stopTrace fn l).2 = l := by
  induction l with
  | nil => rfl
  | cons e tl ih =>
    rw [stopTrace] at h ⊢
    by_cases hf : fn e.1 e.2
    · rw [if_pos hf] at h; cases h
    · rw [if_neg hf] at h ⊢
      simp only [List.cons.injEq, true_and]
      exact ih h

theorem stopTrace_append (fn : Key → V → Bool) (l1 l2 : List (Key × V)) :
    stopTrace fn (l1 ++ l2) =
      if (stopTrace fn l1).1 then stopTrace fn l1
      else ((stopTrace fn l2).1, l1 ++ (stopTrace fn l2).2) := by
  induction l1 with
  | nil => simp [stopTrace]
  | cons e tl ih =>
    by_cases hf : fn e.1 e.2
    · rw [List.cons_append, stopTrace, if_pos hf, stopTrace, if_pos hf]
      simp [stopTrace, hf]
    · have h1 : stopTrace fn (e :: (tl ++ l2)) =
          ((stopTrace fn (tl ++ l2)).1, e :: (stopTrace fn (tl ++ l2)).2) := by
        rw [stopTrace, if_neg hf]
      have h2 : stopTrace fn (e :: tl) =
          ((stopTrace fn tl).1, e :: (stopTrace fn tl).2) := by
        rw [stopTrace, if_neg hf]
      rw [List.cons_append, h1, h2, ih]
      by_cases hb : (stopTrace fn tl).1
      · simp [hb]
      · simp [hb]

theorem recursiveWalkL_stopTrace_aux (fn : Key → V → Bool) (pre : Key)
    (es : List (Nat × Node V))
    (h : ∀ e ∈ es, ∀ q : Key, recursiveWalkN fn q e.2 = stopTrace fn (entriesN q e.2)) :
    recursiveWalkL fn pre es = stopTrace fn (entriesL pre es) := by
  induction es with
  | nil => simp [stopTrace]
  | cons e tl ih =>
    rw [recursiveWalkL_cons, entriesL_cons, stopTrace_append]
    rw [h e (List.mem_cons_self _ _) pre, ih fun x hx => h x (List.mem_cons_of_mem _ hx)]
    by_cases hb : (stopTrace fn (entriesN pre e.2)).1
    · simp only [hb, if_true]
      rw [← hb]
    · simp only [hb, Bool.false_eq_true, if_false]
      rw [stopTrace_false_eq fn _ (by simpa using hb)]

theorem recursiveWalkN_stopTrace (n : Node V) : ∀ (fn : Key → V → Bool) (pre : Key),
    recursiveWalkN fn pre n = stopTrace fn (entriesN pre n) := by
  induction n using Node.indOn with
  | _ lf p es ih =>
    intro fn pre
    rw [recursiveWalkN_eq, entriesN_eq]
    simp only [Node.leaf_mk, Node.pfx_mk, Node.edges_mk]
    cases lf with
    | none =>
      simp only [List.nil_append]
      exact recursiveWalkL_stopTrace_aux fn (pre ++ p) es fun e he q => ih e he fn q
    | some v =>
      simp only [List.singleton_append, stopTrace]
      by_cases hf : fn (pre ++ p) v
      · rw [if_pos hf, if_pos hf]
      · rw [if_neg hf, if_neg hf]
        rw [recursiveWalkL_stopTrace_aux fn (pre ++ p) es fun e he q => ih e he fn q]
        rfl

/-! Keys of a well-formed subtree are strictly sorted. -/

theorem entriesL_pairwise_aux (pre : Key) (es : List (Nat × Node V))
    (hsort : List.Pairwise (· < ·) (es.map Prod.fst))
    (hkids : ∀ e ∈ es, e.2.pfx ≠ [] ∧ e.2.pfx.head? = some e.1 ∧ wfbN e.2 = true)
    (hindiv : ∀ e ∈ es, ∀ q : Key,
      List.Pairwise (fun a b : Key × V => List.Lex (· < ·) a.1 b.1) (entriesN q e.2)) :
    List.Pairwise (fun a b : Key × V => List.Lex (· < ·) a.1 b.1) (entriesL pre es) := by
  induction es with
  | nil => simp
  | cons e tl ih =>
    rw [List.map_cons, List.pairwise_cons] at hsort
    obtain ⟨hhead, htail⟩ := hsort
    rw [entriesL_cons, List.pairwise_append]
    refine ⟨hindiv e (List.mem_cons_self _ _) pre, ?_, ?_⟩
    · exact ih htail
        (fun x hx => hkids x (List.mem_cons_of_mem _ hx))
        (fun x hx => hindiv x (List.mem_cons_of_mem _ hx))
    · intro kv1 h1 kv2 h2
      obtain ⟨x, hx, hkv2⟩ := entriesL_mem pre tl h2
      obtain ⟨hne, hhd, _⟩ := hkids e (List.mem_cons_self _ _)
      obtain ⟨hne2, hhd2, _⟩ := hkids x (List.mem_cons_of_mem _ hx)
      obtain ⟨t1, ht1⟩ := entries_key_cons pre hne hhd kv1 h1
      obtain ⟨t2, ht2⟩ := entries_key_cons pre hne2 hhd2 kv2 hkv2
      rw [ht1, ht2]
      apply lex_append_lt
      exact hhead x.1 (List.mem_map_of_mem Prod.fst hx)

theorem entries_pairwise (n : Node V) : ∀ (hwf : wfbN n = true) (pre : Key),
    List.Pairwise (fun a b : Key × V => List.Lex (· < ·) a.1 b.1) (entriesN pre n) := by
  induction n using Node.indOn with
  | _ lf p es ih =>
    intro hwf pre
    obtain ⟨hsort, hkids⟩ := wfbN_parts _ hwf
    simp only [Node.edges_mk] at hsort hkids
    rw [entriesN_eq]
    simp only [Node.leaf_mk, Node.pfx_mk, Node.edges_mk]
    rw [List.pairwise_append]
    refine ⟨?_, ?_, ?_⟩
    · cases lf <;> simp
    · exact entriesL_pairwise_aux (pre ++ p) es hsort hkids
        (fun x hx q => ih x hx (hkids x hx).2.2 q)
    · intro kv1 h1 kv2 h2
      cases lf with
      | none => cases h1
      | some v =>
        simp only [List.mem_singleton] at h1
        obtain ⟨x, hx, hkv2⟩ := entriesL_mem _ es h2
        obtain ⟨hne, hhd, _⟩ := hkids x hx
        obtain ⟨t, ht⟩ := entries_key_cons (pre ++ p) hne hhd kv2 hkv2
        rw [h1, ht]
        exact lex_append_right _ (by simp)

theorem entries_keys_nodup (n : Node V) (hwf : wfbN n = true) (pre : Key) :
    ((entriesN pre n).map Prod.fst).Nodup := by
  have hp := entries_pairwise n hwf pre
  have hne : List.Pairwise (fun a b : Key × V => a.1 ≠ b.1) (entriesN pre n) := by
    refine hp.imp ?_
    intro a b hlex heq
    rw [heq] at hlex
    exact lex_irrefl _ hlex
  exact List.pairwise_map.2 hne

/-! Transfer of invariants to subnodes. -/

theorem NodeIn_wfb {m n : Node V} (h : NodeIn m n) (hw : wfbN n = true) :
    wfbN m = true := by
  induction h with
  | refl => exact hw
  | step hin hmem ih =>
    obtain ⟨_, hkids⟩ := wfbN_parts _ hw
    exact ih (hkids _ hmem).2.2

theorem NodeIn_compact {m n : Node V} (h : NodeIn m n) (hc : compactN true n = true) :
    m = n ∨ compactN false m = true := by
  induction h with
  | refl => exact Or.inl rfl
  | step hin hmem ih =>
    obtain ⟨_, hkids⟩ := compactN_parts _ _ hc
    have hc2 := hkids _ hmem
    rcases ih (compactN_mono _ hc2 true) with hq | hq
    · exact Or.inr (hq ▸ hc2)
    · exact Or.inr hq

/-! Facts about `longestPrefixLen` and `insEdge` used by `Insert`. -/

theorem longestPrefixLen_le_left : ∀ s t : Key, longestPrefixLen s t ≤ s.length := by
  intro s
  induction s with
  | nil => intro t; cases t <;> simp [longestPrefixLen]
  | cons a as ih =>
    intro t
    cases t with
    | nil => simp [longestPrefixLen]
    | cons b bs =>
      rw [longestPrefixLen]
      by_cases hab : a = b
      · rw [if_pos hab]; simpa using ih bs
      · rw [if_neg hab]; simp

theorem longestPrefixLen_le_right : ∀ s t : Key, longestPrefixLen s t ≤ t.length := by
  intro s
  induction s with
  | nil => intro t; cases t <;> simp [longestPrefixLen]
  | cons a as ih =>
    intro t
    cases t with
    | nil => simp [longestPrefixLen]
    | cons b bs =>
      rw [longestPrefixLen]
      by_cases hab : a = b
      · rw [if_pos hab]; simpa using ih bs
      · rw [if_neg hab]; simp

theorem longestPrefixLen_take : ∀ s t : Key,
    s.take (longestPrefixLen s t) = t.take (longestPrefixLen s t) := by
  intro s
  induction s with
  | nil => intro t; cases t <;> simp [longestPrefixLen]
  | cons a as ih =>
    intro t
    cases t with
    | nil => simp [longestPrefixLen]
    | cons b bs =>
      rw [longestPrefixLen]
      by_cases hab : a = b
      · rw [if_pos hab]
        simp only [List.take_succ_cons, hab, List.cons.injEq, true_and]
        exact ih bs
      · rw [if_neg hab]; simp

theorem longestPrefixLen_getD_ne : ∀ s t : Key,
    longestPrefixLen s t < s.length → longestPrefixLen s t < t.length →
      s.getD (longestPrefixLen s t) 0 ≠ t.getD (longestPrefixLen s t) 0 := by
  intro s
  induction s with
  | nil => intro t h1 _; simp at h1
  | cons a as ih =>
    intro t h1 h2
    cases t with
    | nil => simp at h2
    | cons b bs =>
      rw [longestPrefixLen] at h1 h2 ⊢
      by_cases hab : a = b
      · rw [if_pos hab] at h1 h2 ⊢
        simpa using ih bs (by simpa using h1) (by simpa using h2)
      · rw [if_neg hab] at h1 h2 ⊢
        simpa using hab

theorem longestPrefixLen_full {s t : Key} (h : longestPrefixLen s t = t.length) :
    t <+: s := by
  have := longestPrefixLen_take s t
  rw [h, List.take_length] at this
  rw [← this]
  exact List.take_prefix _ _

theorem longestPrefixLen_of_pfx {s t : Key} (h : t <+: s) :
    longestPrefixLen s t = t.length := by
  obtain ⟨r, rfl⟩ := h
  induction t with
  | nil => cases r <;> simp [longestPrefixLen]
  | cons a as ih =>
    rw [List.cons_append, longestPrefixLen, if_pos rfl]
    simpa using ih

theorem insEdge_mem (e : Nat × Node V) : ∀ (es : List (Nat × Node V)) (x : Nat × Node V),
    x ∈ insEdge e es ↔ x = e ∨ x ∈ es := by
  intro es
  induction es with
  | nil => intro x; simp [insEdge]
  | cons f tl ih =>
    intro x
    rw [insEdge]
    by_cases hf : f.1 < e.1
    · rw [if_pos hf]
      simp only [List.mem_cons, ih]
      tauto
    · rw [if_neg hf]
      simp only [List.mem_cons]

theorem insEdge_length (e : Nat × Node V) : ∀ es : List (Nat × Node V),
    (insEdge e es).length = es.length + 1 := by
  intro es
  induction es with
  | nil => rfl
  | cons f tl ih =>
    rw [insEdge]
    by_cases hf : f.1 < e.1
    · rw [if_pos hf]; simp [ih]
    · rw [if_neg hf]; simp

theorem insEdge_numLeaves (e : Nat × Node V) : ∀ es : List (Nat × Node V),
    numLeavesL (insEdge e es) = numLeavesN e.2 + numLeavesL es := by
  intro es
  induction es with
  | nil => simp [insEdge]
  | cons f tl ih =>
    rw [insEdge]
    by_cases hf : f.1 < e.1
    · rw [if_pos hf]
      simp only [numLeavesL_cons, ih]
      omega
    · rw [if_neg hf]
      simp only [numLeavesL_cons]

theorem insEdge_sorted (e : Nat × Node V) : ∀ es : List (Nat × Node V),
    List.Pairwise (· < ·) (es.map Prod.fst) → (∀ x ∈ es, x.1 ≠ e.1) →
      List.Pairwise (· < ·) ((insEdge e es).map Prod.fst) := by
  intro es
  induction es with
  | nil => intro _ _; simp [insEdge]
  | cons f tl ih =>
    intro hs hne
    rw [List.map_cons, List.pairwise_cons] at hs
    obtain ⟨hhead, htail⟩ := hs
    rw [insEdge]
    by_cases hf : f.1 < e.1
    · rw [if_pos hf]
      rw [List.map_cons, List.pairwise_cons]
      refine ⟨?_, ih htail fun x hx => hne x (List.mem_cons_of_mem _ hx)⟩
      intro b hb
      rw [List.mem_map] at hb
      obtain ⟨x, hx, rfl⟩ := hb
      rcases (insEdge_mem e tl x).1 hx with rfl | hx2
      · exact hf
      · exact hhead x.1 (List.mem_map_of_mem _ hx2)
    · rw [if_neg hf]
      have hef : e.1 < f.1 := by
        have := hne f (List.mem_cons_self _ _)
        omega
      rw [List.map_cons, List.pairwise_cons]
      refine ⟨?_, by rw [List.map_cons, List.pairwise_cons]; exact ⟨hhead, htail⟩⟩
      intro b hb
      rw [List.map_cons, List.mem_cons] at hb
      rcases hb with rfl | hb
      · exact hef
      · have := hhead b hb
        omega

theorem numLeavesL_append : ∀ l1 l2 : List (Nat × Node V),
    numLeavesL (l1 ++ l2) = numLeavesL l1 + numLeavesL l2 := by
  intro l1 l2
  induction l1 with
  | nil => simp
  | cons e tl ih => simp only [List.cons_append, numLeavesL_cons, ih]; omega

theorem wfbN_edges_only (lf lf2 : Option V) (p p2 : Key) (es : List (Nat × Node V)) :
    wfbN (Node.mk lf p es) = wfbN (Node.mk lf2 p2 es) := by
  rw [wfbN_eq, wfbN_eq]; simp

theorem compactN_pfx_any (io : Bool) (lf : Option V) (p p2 : Key)
    (es : List (Nat × Node V)) :
    compactN io (Node.mk lf p es) = compactN io (Node.mk lf p2 es) := by
  rw [compactN_eq, compactN_eq]; simp

theorem numLeavesN_pfx_any (lf : Option V) (p p2 : Key) (es : List (Nat × Node V)) :
    numLeavesN (Node.mk lf p es) = numLeavesN (Node.mk lf p2 es) := by
  rw [numLeavesN_eq, numLeavesN_eq]; simp

theorem getEdge_none_forall {n : Node V} {l : Nat}
    (hs : List.Pairwise (· < ·) (n.edges.map Prod.fst))
    (h : n.getEdge l = none) : ∀ x ∈ n.edges, x.1 ≠ l := by
  intro x hx heq
  have hmem : (l, x.2) ∈ n.edges := by
    have : x = (l, x.2) := by
      rw [← heq]
    rw [← this]
    exact hx
  have := getEdge_present hs hmem
  rw [h] at this
  cases this

theorem drop_head_getD : ∀ (t : Key) (cp : Nat), cp < t.length →
    (t.drop cp).head? = some (t.getD cp 0) := by
  intro t
  induction t with
  | nil => intro cp h; simp at h
  | cons a tl ih =>
    intro cp h
    cases cp with
    | zero => simp
    | succ cp2 =>
      rw [List.drop_succ_cons, List.getD_cons_succ]
      exact ih cp2 (by simpa using h)

theorem take_head (a : Nat) (x : Key) (cp : Nat) (h : 1 ≤ cp) :
    ((a :: x).take cp).head? = some a := by
  cases cp with
  | zero => omega
  | succ cp2 => simp

/-- The master characterization of `nodeInsert` on well-formed nodes: it
never panics, preserves well-formedness, the node's own prefix and the
compaction invariant, and adds one value-bearing node exactly when the key
was new. -/
theorem nodeInsert_spec :
    ∀ (n : Node V) (s : Key) (v : V), wfbN n = true →
      ∃ old n2, nodeInsert n s v = some (old, n2) ∧
        wfbN n2 = true ∧
        n2.pfx = n.pfx ∧
        numLeavesN n2 = numLeavesN n + (if old.isSome then 0 else 1) ∧
        (∀ io, compactN io n = true → compactN io n2 = true) := by
  intro n s v
  induction n, s, v using nodeInsert.induct with
  | case1 n v v1 hleaf =>
    intro hwf
    refine ⟨some v1, Node.mk (some v) n.pfx n.edges, ?_, ?_, ?_, ?_, ?_⟩
    · rw [nodeInsert, hleaf]
    · rw [wfbN_edges_only (some v) n.leaf n.pfx n.pfx, Node.eta]
      exact hwf
    · simp
    · rw [numLeavesN_eq, numLeavesN_eq, hleaf]
      simp
    · intro io hc
      obtain ⟨h1, h2⟩ := compactN_parts io n hc
      apply compactN_intro
      · exact Or.inr (Or.inr (by simp))
      · simpa using h2
  | case2 n v hleaf =>
    intro hwf
    refine ⟨none, Node.mk (some v) n.pfx n.edges, ?_, ?_, ?_, ?_, ?_⟩
    · rw [nodeInsert, hleaf]
    · rw [wfbN_edges_only (some v) n.leaf n.pfx n.pfx, Node.eta]
      exact hwf
    · simp
    · rw [numLeavesN_eq, numLeavesN_eq, hleaf]
      simp
      omega
    · intro io hc
      obtain ⟨h1, h2⟩ := compactN_parts io n hc
      apply compactN_intro
      · exact Or.inr (Or.inr (by simp))
      · simpa using h2
  | case3 n v l tail hge =>
    intro hwf
    obtain ⟨hsort, hkids⟩ := wfbN_parts n hwf
    have habs := getEdge_none_forall hsort hge
    refine ⟨none, n.addEdge (l, Node.mk (some v) (l :: tail) []), ?_, ?_, ?_, ?_, ?_⟩
    · rw [nodeInsert]
      simp only [hge]
    · apply wfbN_intro
      · simp only [Node.addEdge, Node.edges_mk]
        exact insEdge_sorted _ _ hsort habs
      · intro e he
        simp only [Node.addEdge, Node.edges_mk] at he
        rcases (insEdge_mem _ _ _).1 he with rfl | he2
        · refine ⟨by simp, by simp, ?_⟩
          apply wfbN_intro <;> simp
        · exact hkids e he2
    · simp [Node.addEdge]
    · rw [numLeavesN_eq, numLeavesN_eq]
      simp only [Node.addEdge, Node.edges_mk, Node.leaf_mk]
      rw [insEdge_numLeaves]
      rw [numLeavesN_eq]
      simp only [Node.leaf_mk, Node.edges_mk, numLeavesL_nil, Option.isSome_some]
      simp
      omega
    · intro io hc
      obtain ⟨h1, h2⟩ := compactN_parts io n hc
      apply compactN_intro
      · simp only [Node.addEdge, Node.edges_mk, Node.leaf_mk]
        rw [insEdge_length]
        rcases h1 with hq | hq | hq
        · exact Or.inl hq
        · exact Or.inr (Or.inl (by omega))
        · exact Or.inr (Or.inr hq)
      · intro e he
        simp only [Node.addEdge, Node.edges_mk] at he
        rcases (insEdge_mem _ _ _).1 he with rfl | he2
        · apply compactN_intro
          · exact Or.inr (Or.inr (by simp))
          · simp
        · exact h2 e he2
  | case4 n v l tail child hc hge cp hcp hrec ih =>
    intro hwf
    obtain ⟨hsort, hkids⟩ := wfbN_parts n hwf
    have hmem : (l, child) ∈ n.edges := getEdge_mem hge
    obtain ⟨o2, n22, heq2, _⟩ := ih (hkids _ hmem).2.2
    rw [hrec] at heq2
    cases heq2
  | case5 n v l tail child hc hge old child2 cp hcp hrec ih =>
    intro hwf
    obtain ⟨hsort, hkids⟩ := wfbN_parts n hwf
    have hmem : (l, child) ∈ n.edges := getEdge_mem hge
    obtain ⟨hcne, hchd, hcwf⟩ := hkids _ hmem
    obtain ⟨o2, n22, heq2, hwf2, hpfx2, hcnt2, hcomp2⟩ := ih hcwf
    rw [hrec] at heq2
    injection heq2 with heq2a
    injection heq2a with ho hn
    subst ho
    subst hn
    obtain ⟨es1, es2, hsplit, hlt1, hlt2⟩ := sorted_split hsort hmem
    have hrepl := replaceEdge_split n child2 hsplit
      (fun x hx => by have := hlt1 x hx; omega)
      (fun x hx => by have := hlt2 x hx; omega)
    refine ⟨old, n.replaceEdge l child2, ?_, ?_, ?_, ?_, ?_⟩
    · rw [nodeInsert]
      simp only [hge, if_pos hcp, hrec]
    · rw [hrepl]
      apply wfbN_intro
      · have hlabels : List.map Prod.fst (es1 ++ (l, child2) :: es2) =
            List.map Prod.fst n.edges := by
          rw [hsplit]
          simp
        simp only [Node.edges_mk, hlabels]
        exact hsort
      · intro e he
        simp only [Node.edges_mk] at he
        rcases List.mem_append.1 he with he2 | he2
        · exact hkids e (by rw [hsplit]; exact List.mem_append_left _ he2)
        · rcases List.mem_cons.1 he2 with rfl | he3
          · exact ⟨(by rw [hpfx2]; exact hcne), (by rw [hpfx2]; exact hchd), hwf2⟩
          · refine hkids e ?_
            rw [hsplit]
            exact List.mem_append_right _ (List.mem_cons_of_mem _ he3)
    · rw [hrepl]
      simp
    · rw [hrepl, numLeavesN_eq, numLeavesN_eq]
      simp only [Node.edges_mk, Node.leaf_mk]
      rw [hsplit, numLeavesL_append, numLeavesL_append, numLeavesL_cons, numLeavesL_cons]
      have hr1 : numLeavesN ((l : Nat), child).2 = numLeavesN child := rfl
      have hr2 : numLeavesN ((l : Nat), child2).2 = numLeavesN child2 := rfl
      rw [hr1, hr2]
      omega
    · intro io hcN
      obtain ⟨h1, h2⟩ := compactN_parts io n hcN
      rw [hrepl]
      apply compactN_intro
      · simp only [Node.edges_mk, Node.leaf_mk]
        have hlen : (es1 ++ (l, child2) :: es2).length = n.edges.length := by
          rw [hsplit]
          simp
        rw [hlen]
        exact h1
      · intro e he
        simp only [Node.edges_mk] at he
        rcases List.mem_append.1 he with he2 | he2
        · exact h2 e (by rw [hsplit]; exact List.mem_append_left _ he2)
        · rcases List.mem_cons.1 he2 with rfl | he3
          · have hq : ((l : Nat), child) ∈ n.edges := by
              rw [hsplit]
              exact List.mem_append_right _ (List.mem_cons_self _ _)
            exact hcomp2 false (h2 (l, child) hq)
          · refine h2 e ?_
            rw [hsplit]
            exact List.mem_append_right _ (List.mem_cons_of_mem _ he3)
  | case6 n v l tail child hc hge cp hcp trimmed rest withOld newChild hupd =>
    intro hwf
    obtain ⟨hsort, hkids⟩ := wfbN_parts n hwf
    have hmem : (l, child) ∈ n.edges := getEdge_mem hge
    exfalso
    obtain ⟨es1, es2, _, _, _, hupd2⟩ := updateEdge_present n _ hsort hmem
    rw [hupd] at hupd2
    cases hupd2
  | case7 n v l tail child hc hge n2 cp hcp trimmed rest withOld newChild hupd =>
    intro hwf
    obtain ⟨hsort, hkids⟩ := wfbN_parts n hwf
    have hmem : (l, child) ∈ n.edges := getEdge_mem hge
    obtain ⟨hcne, hchd, hcwf⟩ := hkids _ hmem
    have hcpdef : cp = longestPrefixLen (l :: tail) child.pfx := rfl
    have hcple := longestPrefixLen_le_right (l :: tail) child.pfx
    have hcplt : cp < child.pfx.length := by
      rcases Nat.lt_or_ge cp child.pfx.length with hq | hq
      · exact hq
      · exact absurd (by omega) hcp
    have hcp1 : 1 ≤ cp := by
      cases hq : child.pfx with
      | nil => exact absurd hq hcne
      | cons b bs =>
        rw [hq] at hchd
        simp only [List.head?_cons, Option.some.injEq] at hchd
        rw [hcpdef, hq, longestPrefixLen, if_pos hchd.symm]
        omega
    have htr_wf : wfbN trimmed = true := by
      rw [show trimmed = Node.mk child.leaf (child.pfx.drop cp) child.edges from rfl,
        wfbN_edges_only _ child.leaf _ child.pfx, Node.eta]
      exact hcwf
    have htr_ne : trimmed.pfx ≠ [] := by
      show child.pfx.drop cp ≠ []
      intro hq
      have := congrArg List.length hq
      simp only [List.length_drop, List.length_nil] at this
      omega
    have htr_hd : trimmed.pfx.head? = some (child.pfx.getD cp 0) := by
      show (child.pfx.drop cp).head? = _
      exact drop_head_getD _ _ hcplt
    have htr_cnt : numLeavesN trimmed = numLeavesN child := by
      rw [show trimmed = Node.mk child.leaf (child.pfx.drop cp) child.edges from rfl,
        numLeavesN_pfx_any _ _ child.pfx, Node.eta]
    have htr_cmp : compactN false child = true → compactN false trimmed = true := by
      intro hq
      rw [show trimmed = Node.mk child.leaf (child.pfx.drop cp) child.edges from rfl,
        compactN_pfx_any false _ _ child.pfx, Node.eta]
      exact hq
    have hwo : withOld = Node.mk none ((l :: tail).take cp)
        [(child.pfx.getD cp 0, trimmed)] := rfl
    have hnc_pfx : newChild.pfx = (l :: tail).take cp := by
      rcases hdrop : (l :: tail).drop cp with _ | ⟨r, rtl⟩
      · show (match rest with
          | [] => Node.mk (some v) withOld.pfx withOld.edges
          | r :: _ => withOld.addEdge (r, Node.mk (some v) rest [])).pfx = _
        rw [show rest = (l :: tail).drop cp from rfl, hdrop, hwo]
        rfl
      · show (match rest with
          | [] => Node.mk (some v) withOld.pfx withOld.edges
          | r :: _ => withOld.addEdge (r, Node.mk (some v) rest [])).pfx = _
        rw [show rest = (l :: tail).drop cp from rfl, hdrop, hwo]
        rfl
    have hnc_hd : newChild.pfx.head? = some l := by
      rw [hnc_pfx]
      exact take_head l tail cp hcp1
    have hnc_ne : newChild.pfx ≠ [] := by
      intro hq
      rw [hq] at hnc_hd
      cases hnc_hd
    have hnc_wf : wfbN newChild = true := by
      rcases hdrop : (l :: tail).drop cp with _ | ⟨r, rtl⟩
      · rw [show newChild = (match rest with
          | [] => Node.mk (some v) withOld.pfx withOld.edges
          | r :: _ => withOld.addEdge (r, Node.mk (some v) rest [])) from rfl,
          show rest = (l :: tail).drop cp from rfl, hdrop, hwo]
        apply wfbN_intro
        · simp [sortedLabelsB]
        · intro e he
          simp only [Node.edges_mk, List.mem_singleton] at he
          rw [he]
          exact ⟨htr_ne, htr_hd, htr_wf⟩
      · have hcplen : cp < (l :: tail).length := by
          by_contra hcon
          push_neg at hcon
          rw [List.drop_eq_nil_of_le hcon] at hdrop
          cases hdrop
        have hr : r = (l :: tail).getD cp 0 := by
          have := drop_head_getD (l :: tail) cp hcplen
          rw [hdrop] at this
          simpa using this
        have hrne : child.pfx.getD cp 0 ≠ r := by
          rw [hr]
          intro hq
          exact longestPrefixLen_getD_ne (l :: tail) child.pfx
            (hcpdef ▸ hcplen) (hcpdef ▸ hcplt) hq.symm
        rw [show newChild = (match rest with
          | [] => Node.mk (some v) withOld.pfx withOld.edges
          | r :: _ => withOld.addEdge (r, Node.mk (some v) rest [])) from rfl,
          show rest = (l :: tail).drop cp from rfl, hdrop, hwo]
        apply wfbN_intro
        · simp only [Node.addEdge, Node.edges_mk]
          apply insEdge_sorted
          · simp [sortedLabelsB]
          · intro x hx
            simp only [List.mem_singleton] at hx
            rw [hx]
            exact hrne
        · intro e he
          simp only [Node.addEdge, Node.edges_mk] at he
          rcases (insEdge_mem _ _ _).1 he with rfl | he2
          · refine ⟨by simp, by simp, ?_⟩
            apply wfbN_intro <;> simp
          · simp only [List.mem_singleton] at he2
            rw [he2]
            exact ⟨htr_ne, htr_hd, htr_wf⟩
    have hnc_cnt : numLeavesN newChild = numLeavesN child + 1 := by
      rcases hdrop : (l :: tail).drop cp with _ | ⟨r, rtl⟩
      · rw [show newChild = (match rest with
          | [] => Node.mk (some v) withOld.pfx withOld.edges
          | r :: _ => withOld.addEdge (r, Node.mk (some v) rest [])) from rfl,
          show rest = (l :: tail).drop cp from rfl, hdrop, hwo]
        rw [numLeavesN_eq]
        simp only [Node.leaf_mk, Node.edges_mk, Option.isSome_some, if_true,
          numLeavesL_cons, numLeavesL_nil]
        have : numLeavesN ((child.pfx.getD cp 0, trimmed) : Nat × Node V).2 =
            numLeavesN child := htr_cnt
        rw [this]
        omega
      · rw [show newChild = (match rest with
          | [] => Node.mk (some v) withOld.pfx withOld.edges
          | r :: _ => withOld.addEdge (r, Node.mk (some v) rest [])) from rfl,
          show rest = (l :: tail).drop cp from rfl, hdrop, hwo]
        rw [numLeavesN_eq]
        simp only [Node.addEdge, Node.leaf_mk, Node.edges_mk, Option.isSome_none]
        rw [insEdge_numLeaves]
        simp only [numLeavesL_cons, numLeavesL_nil]
        have h1 : numLeavesN ((child.pfx.getD cp 0, trimmed) : Nat × Node V).2 =
            numLeavesN child := htr_cnt
        have h2 : numLeavesN (Node.mk (some v) ((l :: tail).drop cp) ([] : List (Nat × Node V))) = 1 := by
          rw [numLeavesN_eq]
          simp
        rw [h1]
        have h3 : numLeavesN (Node.mk (some v) (r :: rtl) ([] : List (Nat × Node V))) = 1 := by
          rw [numLeavesN_eq]
          simp
        rw [h3]
        simp
        omega
    have hnc_cmp : compactN false child = true → compactN false newChild = true := by
      intro hq
      rcases hdrop : (l :: tail).drop cp with _ | ⟨r, rtl⟩
      · rw [show newChild = (match rest with
          | [] => Node.mk (some v) withOld.pfx withOld.edges
          | r :: _ => withOld.addEdge (r, Node.mk (some v) rest [])) from rfl,
          show rest = (l :: tail).drop cp from rfl, hdrop, hwo]
        apply compactN_intro
        · exact Or.inr (Or.inr (by simp))
        · intro e he
          simp only [Node.edges_mk, List.mem_singleton] at he
          rw [he]
          exact htr_cmp hq
      · rw [show newChild = (match rest with
          | [] => Node.mk (some v) withOld.pfx withOld.edges
          | r :: _ => withOld.addEdge (r, Node.mk (some v) rest [])) from rfl,
          show rest = (l :: tail).drop cp from rfl, hdrop, hwo]
        apply compactN_intro
        · refine Or.inr (Or.inl ?_)
          simp only [Node.addEdge, Node.edges_mk]
          rw [insEdge_length]
          simp
        · intro e he
          simp only [Node.addEdge, Node.edges_mk] at he
          rcases (insEdge_mem _ _ _).1 he with rfl | he2
          · apply compactN_intro
            · exact Or.inr (Or.inr (by simp))
            · simp
          · simp only [List.mem_singleton] at he2
            rw [he2]
            exact htr_cmp hq
    obtain ⟨es1, es2, hsplit, hlt1, hlt2, hupd2⟩ := updateEdge_present n newChild hsort hmem
    rw [hupd] at hupd2
    injection hupd2 with hn2
    refine ⟨none, n2, ?_, ?_, ?_, ?_, ?_⟩
    · rw [nodeInsert]
      simp only [hge, if_neg hcp, hupd]
    · rw [hn2]
      apply wfbN_intro
      · have hlabels : List.map Prod.fst (es1 ++ (l, newChild) :: es2) =
            List.map Prod.fst n.edges := by
          rw [hsplit]
          simp
        simp only [Node.edges_mk, hlabels]
        exact hsort
      · intro e he
        simp only [Node.edges_mk] at he
        rcases List.mem_append.1 he with he2 | he2
        · exact hkids e (by rw [hsplit]; exact List.mem_append_left _ he2)
        · rcases List.mem_cons.1 he2 with rfl | he3
          · exact ⟨hnc_ne, hnc_hd, hnc_wf⟩
          · refine hkids e ?_
            rw [hsplit]
            exact List.mem_append_right _ (List.mem_cons_of_mem _ he3)
    · rw [hn2]
      simp
    · rw [hn2, numLeavesN_eq, numLeavesN_eq]
      simp only [Node.edges_mk, Node.leaf_mk]
      rw [hsplit, numLeavesL_append, numLeavesL_append, numLeavesL_cons, numLeavesL_cons]
      have hr1 : numLeavesN ((l : Nat), child).2 = numLeavesN child := rfl
      have hr2 : numLeavesN ((l : Nat), newChild).2 = numLeavesN newChild := rfl
      rw [hr1, hr2, hnc_cnt]
      simp
      omega
    · intro io hcN
      obtain ⟨h1, h2⟩ := compactN_parts io n hcN
      rw [hn2]
      apply compactN_intro
      · simp only [Node.edges_mk, Node.leaf_mk]
        have hlen : (es1 ++ (l, newChild) :: es2).length = n.edges.length := by
          rw [hsplit]
          simp
        rw [hlen]
        exact h1
      · intro e he
        simp only [Node.edges_mk] at he
        rcases List.mem_append.1 he with he2 | he2
        · exact h2 e (by rw [hsplit]; exact List.mem_append_left _ he2)
        · rcases List.mem_cons.1 he2 with rfl | he3
          · have hq : ((l : Nat), child) ∈ n.edges := by
              rw [hsplit]
              exact List.mem_append_right _ (List.mem_cons_self _ _)
            exact hnc_cmp (h2 (l, child) hq)
          · refine h2 e ?_
            rw [hsplit]
            exact List.mem_append_right _ (List.mem_cons_of_mem _ he3)

/-! Facts about `mergeChild` and the delete-side fixups. -/

theorem mergeChild_single {n : Node V} {l : Nat} {c : Node V} (he : n.edges = [(l, c)]) :
    n.mergeChild = Node.mk c.leaf (n.pfx ++ c.pfx) c.edges := by
  rw [Node.mergeChild, he]

theorem append_ne_of_ne_nil (A : Key) {s : Key} (h : s ≠ []) : A ≠ A ++ s := by
  intro hq
  have := congrArg List.length hq
  simp only [List.length_append] at this
  cases s with
  | nil => exact h rfl
  | cons a tl => simp at this

theorem head?_of_pfx {a b : Key} (h : a <+: b) (hne : a ≠ []) :
    b.head? = a.head? := by
  obtain ⟨t, ht⟩ := h
  cases a with
  | nil => exact absurd rfl hne
  | cons x xs => rw [← ht]; rfl

theorem entries_merge {n : Node V} {l : Nat} {c : Node V} (he : n.edges = [(l, c)])
    (hl : n.leaf = none) (pre : Key) :
    entriesN pre n.mergeChild = entriesN pre n := by
  rw [mergeChild_single he, entriesN_eq, entriesN_eq, hl, he]
  simp only [Node.leaf_mk, Node.pfx_mk, Node.edges_mk, List.nil_append, entriesL_cons,
    entriesL_nil, List.append_nil]
  rw [entriesN_eq]
  simp [List.append_assoc]

theorem wfb_merge {n : Node V} {l : Nat} {c : Node V} (he : n.edges = [(l, c)])
    (hcwf : wfbN c = true) : wfbN n.mergeChild = true := by
  rw [mergeChild_single he, wfbN_edges_only c.leaf c.leaf _ c.pfx, Node.eta]
  exact hcwf

theorem compact_merge {n : Node V} {l : Nat} {c : Node V} (he : n.edges = [(l, c)])
    (hcc : compactN false c = true) (io : Bool) : compactN io n.mergeChild = true := by
  rw [mergeChild_single he]
  obtain ⟨h1, h2⟩ := compactN_parts false c hcc
  apply compactN_intro
  · simp only [Node.edges_mk, Node.leaf_mk]
    rcases h1 with hq | hq | hq
    · cases hq
    · exact Or.inr (Or.inl hq)
    · exact Or.inr (Or.inr hq)
  · simpa using h2

theorem pfx_merge {n : Node V} {l : Nat} {c : Node V} (he : n.edges = [(l, c)]) :
    n.mergeChild.pfx = n.pfx ++ c.pfx := by
  rw [mergeChild_single he]
  rfl

/-- The `parent.mergeChild()` fixup applied by `Delete` and `deletePrefix` to
the deleted node's parent `n1`: it preserves well-formedness and the entry
list, extends the prefix, and yields a compact node whenever `n1`'s children
are compact and `n1` either satisfies its own compaction condition or is a
valueless single-child node. -/
theorem mergeStep (isRoot : Bool) (n1 : Node V) (hwf1 : wfbN n1 = true) :
    wfbN (if !isRoot && n1.edges.length = 1 && !n1.leaf.isSome then n1.mergeChild
      else n1) = true ∧
    n1.pfx <+: (if !isRoot && n1.edges.length = 1 && !n1.leaf.isSome then n1.mergeChild
      else n1).pfx ∧
    (isRoot = true → (if !isRoot && n1.edges.length = 1 && !n1.leaf.isSome then
      n1.mergeChild else n1) = n1) ∧
    (∀ pre, entriesN pre (if !isRoot && n1.edges.length = 1 && !n1.leaf.isSome then
      n1.mergeChild else n1) = entriesN pre n1) ∧
    (compactL n1.edges = true →
      (2 ≤ n1.edges.length ∨ n1.leaf.isSome = true ∨
        (n1.edges.length = 1 ∧ n1.leaf = none) ∨ isRoot = true) →
      compactN isRoot (if !isRoot && n1.edges.length = 1 && !n1.leaf.isSome then
        n1.mergeChild else n1) = true) := by
  by_cases hcond : (!isRoot && n1.edges.length = 1 && !n1.leaf.isSome) = true
  · simp only [if_pos hcond]
    simp only [Bool.and_eq_true, Bool.not_eq_true', decide_eq_true_eq] at hcond
    obtain ⟨⟨hiR, hlen⟩, hsome⟩ := hcond
    have hl : n1.leaf = none := by
      cases hq : n1.leaf with
      | none => rfl
      | some v => rw [hq] at hsome; cases hsome
    obtain ⟨e1, he⟩ := List.length_eq_one.1 hlen
    rcases e1 with ⟨lc, c⟩
    have hcwf : wfbN c = true := by
      obtain ⟨_, hkids⟩ := wfbN_parts n1 hwf1
      exact (hkids (lc, c) (by rw [he]; exact List.mem_singleton.2 rfl)).2.2
    refine ⟨wfb_merge he hcwf, ?_, ?_, fun pre => entries_merge he hl pre, ?_⟩
    · rw [pfx_merge he]
      exact List.prefix_append _ _
    · intro hq
      rw [hiR] at hq
      cases hq
    · intro hkids hown
      apply compact_merge he
      rw [compactL_forall] at hkids
      exact hkids (lc, c) (by rw [he]; exact List.mem_singleton.2 rfl)
  · refine ⟨?_, ?_, ?_, ?_, ?_⟩
    · rw [if_neg hcond]
      exact hwf1
    · rw [if_neg hcond]
    · intro _
      rw [if_neg hcond]
    · intro pre
      rw [if_neg hcond]
    · intro hkids hown
      rw [if_neg hcond]
      apply compactN_intro
      · rcases hown with hq | hq | hq | hq
        · exact Or.inr (Or.inl hq)
        · exact Or.inr (Or.inr hq)
        · obtain ⟨hq1, hq2⟩ := hq
          cases hio : isRoot with
          | true => exact Or.inl rfl
          | false =>
            exfalso
            apply hcond
            rw [hio, hq1, hq2]
            simp
        · exact Or.inl hq
      · rw [compactL_forall] at hkids
        exact hkids

theorem entries_split_key {n : Node V} {pre : Key} {kv : Key × V}
    (h : kv ∈ entriesN pre n) :
    (kv.1 = pre ++ n.pfx ∧ n.leaf = some kv.2) ∨
      kv ∈ entriesL (pre ++ n.pfx) n.edges := by
  cases hleaf : n.leaf with
  | none =>
    right
    rw [entriesN_eq] at h
    simp only [hleaf, List.nil_append] at h
    exact h
  | some v =>
    rw [entriesN_eq] at h
    simp only [hleaf, List.singleton_append] at h
    rcases List.mem_cons.1 h with hm | hm
    · left
      constructor
      · rw [hm]
      · rw [hm]
    · right
      exact hm

theorem entriesN_intro_leaf {n : Node V} {v : V} (pre : Key) (hleaf : n.leaf = some v) :
    (pre ++ n.pfx, v) ∈ entriesN pre n := by
  rw [entriesN_eq, hleaf]
  simp

theorem entriesN_intro_edges {n : Node V} {kv : Key × V} {pre : Key}
    (h : kv ∈ entriesL (pre ++ n.pfx) n.edges) : kv ∈ entriesN pre n := by
  rw [entriesN_eq]
  exact List.mem_append_right _ h

theorem entriesL_split (A : Key) (es1 es2 : List (Nat × Node V)) (e : Nat × Node V) :
    entriesL A (es1 ++ e :: es2) =
      entriesL A es1 ++ (entriesN A e.2 ++ entriesL A es2) := by
  rw [entriesL_append, entriesL_cons]

theorem entriesL_filter_nolabel {A : Key} {es : List (Nat × Node V)} {l : Nat} {k : Key}
    (hkids : ∀ e ∈ es, e.2.pfx ≠ [] ∧ e.2.pfx.head? = some e.1 ∧ wfbN e.2 = true)
    (hshape : ∀ e ∈ es, e.1 ≠ l) (t0 : Key) (hk : k = A ++ l :: t0) :
    (entriesL A es).filter (fun x => decide (x.1 ≠ k)) = entriesL A es := by
  rw [List.filter_eq_self]
  intro kv hkv
  obtain ⟨e, he, hkve⟩ := entriesL_mem A es hkv
  obtain ⟨hne, hhd, _⟩ := hkids e he
  obtain ⟨t, ht⟩ := entries_key_cons A hne hhd kv hkve
  rw [decide_eq_true_eq]
  intro hq
  rw [ht, hk] at hq
  have := List.append_cancel_left hq
  simp only [List.cons.injEq] at this
  exact hshape e he this.1

theorem entriesL_filter_below {k : Key} {es : List (Nat × Node V)}
    (hkids : ∀ e ∈ es, e.2.pfx ≠ [] ∧ e.2.pfx.head? = some e.1 ∧ wfbN e.2 = true) :
    (entriesL k es).filter (fun x => decide (x.1 ≠ k)) = entriesL k es := by
  rw [List.filter_eq_self]
  intro kv hkv
  obtain ⟨e, he, hkve⟩ := entriesL_mem k es hkv
  obtain ⟨hne, hhd, _⟩ := hkids e he
  obtain ⟨t, ht⟩ := entries_key_cons k hne hhd kv hkve
  rw [decide_eq_true_eq, ht]
  intro hq
  exact append_ne_of_ne_nil k (by simp) hq.symm

theorem delEdge_split (n : Node V) {l : Nat} {c0 : Node V}
    {es1 es2 : List (Nat × Node V)} (he : n.edges = es1 ++ (l, c0) :: es2)
    (h1 : ∀ x ∈ es1, x.1 < l) (h2 : ∀ x ∈ es2, l < x.1) :
    n.delEdge l = Node.mk n.leaf n.pfx (es1 ++ es2) := by
  rw [Node.delEdge]
  have hidx := sortSearch_find_label n.edges he h1 h2
  have hk : es1.length < n.edges.length := by rw [he]; simp
  have hgk : n.edges.getD es1.length default = (l, c0) := by
    rw [he, List.getD_eq_getElem _ _ (he ▸ hk), List.getElem_append_right le_rfl]
    simp
  rw [hidx, if_pos ⟨hk, by rw [hgk]⟩, he, eraseIdx_length_append]

theorem updateEdge_split (n : Node V) {l : Nat} {c0 : Node V} (c : Node V)
    {es1 es2 : List (Nat × Node V)} (he : n.edges = es1 ++ (l, c0) :: es2)
    (h1 : ∀ x ∈ es1, x.1 < l) (h2 : ∀ x ∈ es2, l < x.1) :
    n.updateEdge l c = some (Node.mk n.leaf n.pfx (es1 ++ (l, c) :: es2)) := by
  rw [Node.updateEdge]
  have hidx := sortSearch_find_label n.edges he h1 h2
  have hk : es1.length < n.edges.length := by rw [he]; simp
  have hgk : n.edges.getD es1.length default = (l, c0) := by
    rw [he, List.getD_eq_getElem _ _ (he ▸ hk), List.getElem_append_right le_rfl]
    simp
  rw [hidx, if_pos ⟨hk, by rw [hgk]⟩, he, set_length_append]

theorem filter_leafpart (A : Key) (lf : Option V) {k : Key} (hne : A ≠ k) :
    (match lf with
      | some w => [(A, w)]
      | none => ([] : List (Key × V))).filter (fun x => decide (x.1 ≠ k)) =
      (match lf with | some w => [(A, w)] | none => []) := by
  cases lf with
  | none => rfl
  | some w => simp [hne]

theorem key_notin_of_label {n : Node V} (hwf : wfbN n = true) {pre : Key} {l : Nat}
    {tail : Key} {v : V}
    (hchild : ∀ c : Node V, (l, c) ∈ n.edges →
      ((pre ++ n.pfx) ++ l :: tail, v) ∉ entriesN (pre ++ n.pfx) c) :
    ((pre ++ n.pfx) ++ l :: tail, v) ∉ entriesN pre n := by
  intro hmem
  obtain ⟨_, hkids⟩ := wfbN_parts n hwf
  rcases entries_split_key hmem with ⟨hk, _⟩ | hm
  · exact append_ne_of_ne_nil (pre ++ n.pfx) (by simp) hk.symm
  · obtain ⟨e, he, hkve⟩ := entriesL_mem _ _ hm
    obtain ⟨hne, hhd, _⟩ := hkids e he
    obtain ⟨t, ht⟩ := entries_key_cons (pre ++ n.pfx) hne hhd _ hkve
    simp only at ht
    have hlab : e.1 = l := by
      have := List.append_cancel_left ht
      simp only [List.cons.injEq] at this
      exact this.1.symm
    have hmem2 : (l, e.2) ∈ n.edges := by
      have : e = (l, e.2) := by
        rw [← hlab]
      rw [← this]
      exact he
    exact hchild e.2 hmem2 hkve

/-- The deletion fixup `deleteFix` at the parent `n` of the value-bearing
child: it removes exactly the child's own key from the entry list, and
preserves well-formedness, the parent prefix (up to the parent-merge
extension) and compaction. -/
theorem deleteFix_spec (isRoot : Bool) (n child : Node V) (l : Nat) (v0 : V)
    (hwf : wfbN n = true) (hmem : (l, child) ∈ n.edges)
    (hleaf : child.leaf = some v0) :
    wfbN (deleteFix isRoot n l child) = true ∧
    n.pfx <+: (deleteFix isRoot n l child).pfx ∧
    (isRoot = true → (deleteFix isRoot n l child).pfx = n.pfx) ∧
    (∀ pre : Key, ((pre ++ n.pfx) ++ child.pfx, v0) ∈ entriesN pre n ∧
      entriesN pre (deleteFix isRoot n l child) = (entriesN pre n).filter
        (fun e => decide (e.1 ≠ (pre ++ n.pfx) ++ child.pfx))) ∧
    (compactN isRoot n = true →
      compactN isRoot (deleteFix isRoot n l child) = true) := by
  obtain ⟨hsort, hkids⟩ := wfbN_parts n hwf
  obtain ⟨hcne, hchd, hcwf⟩ := hkids _ hmem
  simp only at hcne hchd hcwf
  obtain ⟨hcsort, hckids⟩ := wfbN_parts child hcwf
  obtain ⟨es1, es2, hsplit, hlt1, hlt2⟩ := sorted_split hsort hmem
  obtain ⟨cpt, hcp⟩ : ∃ cpt, child.pfx = l :: cpt := by
    cases hcp : child.pfx with
    | nil => exact absurd hcp hcne
    | cons hd cpt =>
      rw [hcp] at hchd
      simp only [List.head?_cons, Option.some.injEq] at hchd
      exact ⟨cpt, by rw [hchd]⟩
  have hin : ∀ pre : Key, ((pre ++ n.pfx) ++ child.pfx, v0) ∈ entriesN pre n := by
    intro pre
    rw [entriesN_eq, hsplit, entriesL_split]
    apply List.mem_append_right
    apply List.mem_append_right
    apply List.mem_append_left
    rw [entriesN_eq, hleaf]
    exact List.mem_append_left _ (List.mem_singleton.2 rfl)
  have hfil : ∀ pre : Key,
      (entriesN pre n).filter
          (fun e => decide (e.1 ≠ (pre ++ n.pfx) ++ child.pfx)) =
        (match n.leaf with | some w => [(pre ++ n.pfx, w)] | none => []) ++
          (entriesL (pre ++ n.pfx) es1 ++
            (entriesL ((pre ++ n.pfx) ++ child.pfx) child.edges ++
              entriesL (pre ++ n.pfx) es2)) := by
    intro pre
    rw [entriesN_eq, hsplit, entriesL_split]
    rw [List.filter_append, List.filter_append, List.filter_append]
    rw [filter_leafpart _ _ (append_ne_of_ne_nil _ hcne)]
    rw [entriesL_filter_nolabel
      (fun e he => hkids e (by rw [hsplit]; exact List.mem_append_left _ he))
      (fun e he => ne_of_lt (hlt1 e he)) cpt (by rw [hcp])]
    rw [entriesL_filter_nolabel
      (fun e he => hkids e (by
        rw [hsplit]
        exact List.mem_append_right _ (List.mem_cons_of_mem _ he)))
      (fun e he => ne_of_gt (hlt2 e he)) cpt (by rw [hcp])]
    congr 1
    congr 1
    congr 1
    rw [entriesN_eq, hleaf, List.filter_append, entriesL_filter_below hckids]
    simp
  simp only [deleteFix]
  rcases hce : child.edges with _ | ⟨⟨lc, cc⟩, ctl⟩
  · rw [hce] at hfil
    have hc1 : (Node.mk none child.pfx
        ([] : List (Nat × Node V))).edges.isEmpty = true := by
      simp
    rw [if_pos hc1]
    have hdel : n.delEdge l = Node.mk n.leaf n.pfx (es1 ++ es2) :=
      delEdge_split n hsplit hlt1 hlt2
    rw [hdel]
    have hwf1 : wfbN (Node.mk n.leaf n.pfx (es1 ++ es2)) = true := by
      apply wfbN_intro
      · simp only [Node.edges_mk, List.map_append]
        have hsub : List.Sublist (es1.map Prod.fst ++ es2.map Prod.fst)
            (es1.map Prod.fst ++ l :: es2.map Prod.fst) :=
          List.Sublist.append_left (List.sublist_cons_self _ _) _
        apply List.Pairwise.sublist hsub
        rw [hsplit] at hsort
        simpa using hsort
      · simp only [Node.edges_mk]
        intro e he
        rcases List.mem_append.1 he with he1 | he1
        · exact hkids e (by rw [hsplit]; exact List.mem_append_left _ he1)
        · exact hkids e (by
            rw [hsplit]
            exact List.mem_append_right _ (List.mem_cons_of_mem _ he1))
    obtain ⟨m1, m2, m3, m4, m5⟩ := mergeStep isRoot _ hwf1
    refine ⟨m1, m2, ?_, fun pre => ⟨hin pre, ?_⟩, ?_⟩
    · intro hi
      rw [m3 hi, Node.pfx_mk]
    · rw [m4 pre, hfil pre, entriesN_eq]
      simp only [Node.leaf_mk, Node.pfx_mk, Node.edges_mk]
      simp [entriesL_append]
    · intro hcn
      obtain ⟨h1, h2⟩ := compactN_parts isRoot n hcn
      apply m5
      · rw [compactL_forall]
        intro e he
        simp only [Node.edges_mk] at he
        rcases List.mem_append.1 he with he1 | he1
        · exact h2 e (by rw [hsplit]; exact List.mem_append_left _ he1)
        · exact h2 e (by
            rw [hsplit]
            exact List.mem_append_right _ (List.mem_cons_of_mem _ he1))
      · simp only [Node.edges_mk, Node.leaf_mk, List.length_append]
        rcases h1 with hq | hq | hq
        · exact Or.inr (Or.inr (Or.inr hq))
        · rw [hsplit] at hq
          simp only [List.length_append, List.length_cons] at hq
          rcases Nat.lt_or_ge (es1.length + es2.length) 2 with hl2 | hl2
          · cases hl : n.leaf with
            | none => exact Or.inr (Or.inr (Or.inl ⟨by omega, rfl⟩))
            | some w => exact Or.inr (Or.inl rfl)
          · exact Or.inl hl2
        · exact Or.inr (Or.inl hq)
  · cases ctl with
    | nil =>
      rw [hce] at hfil
      have hc1 : ¬((Node.mk none child.pfx [(lc, cc)]).edges.isEmpty = true) := by
        simp
      rw [if_neg hc1]
      have hc2 : (Node.mk none child.pfx [(lc, cc)]).edges.length = 1 := by
        simp
      rw [if_pos hc2]
      have hccm : (lc, cc) ∈ child.edges := by
        rw [hce]
        exact List.mem_singleton.2 rfl
      obtain ⟨hccne, hcchd, hccwf⟩ := hckids _ hccm
      simp only at hccne hcchd hccwf
      have hedges1 : (Node.mk none child.pfx [(lc, cc)]).edges = [(lc, cc)] := by
        simp
      have hmerge : (Node.mk none child.pfx [(lc, cc)]).mergeChild
          = Node.mk cc.leaf (child.pfx ++ cc.pfx) cc.edges := by
        rw [mergeChild_single hedges1]
        simp
      rw [hmerge]
      have hrepl : n.replaceEdge l (Node.mk cc.leaf (child.pfx ++ cc.pfx) cc.edges)
          = Node.mk n.leaf n.pfx
              (es1 ++ (l, Node.mk cc.leaf (child.pfx ++ cc.pfx) cc.edges) :: es2) :=
        replaceEdge_split n _ hsplit (fun x hx => ne_of_lt (hlt1 x hx))
          (fun x hx => ne_of_gt (hlt2 x hx))
      rw [hrepl]
      have hM : ∀ pre2 : Key,
          entriesN pre2 (Node.mk cc.leaf (child.pfx ++ cc.pfx) cc.edges)
            = entriesL (pre2 ++ child.pfx) [(lc, cc)] := by
        intro pre2
        rw [← hmerge, entries_merge hedges1 rfl, entriesN_eq]
        simp
      have hwf1 : wfbN (Node.mk n.leaf n.pfx
          (es1 ++ (l, Node.mk cc.leaf (child.pfx ++ cc.pfx) cc.edges) :: es2))
          = true := by
        apply wfbN_intro
        · simp only [Node.edges_mk]
          rw [hsplit] at hsort
          simp only [List.map_append, List.map_cons] at hsort ⊢
          exact hsort
        · simp only [Node.edges_mk]
          intro e he
          rcases List.mem_append.1 he with he1 | he1
          · exact hkids e (by rw [hsplit]; exact List.mem_append_left _ he1)
          · rcases List.mem_cons.1 he1 with he2 | he2
            · subst he2
              refine ⟨?_, ?_, ?_⟩
              · simp only [Node.pfx_mk]
                rw [hcp]
                simp
              · simp only [Node.pfx_mk]
                rw [hcp]
                rfl
              · rw [wfbN_edges_only cc.leaf cc.leaf (child.pfx ++ cc.pfx)
                  cc.pfx cc.edges, Node.eta]
                exact hccwf
            · exact hkids e (by
                rw [hsplit]
                exact List.mem_append_right _ (List.mem_cons_of_mem _ he2))
      obtain ⟨m1, m2, m3, m4, m5⟩ := mergeStep isRoot _ hwf1
      refine ⟨m1, m2, ?_, fun pre => ⟨hin pre, ?_⟩, ?_⟩
      · intro hi
        rw [m3 hi, Node.pfx_mk]
      · rw [m4 pre, hfil pre, entriesN_eq]
        simp only [Node.leaf_mk, Node.pfx_mk, Node.edges_mk]
        rw [entriesL_split, hM (pre ++ n.pfx)]
      · intro hcn
        obtain ⟨h1, h2⟩ := compactN_parts isRoot n hcn
        have hccc : compactN false child = true := h2 (l, child) (by
          rw [hsplit]
          exact List.mem_append_right _ (List.mem_cons_self _ _))
        obtain ⟨hc1d, hc2d⟩ := compactN_parts false child hccc
        have hmc : compactN false
            (Node.mk cc.leaf (child.pfx ++ cc.pfx) cc.edges) = true := by
          rw [← hmerge]
          apply compact_merge hedges1
          exact hc2d (lc, cc) hccm
        apply m5
        · rw [compactL_forall]
          intro e he
          simp only [Node.edges_mk] at he
          rcases List.mem_append.1 he with he1 | he1
          · exact h2 e (by rw [hsplit]; exact List.mem_append_left _ he1)
          · rcases List.mem_cons.1 he1 with he2 | he2
            · subst he2
              exact hmc
            · exact h2 e (by
                rw [hsplit]
                exact List.mem_append_right _ (List.mem_cons_of_mem _ he2))
        · simp only [Node.edges_mk, Node.leaf_mk, List.length_append,
            List.length_cons]
          rcases h1 with hq | hq | hq
          · exact Or.inr (Or.inr (Or.inr hq))
          · rw [hsplit] at hq
            simp only [List.length_append, List.length_cons] at hq
            exact Or.inl (by omega)
          · exact Or.inr (Or.inl hq)
    | cons e2 ctl2 =>
      rw [hce] at hfil
      have hc1 : ¬((Node.mk none child.pfx
          ((lc, cc) :: e2 :: ctl2)).edges.isEmpty = true) := by
        simp
      rw [if_neg hc1]
      have hc2 : ¬((Node.mk none child.pfx
          ((lc, cc) :: e2 :: ctl2)).edges.length = 1) := by
        simp
      rw [if_neg hc2]
      have hrepl : n.replaceEdge l (Node.mk none child.pfx ((lc, cc) :: e2 :: ctl2))
          = Node.mk n.leaf n.pfx
              (es1 ++ (l, Node.mk none child.pfx ((lc, cc) :: e2 :: ctl2)) :: es2) :=
        replaceEdge_split n _ hsplit (fun x hx => ne_of_lt (hlt1 x hx))
          (fun x hx => ne_of_gt (hlt2 x hx))
      rw [hrepl]
      have hM : ∀ pre2 : Key,
          entriesN pre2 (Node.mk none child.pfx ((lc, cc) :: e2 :: ctl2))
            = entriesL (pre2 ++ child.pfx) ((lc, cc) :: e2 :: ctl2) := by
        intro pre2
        rw [entriesN_eq]
        simp
      have hwf1 : wfbN (Node.mk n.leaf n.pfx
          (es1 ++ (l, Node.mk none child.pfx ((lc, cc) :: e2 :: ctl2)) :: es2))
          = true := by
        apply wfbN_intro
        · simp only [Node.edges_mk]
          rw [hsplit] at hsort
          simp only [List.map_append, List.map_cons] at hsort ⊢
          exact hsort
        · simp only [Node.edges_mk]
          intro e he
          rcases List.mem_append.1 he with he1 | he1
          · exact hkids e (by rw [hsplit]; exact List.mem_append_left _ he1)
          · rcases List.mem_cons.1 he1 with he2 | he2
            · subst he2
              refine ⟨hcne, hchd, ?_⟩
              rw [wfbN_edges_only none child.leaf child.pfx child.pfx
                ((lc, cc) :: e2 :: ctl2), ← hce, Node.eta]
              exact hcwf
            · exact hkids e (by
                rw [hsplit]
                exact List.mem_append_right _ (List.mem_cons_of_mem _ he2))
      obtain ⟨m1, m2, m3, m4, m5⟩ := mergeStep isRoot _ hwf1
      refine ⟨m1, m2, ?_, fun pre => ⟨hin pre, ?_⟩, ?_⟩
      · intro hi
        rw [m3 hi, Node.pfx_mk]
      · rw [m4 pre, hfil pre, entriesN_eq]
        simp only [Node.leaf_mk, Node.pfx_mk, Node.edges_mk]
        rw [entriesL_split, hM (pre ++ n.pfx)]
      · intro hcn
        obtain ⟨h1, h2⟩ := compactN_parts isRoot n hcn
        have hccc : compactN false child = true := h2 (l, child) (by
          rw [hsplit]
          exact List.mem_append_right _ (List.mem_cons_self _ _))
        obtain ⟨hc1d, hc2d⟩ := compactN_parts false child hccc
        have hc1c : compactN false
            (Node.mk none child.pfx ((lc, cc) :: e2 :: ctl2)) = true := by
          rw [hce] at hc2d
          apply compactN_intro
          · refine Or.inr (Or.inl ?_)
            simp
          · simpa using hc2d
        apply m5
        · rw [compactL_forall]
          intro e he
          simp only [Node.edges_mk] at he
          rcases List.mem_append.1 he with he1 | he1
          · exact h2 e (by rw [hsplit]; exact List.mem_append_left _ he1)
          · rcases List.mem_cons.1 he1 with he2 | he2
            · subst he2
              exact hc1c
            · exact h2 e (by
                rw [hsplit]
                exact List.mem_append_right _ (List.mem_cons_of_mem _ he2))
        · simp only [Node.edges_mk, Node.leaf_mk, List.length_append,
            List.length_cons]
          rcases h1 with hq | hq | hq
          · exact Or.inr (Or.inr (Or.inr hq))
          · rw [hsplit] at hq
            simp only [List.length_append, List.length_cons] at hq
            exact Or.inl (by omega)
          · exact Or.inr (Or.inl hq)

/-- The master characterization of `nodeDelete` on well-formed nodes:
`none` means the key is not stored; on success, the deleted value was stored
under the key, the new node's entries are exactly the old ones without that
key, and well-formedness, the node prefix (up to parent-merge extension) and
compaction are preserved. -/
theorem nodeDelete_spec :
    ∀ (isRoot : Bool) (n : Node V) (s : Key), wfbN n = true → s ≠ [] →
      (nodeDelete isRoot n s = none →
        ∀ (pre : Key) (v : V), ((pre ++ n.pfx) ++ s, v) ∉ entriesN pre n) ∧
      (∀ (v : V) (n2 : Node V), nodeDelete isRoot n s = some (v, n2) →
        wfbN n2 = true ∧ n.pfx <+: n2.pfx ∧ (isRoot = true → n2.pfx = n.pfx) ∧
        (∀ pre : Key, ((pre ++ n.pfx) ++ s, v) ∈ entriesN pre n ∧
          entriesN pre n2 = (entriesN pre n).filter
            (fun e => decide (e.1 ≠ (pre ++ n.pfx) ++ s))) ∧
        (compactN isRoot n = true → compactN isRoot n2 = true)) := by
  intro isRoot n s
  induction isRoot, n, s using nodeDelete.induct with
  | case1 isRoot n =>
    intro hwf hs
    exact absurd rfl hs
  | case2 isRoot n l tail hge =>
    intro hwf hs
    obtain ⟨hsort, hkids⟩ := wfbN_parts n hwf
    have habs := getEdge_none_forall hsort hge
    constructor
    · intro _ pre v
      apply key_notin_of_label hwf
      intro c hmemc
      exact absurd rfl (habs (l, c) hmemc)
    · intro v n2 heq
      rw [nodeDelete] at heq
      simp only [hge] at heq
      simp at heq
  | case7 isRoot n l tail child hc hge hpre =>
    intro hwf hs
    obtain ⟨hsort, hkids⟩ := wfbN_parts n hwf
    have hmem : (l, child) ∈ n.edges := getEdge_mem hge
    constructor
    · intro _ pre v
      apply key_notin_of_label hwf
      intro c hmemc
      have hcc : c = child := sorted_mem_unique hsort hmemc hmem
      subst hcc
      intro hkv
      have hkp := entries_key_extends c (pre ++ n.pfx) _ hkv
      simp only at hkp
      have : c.pfx <+: l :: tail := by
        have := (List.prefix_append_right_inj (pre ++ n.pfx)).1 hkp
        exact this
      rw [← List.isPrefixOf_iff_prefix] at this
      exact absurd this (by simpa using hpre)
    · intro v n2 heq
      rw [nodeDelete] at heq
      simp only [hge, if_neg hpre] at heq
      simp at heq
  | case3 isRoot n l tail child hc hge hleaf hpre hdrop =>
    intro hwf hs
    obtain ⟨hsort, hkids⟩ := wfbN_parts n hwf
    have hmem : (l, child) ∈ n.edges := getEdge_mem hge
    obtain ⟨hcne, hchd, hcwf⟩ := hkids _ hmem
    obtain ⟨hcsort, hckids⟩ := wfbN_parts child hcwf
    have hsc : (l :: tail : Key) = child.pfx := by
      have hp2 : child.pfx <+: (l :: tail) := List.isPrefixOf_iff_prefix.1 hpre
      obtain ⟨t, ht⟩ := hp2
      have hdt : (l :: tail : Key).drop child.pfx.length = t := by
        rw [← ht]
        exact List.drop_left _ _
      rw [hdrop] at hdt
      rw [← ht, ← hdt]
      simp
    constructor
    · intro _ pre v
      apply key_notin_of_label hwf
      intro c hmemc
      have hcc : c = child := sorted_mem_unique hsort hmemc hmem
      subst hcc
      intro hkv
      rcases entries_split_key hkv with ⟨_, hlf⟩ | hm
      · rw [hleaf] at hlf
        cases hlf
      · obtain ⟨e, he, hkve⟩ := entriesL_mem _ _ hm
        obtain ⟨hne2, hhd2, _⟩ := hckids e he
        obtain ⟨t, ht⟩ := entries_key_cons _ hne2 hhd2 _ hkve
        simp only at ht
        rw [hsc] at ht
        exact append_ne_of_ne_nil ((pre ++ n.pfx) ++ c.pfx) (by simp) ht
    · intro v n2 heq
      rw [nodeDelete] at heq
      simp only [hge, if_pos hpre, hdrop, hleaf] at heq
      simp at heq
  | case4 isRoot n l tail child hc hge v0 hleaf hpre hdrop =>
    intro hwf hs
    obtain ⟨hsort, hkids⟩ := wfbN_parts n hwf
    have hmem : (l, child) ∈ n.edges := getEdge_mem hge
    obtain ⟨hcne, hchd, hcwf⟩ := hkids _ hmem
    simp only at hcne hchd hcwf
    have hsc : (l :: tail : Key) = child.pfx := by
      have hp2 : child.pfx <+: (l :: tail) := List.isPrefixOf_iff_prefix.1 hpre
      obtain ⟨t, ht⟩ := hp2
      have hdt : (l :: tail : Key).drop child.pfx.length = t := by
        rw [← ht]
        exact List.drop_left _ _
      rw [hdrop] at hdt
      rw [← ht, ← hdt]
      simp
    obtain ⟨d1, d2, d3, d4, d5⟩ := deleteFix_spec isRoot n child l v0 hwf hmem hleaf
    constructor
    · intro hnone
      rw [nodeDelete] at hnone
      simp only [hge, if_pos hpre, hdrop, hleaf] at hnone
      simp at hnone
    · intro v n2 heq
      rw [nodeDelete] at heq
      simp only [hge, if_pos hpre, hdrop, hleaf] at heq
      injection heq with heq1
      injection heq1 with hv hn2
      subst hv
      subst hn2
      refine ⟨d1, d2, d3, ?_, d5⟩
      intro pre
      rw [hsc]
      exact d4 pre
  | case5 isRoot n l tail child hc hge r tail2 hpre hdrop hrec ih =>
    intro hwf hs
    obtain ⟨hsort, hkids⟩ := wfbN_parts n hwf
    have hmem : (l, child) ∈ n.edges := getEdge_mem hge
    obtain ⟨hcne, hchd, hcwf⟩ := hkids _ hmem
    have hlt : (l :: tail : Key) = child.pfx ++ (r :: tail2) := by
      have hp2 : child.pfx <+: (l :: tail) := List.isPrefixOf_iff_prefix.1 hpre
      obtain ⟨t, ht⟩ := hp2
      have hdt : (l :: tail : Key).drop child.pfx.length = t := by
        rw [← ht]
        exact List.drop_left _ _
      rw [hdrop] at hdt
      rw [← ht, ← hdt]
    constructor
    · intro _ pre v
      apply key_notin_of_label hwf
      intro c hmemc
      have hcc : c = child := sorted_mem_unique hsort hmemc hmem
      subst hcc
      have hni := (ih hcwf (by rw [hdrop]; simp)).1 hrec (pre ++ n.pfx) v
      rw [hdrop] at hni
      intro hkv
      apply hni
      have hkey : ((pre ++ n.pfx) ++ l :: tail : Key)
          = ((pre ++ n.pfx) ++ c.pfx) ++ r :: tail2 := by
        rw [hlt]
        simp [List.append_assoc]
      rw [← hkey]
      exact hkv
    · intro v n2 heq
      rw [nodeDelete] at heq
      rw [hdrop] at hrec
      simp only [hge, if_pos hpre, hdrop, hrec] at heq
      simp at heq
  | case6 isRoot n l tail child hc hge r tail2 v0 child2 hpre hdrop hrec ih =>
    intro hwf hs
    obtain ⟨hsort, hkids⟩ := wfbN_parts n hwf
    have hmem : (l, child) ∈ n.edges := getEdge_mem hge
    obtain ⟨hcne, hchd, hcwf⟩ := hkids _ hmem
    simp only at hcne hchd hcwf
    have hlt : (l :: tail : Key) = child.pfx ++ (r :: tail2) := by
      have hp2 : child.pfx <+: (l :: tail) := List.isPrefixOf_iff_prefix.1 hpre
      obtain ⟨t, ht⟩ := hp2
      have hdt : (l :: tail : Key).drop child.pfx.length = t := by
        rw [← ht]
        exact List.drop_left _ _
      rw [hdrop] at hdt
      rw [← ht, ← hdt]
    have hih := (ih hcwf (by rw [hdrop]; simp)).2 v0 child2 hrec
    rw [hdrop] at hih
    obtain ⟨hwf2, hpfx2, _, hentry2, hcompact2⟩ := hih
    rw [hdrop] at hrec
    have hh2 : child2.pfx.head? = some l := by
      rw [head?_of_pfx hpfx2 hcne, hchd]
    have hcne2 : child2.pfx ≠ [] := by
      intro hq
      rw [hq] at hh2
      cases hh2
    obtain ⟨es1, es2, hsplit, hlt1, hlt2⟩ := sorted_split hsort hmem
    have hrepl : n.replaceEdge l child2 =
        Node.mk n.leaf n.pfx (es1 ++ (l, child2) :: es2) :=
      replaceEdge_split n child2 hsplit (fun x hx => ne_of_lt (hlt1 x hx))
        (fun x hx => ne_of_gt (hlt2 x hx))
    constructor
    · intro hnone
      rw [nodeDelete] at hnone
      simp only [hge, if_pos hpre, hdrop, hrec] at hnone
      simp at hnone
    · intro v n2 heq
      rw [nodeDelete] at heq
      simp only [hge, if_pos hpre, hdrop, hrec] at heq
      injection heq with heq1
      injection heq1 with hv hn2
      subst hv
      subst hn2
      refine ⟨?_, ?_, ?_, ?_, ?_⟩
      · rw [hrepl]
        apply wfbN_intro
        · simp only [Node.edges_mk]
          rw [hsplit] at hsort
          simp only [List.map_append, List.map_cons] at hsort ⊢
          exact hsort
        · simp only [Node.edges_mk]
          intro e he
          rcases List.mem_append.1 he with he1 | he1
          · exact hkids e (by rw [hsplit]; exact List.mem_append_left _ he1)
          · rcases List.mem_cons.1 he1 with he2 | he2
            · subst he2
              exact ⟨hcne2, hh2, hwf2⟩
            · exact hkids e (by
                rw [hsplit]
                exact List.mem_append_right _ (List.mem_cons_of_mem _ he2))
      · rw [hrepl]
        exact List.prefix_refl _
      · intro _
        rw [hrepl]
        rfl
      · intro pre
        have hkeyr : (((pre ++ n.pfx) ++ child.pfx) ++ r :: tail2 : Key)
            = (pre ++ n.pfx) ++ l :: tail := by
          rw [hlt]
          simp [List.append_assoc]
        obtain ⟨hin0, hfil0⟩ := hentry2 (pre ++ n.pfx)
        constructor
        · rw [entriesN_eq, hsplit, entriesL_split]
          apply List.mem_append_right
          apply List.mem_append_right
          apply List.mem_append_left
          rw [← hkeyr]
          exact hin0
        · rw [hrepl, entriesN_eq]
          simp only [Node.leaf_mk, Node.pfx_mk, Node.edges_mk]
          rw [entriesL_split]
          conv_rhs => rw [entriesN_eq, hsplit, entriesL_split]
          rw [List.filter_append, List.filter_append, List.filter_append]
          rw [filter_leafpart (pre ++ n.pfx) n.leaf
            (append_ne_of_ne_nil _ (by simp))]
          rw [entriesL_filter_nolabel
            (fun e he => hkids e (by rw [hsplit]; exact List.mem_append_left _ he))
            (fun e he => ne_of_lt (hlt1 e he)) tail rfl]
          rw [entriesL_filter_nolabel
            (fun e he => hkids e (by
              rw [hsplit]
              exact List.mem_append_right _ (List.mem_cons_of_mem _ he)))
            (fun e he => ne_of_gt (hlt2 e he)) tail rfl]
          rw [hkeyr] at hfil0
          rw [hfil0]
      · intro hcn
        obtain ⟨h1, h2⟩ := compactN_parts isRoot n hcn
        rw [hrepl]
        apply compactN_intro
        · simp only [Node.edges_mk, Node.leaf_mk]
          have hlen : (es1 ++ (l, child2) :: es2).length = n.edges.length := by
            rw [hsplit]
            simp
          rcases h1 with hq | hq | hq
          · exact Or.inl hq
          · exact Or.inr (Or.inl (by rw [hlen]; exact hq))
          · exact Or.inr (Or.inr hq)
        · simp only [Node.edges_mk]
          intro e he
          rcases List.mem_append.1 he with he1 | he1
          · exact h2 e (by rw [hsplit]; exact List.mem_append_left _ he1)
          · rcases List.mem_cons.1 he1 with he2 | he2
            · subst he2
              exact hcompact2 (h2 (l, child) (by
                rw [hsplit]
                exact List.mem_append_right _ (List.mem_cons_self _ _)))
            · exact h2 e (by
                rw [hsplit]
                exact List.mem_append_right _ (List.mem_cons_of_mem _ he2))

/-! `deletePrefix`: the counting walk and prefix-filter helpers. -/

theorem stopTrace_const_false (l : List (Key × V)) :
    stopTrace (fun _ _ => false) l = (false, l) := by
  induction l with
  | nil => rfl
  | cons e tl ih =>
    rw [stopTrace]
    simp [ih]

theorem walk_false_length (n : Node V) (pre : Key) :
    (recursiveWalkN (fun _ _ => false) pre n).2.length = numLeavesN n := by
  rw [recursiveWalkN_stopTrace, stopTrace_const_false]
  exact (numLeavesN_entries n pre).symm

theorem numLeaves_congr {m1 m2 : Node V} (h : entriesN [] m1 = entriesN [] m2) :
    numLeavesN m1 = numLeavesN m2 := by
  rw [numLeavesN_entries m1 [], numLeavesN_entries m2 [], h]

theorem not_prefix_append_left {A s : Key} (hs : s ≠ []) : ¬ ((A ++ s) <+: A) := by
  intro h
  have hle := h.length_le
  simp only [List.length_append] at hle
  cases s with
  | nil => exact hs rfl
  | cons a tl => simp at hle

theorem filterP_leafpart (A : Key) (lf : Option V) {k : Key} (hne : ¬ (k <+: A)) :
    (match lf with
      | some w => [(A, w)]
      | none => ([] : List (Key × V))).filter (fun x => decide (¬ (k <+: x.1))) =
      (match lf with | some w => [(A, w)] | none => []) := by
  cases lf with
  | none => rfl
  | some w => simp [hne]

theorem entriesL_filterP_nolabel {A : Key} {es : List (Nat × Node V)} {l : Nat}
    {k : Key}
    (hkids : ∀ e ∈ es, e.2.pfx ≠ [] ∧ e.2.pfx.head? = some e.1 ∧ wfbN e.2 = true)
    (hshape : ∀ e ∈ es, e.1 ≠ l) (t0 : Key) (hk : k = A ++ l :: t0) :
    (entriesL A es).filter (fun x => decide (¬ (k <+: x.1))) = entriesL A es := by
  rw [List.filter_eq_self]
  intro kv hkv
  obtain ⟨e, he, hkve⟩ := entriesL_mem A es hkv
  obtain ⟨hne, hhd, _⟩ := hkids e he
  obtain ⟨t, ht⟩ := entries_key_cons A hne hhd kv hkve
  rw [decide_eq_true_eq]
  intro hq
  rw [ht, hk] at hq
  have h2 : (l :: t0 : Key) <+: e.1 :: t := (List.prefix_append_right_inj A).1 hq
  obtain ⟨u, hu⟩ := h2
  simp only [List.cons_append, List.cons.injEq] at hu
  exact hshape e he hu.1.symm

/-- The master characterization of `deletePrefix` on well-formed nodes: the
resulting node keeps exactly the entries whose key does not extend the
deleted prefix, the count is the number of removed entries, and
well-formedness and the node prefix (up to the parent-merge extension) are
preserved.  Compaction is deliberately not claimed: the source leaves the
cleared child node in place. -/
theorem nodeDeletePrefix_spec :
    ∀ (isRoot : Bool) (n : Node V) (s : Key), wfbN n = true →
      wfbN (nodeDeletePrefix isRoot n s).2 = true ∧
      n.pfx <+: (nodeDeletePrefix isRoot n s).2.pfx ∧
      (isRoot = true → (nodeDeletePrefix isRoot n s).2.pfx = n.pfx) ∧
      (nodeDeletePrefix isRoot n s).1
          + numLeavesN (nodeDeletePrefix isRoot n s).2 = numLeavesN n ∧
      (∀ pre : Key,
        entriesN pre (nodeDeletePrefix isRoot n s).2 =
          (entriesN pre n).filter
            (fun e => decide (¬ ((pre ++ n.pfx) ++ s <+: e.1)))) := by
  intro isRoot n s
  induction isRoot, n, s using nodeDeletePrefix.induct with
  | case1 isRoot n =>
    intro hwf
    have hrun : nodeDeletePrefix isRoot n [] =
        ((recursiveWalkN (fun _ _ => false) [] n).2.length,
          Node.mk none n.pfx []) := by
      rw [nodeDeletePrefix]
    rw [hrun]
    refine ⟨by apply wfbN_intro <;> simp, ?_, fun _ => by simp, ?_, ?_⟩
    · simp only [Node.pfx_mk]
      exact List.prefix_refl _
    · rw [walk_false_length n []]
      have h0 : numLeavesN (Node.mk none n.pfx ([] : List (Nat × Node V))) = 0 := by
        rw [numLeavesN_eq]
        simp
      rw [h0]
      simp
    · intro pre
      have h0 : entriesN pre (Node.mk none n.pfx ([] : List (Nat × Node V))) = [] := by
        rw [entriesN_eq]
        simp
      rw [h0]
      symm
      rw [List.filter_eq_nil_iff]
      intro kv hkv
      have hkp := entries_key_extends n pre kv hkv
      simp only [List.append_nil, decide_eq_true_eq, not_not]
      exact hkp
  | case2 isRoot n l tail hge =>
    intro hwf
    have hrun : nodeDeletePrefix isRoot n (l :: tail) = (0, n) := by
      rw [nodeDeletePrefix, hge]
    rw [hrun]
    refine ⟨hwf, List.prefix_refl _, fun _ => rfl, by simp, ?_⟩
    intro pre
    symm
    rw [List.filter_eq_self]
    intro kv hkv
    rw [decide_eq_true_eq]
    intro hq
    obtain ⟨hsort, hkids⟩ := wfbN_parts n hwf
    rcases entries_split_key hkv with ⟨hk, _⟩ | hm
    · rw [hk] at hq
      exact not_prefix_append_left (by simp) hq
    · obtain ⟨e, he, hkve⟩ := entriesL_mem _ _ hm
      obtain ⟨hne, hhd, _⟩ := hkids e he
      obtain ⟨t, ht⟩ := entries_key_cons _ hne hhd _ hkve
      rw [ht] at hq
      have h2 : (l :: tail : Key) <+: e.1 :: t :=
        (List.prefix_append_right_inj (pre ++ n.pfx)).1 hq
      obtain ⟨u, hu⟩ := h2
      simp only [List.cons_append, List.cons.injEq] at hu
      exact getEdge_none_forall hsort hge e he hu.1.symm
  | case3 isRoot n l tail child hc hge hab =>
    intro hwf
    have hrun : nodeDeletePrefix isRoot n (l :: tail) = (0, n) := by
      rw [nodeDeletePrefix]
      simp only [hge]
      rw [if_pos hab]
    rw [hrun]
    refine ⟨hwf, List.prefix_refl _, fun _ => rfl, by simp, ?_⟩
    intro pre
    symm
    rw [List.filter_eq_self]
    intro kv hkv
    rw [decide_eq_true_eq]
    intro hq
    obtain ⟨hsort, hkids⟩ := wfbN_parts n hwf
    simp only [Bool.and_eq_true, Bool.not_eq_true'] at hab
    obtain ⟨hab1, hab2⟩ := hab
    rcases entries_split_key hkv with ⟨hk, _⟩ | hm
    · rw [hk] at hq
      exact not_prefix_append_left (by simp) hq
    · obtain ⟨e, he, hkve⟩ := entriesL_mem _ _ hm
      obtain ⟨hne, hhd, _⟩ := hkids e he
      obtain ⟨t, ht⟩ := entries_key_cons _ hne hhd _ hkve
      by_cases hel : e.1 = l
      · have hmem : (l, child) ∈ n.edges := getEdge_mem hge
        have he2 : (l, e.2) ∈ n.edges := by
          rw [← hel]
          cases e
          exact he
        have hcc : e.2 = child := sorted_mem_unique hsort he2 hmem
        have hkp := entries_key_extends e.2 (pre ++ n.pfx) kv hkve
        rw [hcc] at hkp
        rcases List.prefix_or_prefix_of_prefix hq hkp with hd | hd
        · have hd2 := (List.prefix_append_right_inj (pre ++ n.pfx)).1 hd
          rw [← List.isPrefixOf_iff_prefix] at hd2
          rw [hab2] at hd2
          cases hd2
        · have hd2 := (List.prefix_append_right_inj (pre ++ n.pfx)).1 hd
          rw [← List.isPrefixOf_iff_prefix] at hd2
          rw [hab1] at hd2
          cases hd2
      · rw [ht] at hq
        have h2 : (l :: tail : Key) <+: e.1 :: t :=
          (List.prefix_append_right_inj (pre ++ n.pfx)).1 hq
        obtain ⟨u, hu⟩ := h2
        simp only [List.cons_append, List.cons.injEq] at hu
        exact hel hu.1.symm
  | case4 isRoot n l tail child hc hge hnab hdrop =>
    intro hwf
    obtain ⟨hsort, hkids⟩ := wfbN_parts n hwf
    have hmem : (l, child) ∈ n.edges := getEdge_mem hge
    obtain ⟨hcne, hchd, hcwf⟩ := hkids _ hmem
    simp only at hcne hchd hcwf
    obtain ⟨es1, es2, hsplit, hlt1, hlt2⟩ := sorted_split hsort hmem
    have hsp : (l :: tail : Key) <+: child.pfx := by
      by_cases h1 : List.isPrefixOf child.pfx (l :: tail) = true
      · have hp := List.isPrefixOf_iff_prefix.1 h1
        have hple := hp.length_le
        rw [dif_neg (by omega)] at hdrop
        have hlen2 := congrArg List.length hdrop
        simp only [List.length_drop, List.length_nil] at hlen2
        have heq2 : child.pfx = l :: tail :=
          List.IsPrefix.eq_of_length hp (by omega)
        rw [heq2]
      · by_cases h2 : List.isPrefixOf (l :: tail) child.pfx = true
        · exact List.isPrefixOf_iff_prefix.1 h2
        · exfalso
          apply hnab
          simp only [Bool.not_eq_true] at h1 h2
          rw [h1, h2]
          rfl
    have hdrop2 : (if child.pfx.length > (l :: tail).length then ([] : Key)
        else (l :: tail).drop child.pfx.length) = [] := by
      by_cases h : child.pfx.length > (l :: tail).length
      · rw [if_pos h]
      · rw [if_neg h]
        rw [dif_neg h] at hdrop
        exact hdrop
    have hrun : nodeDeletePrefix isRoot n (l :: tail) =
        ((recursiveWalkN (fun _ _ => false) [] child).2.length,
          if !isRoot
              && (n.replaceEdge l (Node.mk none child.pfx [])).edges.length = 1
              && !(n.replaceEdge l (Node.mk none child.pfx [])).leaf.isSome
            then (n.replaceEdge l (Node.mk none child.pfx [])).mergeChild
            else n.replaceEdge l (Node.mk none child.pfx [])) := by
      rw [nodeDeletePrefix]
      simp only [hge]
      rw [if_neg hnab]
      simp only [hdrop2]
    rw [hrun]
    have hrepl : n.replaceEdge l (Node.mk none child.pfx [])
        = Node.mk n.leaf n.pfx
            (es1 ++ (l, Node.mk none child.pfx
              ([] : List (Nat × Node V))) :: es2) :=
      replaceEdge_split n _ hsplit (fun x hx => ne_of_lt (hlt1 x hx))
        (fun x hx => ne_of_gt (hlt2 x hx))
    rw [hrepl]
    have hwf1 : wfbN (Node.mk n.leaf n.pfx
        (es1 ++ (l, Node.mk none child.pfx
          ([] : List (Nat × Node V))) :: es2)) = true := by
      apply wfbN_intro
      · simp only [Node.edges_mk]
        rw [hsplit] at hsort
        simp only [List.map_append, List.map_cons] at hsort ⊢
        exact hsort
      · simp only [Node.edges_mk]
        intro e he
        rcases List.mem_append.1 he with he1 | he1
        · exact hkids e (by rw [hsplit]; exact List.mem_append_left _ he1)
        · rcases List.mem_cons.1 he1 with he2 | he2
          · subst he2
            refine ⟨hcne, hchd, ?_⟩
            apply wfbN_intro <;> simp
          · exact hkids e (by
              rw [hsplit]
              exact List.mem_append_right _ (List.mem_cons_of_mem _ he2))
    obtain ⟨m1, m2, m3, m4, m5⟩ := mergeStep isRoot _ hwf1
    have hent : ∀ pre : Key,
        entriesN pre (Node.mk n.leaf n.pfx
            (es1 ++ (l, Node.mk none child.pfx
              ([] : List (Nat × Node V))) :: es2))
          = (entriesN pre n).filter
              (fun e => decide (¬ ((pre ++ n.pfx) ++ l :: tail <+: e.1))) := by
      intro pre
      rw [entriesN_eq]
      simp only [Node.leaf_mk, Node.pfx_mk, Node.edges_mk]
      rw [entriesL_split]
      conv_rhs => rw [entriesN_eq, hsplit, entriesL_split]
      rw [List.filter_append, List.filter_append, List.filter_append]
      rw [filterP_leafpart _ _ (not_prefix_append_left (by simp))]
      rw [entriesL_filterP_nolabel
        (fun e he => hkids e (by rw [hsplit]; exact List.mem_append_left _ he))
        (fun e he => ne_of_lt (hlt1 e he)) tail rfl]
      rw [entriesL_filterP_nolabel
        (fun e he => hkids e (by
          rw [hsplit]
          exact List.mem_append_right _ (List.mem_cons_of_mem _ he)))
        (fun e he => ne_of_gt (hlt2 e he)) tail rfl]
      have hch : (entriesN (pre ++ n.pfx) child).filter
          (fun e => decide (¬ ((pre ++ n.pfx) ++ l :: tail <+: e.1))) = [] := by
        rw [List.filter_eq_nil_iff]
        intro kv hkv
        have hkp := entries_key_extends child (pre ++ n.pfx) kv hkv
        have hq : ((pre ++ n.pfx) ++ l :: tail) <+: kv.1 :=
          ((List.prefix_append_right_inj (pre ++ n.pfx)).2 hsp).trans hkp
        rw [List.append_assoc] at hq
        simpa using hq
      rw [hch]
      have hch2 : entriesN (pre ++ n.pfx)
          (Node.mk none child.pfx ([] : List (Nat × Node V))) = [] := by
        rw [entriesN_eq]
        simp
      rw [hch2]
    refine ⟨m1, m2, ?_, ?_, ?_⟩
    · intro hi
      rw [m3 hi, Node.pfx_mk]
    · rw [walk_false_length child [], numLeaves_congr (m4 [])]
      rw [numLeavesN_entries (Node.mk n.leaf n.pfx
          (es1 ++ (l, Node.mk none child.pfx
            ([] : List (Nat × Node V))) :: es2)) []]
      conv_lhs => rw [entriesN_eq]
      simp only [Node.leaf_mk, Node.pfx_mk, Node.edges_mk]
      rw [entriesL_split]
      have hch2 : entriesN (([] : Key) ++ n.pfx)
          (Node.mk none child.pfx ([] : List (Nat × Node V))) = [] := by
        rw [entriesN_eq]
        simp
      rw [hch2]
      conv_rhs => rw [numLeavesN_entries n [], entriesN_eq, hsplit, entriesL_split]
      simp only [List.length_append, List.length_nil]
      rw [← numLeavesN_entries child (([] : Key) ++ n.pfx)]
      omega
    · intro pre
      rw [m4 pre, hent pre]
  | case5 isRoot n l tail child hc hge r tail2 hnab hdrop ih =>
    intro hwf
    obtain ⟨hsort, hkids⟩ := wfbN_parts n hwf
    have hmem : (l, child) ∈ n.edges := getEdge_mem hge
    obtain ⟨hcne, hchd, hcwf⟩ := hkids _ hmem
    simp only at hcne hchd hcwf
    have hgt : ¬(child.pfx.length > (l :: tail).length) := by
      intro h
      rw [dif_pos h] at hdrop
      cases hdrop
    rw [dif_neg hgt] at hdrop
    have hpfx : child.pfx <+: (l :: tail) := by
      by_cases h1 : List.isPrefixOf child.pfx (l :: tail) = true
      · exact List.isPrefixOf_iff_prefix.1 h1
      · by_cases h2 : List.isPrefixOf (l :: tail) child.pfx = true
        · have hp := List.isPrefixOf_iff_prefix.1 h2
          have hple := hp.length_le
          have heq2 : (l :: tail : Key) = child.pfx :=
            List.IsPrefix.eq_of_length hp (by omega)
          rw [← heq2]
        · exfalso
          apply hnab
          simp only [Bool.not_eq_true] at h1 h2
          rw [h1, h2]
          rfl
    have hlt : (l :: tail : Key) = child.pfx ++ (r :: tail2) := by
      obtain ⟨t, ht⟩ := hpfx
      have hdt : (l :: tail : Key).drop child.pfx.length = t := by
        rw [← ht]
        exact List.drop_left _ _
      rw [hdrop] at hdt
      rw [← ht, hdt]
    obtain ⟨w1, w2, w3, w4, w5⟩ := ih hcwf
    have hh2 : (nodeDeletePrefix false child (r :: tail2)).2.pfx.head?
        = some l := by
      rw [head?_of_pfx w2 hcne, hchd]
    have hcne2 : (nodeDeletePrefix false child (r :: tail2)).2.pfx ≠ [] := by
      intro hq
      rw [hq] at hh2
      cases hh2
    have hdrop2 : (if child.pfx.length > (l :: tail).length then ([] : Key)
        else (l :: tail).drop child.pfx.length) = r :: tail2 := by
      rw [if_neg hgt]
      exact hdrop
    have hrun : nodeDeletePrefix isRoot n (l :: tail) =
        ((nodeDeletePrefix false child (r :: tail2)).1,
          n.replaceEdge l (nodeDeletePrefix false child (r :: tail2)).2) := by
      rw [nodeDeletePrefix]
      simp only [hge]
      rw [if_neg hnab]
      simp only [hdrop2]
    rw [hrun]
    obtain ⟨es1, es2, hsplit, hlt1, hlt2⟩ := sorted_split hsort hmem
    have hrepl : n.replaceEdge l (nodeDeletePrefix false child (r :: tail2)).2
        = Node.mk n.leaf n.pfx
            (es1 ++ (l, (nodeDeletePrefix false child (r :: tail2)).2) :: es2) :=
      replaceEdge_split n _ hsplit (fun x hx => ne_of_lt (hlt1 x hx))
        (fun x hx => ne_of_gt (hlt2 x hx))
    rw [hrepl]
    refine ⟨?_, ?_, ?_, ?_, ?_⟩
    · apply wfbN_intro
      · simp only [Node.edges_mk]
        rw [hsplit] at hsort
        simp only [List.map_append, List.map_cons] at hsort ⊢
        exact hsort
      · simp only [Node.edges_mk]
        intro e he
        rcases List.mem_append.1 he with he1 | he1
        · exact hkids e (by rw [hsplit]; exact List.mem_append_left _ he1)
        · rcases List.mem_cons.1 he1 with he2 | he2
          · subst he2
            exact ⟨hcne2, hh2, w1⟩
          · exact hkids e (by
              rw [hsplit]
              exact List.mem_append_right _ (List.mem_cons_of_mem _ he2))
    · simp
    · intro _
      simp
    · rw [numLeavesN_entries (Node.mk n.leaf n.pfx
          (es1 ++ (l, (nodeDeletePrefix false child (r :: tail2)).2) :: es2)) []]
      conv_lhs => rw [entriesN_eq]
      simp only [Node.leaf_mk, Node.pfx_mk, Node.edges_mk]
      rw [entriesL_split]
      conv_rhs => rw [numLeavesN_entries n [], entriesN_eq, hsplit, entriesL_split]
      simp only [List.length_append]
      rw [← numLeavesN_entries child (([] : Key) ++ n.pfx),
        ← numLeavesN_entries (nodeDeletePrefix false child (r :: tail2)).2
          (([] : Key) ++ n.pfx)]
      omega
    · intro pre
      rw [entriesN_eq]
      simp only [Node.leaf_mk, Node.pfx_mk, Node.edges_mk]
      rw [entriesL_split]
      conv_rhs => rw [entriesN_eq, hsplit, entriesL_split]
      rw [List.filter_append, List.filter_append, List.filter_append]
      rw [filterP_leafpart _ _ (not_prefix_append_left (by simp))]
      rw [entriesL_filterP_nolabel
        (fun e he => hkids e (by rw [hsplit]; exact List.mem_append_left _ he))
        (fun e he => ne_of_lt (hlt1 e he)) tail rfl]
      rw [entriesL_filterP_nolabel
        (fun e he => hkids e (by
          rw [hsplit]
          exact List.mem_append_right _ (List.mem_cons_of_mem _ he)))
        (fun e he => ne_of_gt (hlt2 e he)) tail rfl]
      have hkey : (((pre ++ n.pfx) ++ child.pfx) ++ (r :: tail2) : Key)
          = (pre ++ n.pfx) ++ l :: tail := by
        rw [hlt]
        simp [List.append_assoc]
      have hw5 := w5 (pre ++ n.pfx)
      rw [hkey] at hw5
      rw [hw5]


/-! Tree-level characterizations and the reachable-tree invariant. -/

theorem getEdge_present_ex {n : Node V}
    (hs : List.Pairwise (· < ·) (n.edges.map Prod.fst)) {label : Nat} {c : Node V}
    (hmem : (label, c) ∈ n.edges) :
    n.getEdge label = some ⟨c, ⟨label, hmem⟩⟩ := by
  have h := getEdge_present hs hmem
  cases hq : n.getEdge label with
  | none =>
    rw [hq] at h
    cases h
  | some s =>
    rw [hq, Option.map_some'] at h
    injection h with h2
    congr 1
    exact Subtype.ext h2

theorem filter_ne_key_length {l : List (Key × V)} {k : Key} {v : V}
    (hnd : (l.map Prod.fst).Nodup) (hmem : (k, v) ∈ l) :
    (l.filter (fun e => decide (e.1 ≠ k))).length + 1 = l.length := by
  induction l with
  | nil => cases hmem
  | cons e tl ih =>
    simp only [List.map_cons, List.nodup_cons] at hnd
    obtain ⟨hk1, hk2⟩ := hnd
    rcases List.mem_cons.1 hmem with he | he
    · have hek : e.1 = k := by rw [← he]
      have htl : tl.filter (fun e => decide (e.1 ≠ k)) = tl := by
        rw [List.filter_eq_self]
        intro x hx
        rw [decide_eq_true_eq]
        intro hq
        apply hk1
        rw [hek, ← hq]
        exact List.mem_map_of_mem Prod.fst hx
      rw [List.filter_cons_of_neg (by simp [hek]), htl]
      simp
    · have hek : ¬ (e.1 = k) := by
        intro hq
        apply hk1
        have : k ∈ tl.map Prod.fst := by
          rw [← show (k, v).1 = k from rfl]
          exact List.mem_map_of_mem Prod.fst he
        rw [hq]
        exact this
      rw [List.filter_cons_of_pos (by simp [hek])]
      simp only [List.length_cons]
      rw [ih hk2 he]

theorem length_filter_not (p : Key × V → Bool) (l : List (Key × V)) :
    (l.filter p).length + (l.filter (fun a => !(p a))).length = l.length := by
  induction l with
  | nil => rfl
  | cons e tl ih =>
    by_cases h : p e = true
    · rw [List.filter_cons_of_pos h, List.filter_cons_of_neg (by simp [h])]
      simp only [List.length_cons]
      omega
    · rw [List.filter_cons_of_neg h, List.filter_cons_of_pos (by simp [Bool.not_eq_true] at h; simp [h])]
      simp only [List.length_cons]
      omega

theorem toMap_entries (t : Tree V) : Tree.ToMap t = entriesN [] t.root := by
  rw [Tree.ToMap, Tree.Walk, recursiveWalkN_stopTrace, stopTrace_const_false]
  rfl

/-- Every entry under a well-formed node's edge list has a key strictly
extending the accumulated prefix; in particular it is nonempty. -/
theorem entriesL_key_ne_nil {n : Node V} (hwf : wfbN n = true)
    (pre0 : Key) {kv : Key × V}
    (hm : kv ∈ entriesL pre0 n.edges) : kv.1 ≠ [] := by
  obtain ⟨_, hkids⟩ := wfbN_parts n hwf
  obtain ⟨e, he, hkve⟩ := entriesL_mem _ _ hm
  obtain ⟨hne, hhd, _⟩ := hkids e he
  obtain ⟨t0, ht0⟩ := entries_key_cons _ hne hhd _ hkve
  rw [ht0]
  simp

/-- `Delete` at the tree level: well-formedness and the empty root prefix
are preserved, and the entry list loses exactly the deleted key. -/
theorem TreeDelete_spec (t : Tree V) (hwf : wfbN t.root = true)
    (hpfx : t.root.pfx = []) (s : Key) :
    wfbN (Tree.Delete t s).2.root = true ∧
    (Tree.Delete t s).2.root.pfx = [] ∧
    entriesN [] (Tree.Delete t s).2.root
      = (entriesN [] t.root).filter (fun e => decide (e.1 ≠ s)) ∧
    (t.size = (numLeavesN t.root : Int) →
      (Tree.Delete t s).2.size = (numLeavesN (Tree.Delete t s).2.root : Int)) := by
  cases s with
  | nil =>
    cases hleaf : t.root.leaf with
    | none =>
      have hrun : Tree.Delete t [] = ((none, false), t) := by
        rw [Tree.Delete, hleaf]
      rw [hrun]
      refine ⟨hwf, hpfx, ?_, fun h => h⟩
      symm
      rw [List.filter_eq_self]
      intro kv hkv
      rw [decide_eq_true_eq]
      rcases entries_split_key hkv with ⟨_, hlf⟩ | hm
      · rw [hleaf] at hlf
        cases hlf
      · exact entriesL_key_ne_nil hwf _ hm
    | some v =>
      have hrun : Tree.Delete t [] = ((some v, true),
          ⟨Node.mk none t.root.pfx t.root.edges, t.size - 1⟩) := by
        rw [Tree.Delete, hleaf]
      rw [hrun]
      refine ⟨?_, by simp [hpfx], ?_, ?_⟩
      · rw [wfbN_edges_only none t.root.leaf t.root.pfx t.root.pfx t.root.edges,
          Node.eta]
        exact hwf
      · rw [entriesN_eq]
        simp only [Node.leaf_mk, Node.pfx_mk, Node.edges_mk]
        conv_rhs => rw [entriesN_eq, hleaf]
        rw [List.filter_append]
        have h1 : ([((([] : Key) ++ t.root.pfx), v)]).filter
            (fun e => decide (e.1 ≠ ([] : Key))) = [] := by
          simp [hpfx]
        rw [h1]
        simp only [List.nil_append]
        symm
        rw [List.filter_eq_self]
        intro kv hkv
        rw [decide_eq_true_eq]
        exact entriesL_key_ne_nil hwf _ hkv
      · intro hs
        simp only [Tree.root, Tree.size] at hs ⊢
        rw [numLeavesN_eq] at hs
        rw [numLeavesN_eq]
        simp only [Node.leaf_mk, Node.edges_mk, hleaf] at hs ⊢
        simp at hs ⊢
        push_cast at hs ⊢
        omega
  | cons l tail =>
    have hspec := nodeDelete_spec true t.root (l :: tail) hwf (by simp)
    cases hdel : nodeDelete true t.root (l :: tail) with
    | none =>
      have hrun : Tree.Delete t (l :: tail) = ((none, false), t) := by
        rw [Tree.Delete, hdel]
      rw [hrun]
      refine ⟨hwf, hpfx, ?_, fun h => h⟩
      symm
      rw [List.filter_eq_self]
      intro kv hkv
      rw [decide_eq_true_eq]
      intro hq
      have hni := hspec.1 hdel [] kv.2
      rw [hpfx] at hni
      simp only [List.append_nil, List.nil_append] at hni
      apply hni
      have hkv2 : kv = (l :: tail, kv.2) := by
        rw [← hq]
      rw [← hkv2]
      exact hkv
    | some r =>
      rcases r with ⟨v, root2⟩
      have hrun : Tree.Delete t (l :: tail) = ((some v, true), ⟨root2, t.size - 1⟩) := by
        rw [Tree.Delete, hdel]
      rw [hrun]
      obtain ⟨hwf2, _, hpfx2, hent2, _⟩ := hspec.2 v root2 hdel
      have hpfxeq : root2.pfx = [] := by
        rw [hpfx2 rfl, hpfx]
      obtain ⟨hin0, hfil0⟩ := hent2 []
      rw [hpfx] at hin0 hfil0
      simp only [List.append_nil, List.nil_append] at hin0 hfil0
      refine ⟨hwf2, hpfxeq, hfil0, ?_⟩
      intro hs
      simp only [Tree.root, Tree.size] at hs ⊢
      rw [numLeavesN_entries root2 [], hfil0]
      have hlen := filter_ne_key_length (entries_keys_nodup t.root hwf [])
        hin0
      rw [numLeavesN_entries t.root []] at hs
      omega

/-- `DeletePrefix` at the tree level: well-formedness and the empty root
prefix are preserved, the entry list loses exactly the keys extending the
prefix, and the returned count is the number of removed entries. -/
theorem TreeDeletePrefix_spec (t : Tree V) (hwf : wfbN t.root = true)
    (hpfx : t.root.pfx = []) (s : Key) :
    wfbN (Tree.DeletePrefix t s).2.root = true ∧
    (Tree.DeletePrefix t s).2.root.pfx = [] ∧
    entriesN [] (Tree.DeletePrefix t s).2.root
      = (entriesN [] t.root).filter (fun e => decide (¬ (s <+: e.1))) ∧
    (Tree.DeletePrefix t s).1
      = ((entriesN [] t.root).filter (fun e => decide (s <+: e.1))).length ∧
    (t.size = (numLeavesN t.root : Int) →
      (Tree.DeletePrefix t s).2.size
        = (numLeavesN (Tree.DeletePrefix t s).2.root : Int)) := by
  obtain ⟨d1, d2, d3, d4, d5⟩ := nodeDeletePrefix_spec true t.root s hwf
  have hrun : Tree.DeletePrefix t s = ((nodeDeletePrefix true t.root s).1,
      ⟨(nodeDeletePrefix true t.root s).2,
        t.size - ((nodeDeletePrefix true t.root s).1 : Int)⟩) := by
    rw [Tree.DeletePrefix]
  rw [hrun]
  have hent := d5 []
  rw [hpfx] at hent
  simp only [List.append_nil, List.nil_append] at hent
  have hcnt : (nodeDeletePrefix true t.root s).1
      = ((entriesN [] t.root).filter (fun e => decide (s <+: e.1))).length := by
    have hlen := length_filter_not (fun e => decide (s <+: e.1)) (entriesN [] t.root)
    have hnot : (entriesN [] t.root).filter
        (fun a => !(decide (s <+: a.1))) = (entriesN [] t.root).filter
          (fun e => decide (¬ (s <+: e.1))) := by
      apply List.filter_congr
      intro x _
      simp
    rw [hnot, ← hent] at hlen
    have hd4b := d4
    rw [numLeavesN_entries (nodeDeletePrefix true t.root s).2 [],
      numLeavesN_entries t.root []] at hd4b
    omega
  refine ⟨d1, by rw [d3 rfl, hpfx], hent, hcnt, ?_⟩
  intro hs
  simp only [Tree.root, Tree.size] at hs ⊢
  have hd4b := d4
  omega

/-- `Insert` at the tree level never panics, and preserves the invariant
relating `size` to the number of stored keys. -/
theorem TreeInsert_spec (t : Tree V) (hwf : wfbN t.root = true) (s : Key) (v : V) :
    ∃ old t2, Tree.Insert t s v = some (old, t2) ∧
      wfbN t2.root = true ∧ t2.root.pfx = t.root.pfx ∧
      (t.size = (numLeavesN t.root : Int) →
        t2.size = (numLeavesN t2.root : Int)) := by
  obtain ⟨old, n2, heq, hwf2, hpfx2, hnum2, _⟩ := nodeInsert_spec t.root s v hwf
  refine ⟨old, ⟨n2, if old.isSome then t.size else t.size + 1⟩, ?_, hwf2, hpfx2, ?_⟩
  · rw [Tree.Insert, heq]
  · intro hs
    simp only [Tree.root, Tree.size]
    rw [hnum2]
    by_cases hi : old.isSome = true
    · rw [if_pos hi, if_pos hi]
      push_cast
      omega
    · rw [if_neg hi, if_neg hi]
      push_cast
      omega

theorem reachable_inv (t : Tree V) (h : Reachable t) :
    wfbN t.root = true ∧ t.root.pfx = [] ∧ t.size = (numLeavesN t.root : Int) := by
  induction h with
  | base =>
    refine ⟨by apply wfbN_intro <;> simp [Tree.New], rfl, ?_⟩
    rw [Tree.New]
    simp only [Tree.root, Tree.size]
    rw [numLeavesN_eq]
    simp
  | ins hr hins ih =>
    obtain ⟨hwf, hpfx, hsize⟩ := ih
    rename_i t0 s v old t2
    obtain ⟨old2, t2b, heq, hwf2, hpfx2, hsz2⟩ := TreeInsert_spec t0 hwf s v
    rw [heq] at hins
    injection hins with hins1
    injection hins1 with h1 h2
    subst h2
    exact ⟨hwf2, by rw [hpfx2, hpfx], hsz2 hsize⟩
  | del s hr ih =>
    obtain ⟨hwf, hpfx, hsize⟩ := ih
    rename_i t0
    obtain ⟨h1, h2, _, h4⟩ := TreeDelete_spec t0 hwf hpfx s
    exact ⟨h1, h2, h4 hsize⟩
  | dp s hr ih =>
    obtain ⟨hwf, hpfx, hsize⟩ := ih
    rename_i t0
    obtain ⟨h1, h2, _, _, h5⟩ := TreeDeletePrefix_spec t0 hwf hpfx s
    exact ⟨h1, h2, h5 hsize⟩

theorem reachableID_reachable {t : Tree V} (h : ReachableID t) : Reachable t := by
  induction h with
  | base => exact Reachable.base
  | ins hr hins ih => exact Reachable.ins ih hins
  | del s hr ih => exact Reachable.del s ih

theorem reachableID_compact (t : Tree V) (h : ReachableID t) :
    compactN true t.root = true := by
  induction h with
  | base =>
    apply compactN_intro
    · exact Or.inl rfl
    · simp [Tree.New, Tree.root]
  | ins hr hins ih =>
    rename_i t0 s v old t2
    obtain ⟨hwf, _, _⟩ := reachable_inv t0 (reachableID_reachable hr)
    obtain ⟨old2, n2, heq, _, _, _, hcomp⟩ := nodeInsert_spec t0.root s v hwf
    rw [Tree.Insert, heq] at hins
    injection hins with hins1
    injection hins1 with h1 h2
    subst h2
    exact hcomp true ih
  | del s hr ih =>
    rename_i t0
    obtain ⟨hwf, hpfx, _⟩ := reachable_inv t0 (reachableID_reachable hr)
    cases s with
    | nil =>
      cases hleaf : t0.root.leaf with
      | none =>
        have hrun : Tree.Delete t0 [] = ((none, false), t0) := by
          rw [Tree.Delete, hleaf]
        rw [hrun]
        exact ih
      | some v =>
        have hrun : Tree.Delete t0 [] = ((some v, true),
            ⟨Node.mk none t0.root.pfx t0.root.edges, t0.size - 1⟩) := by
          rw [Tree.Delete, hleaf]
        rw [hrun]
        obtain ⟨_, hkids⟩ := compactN_parts true t0.root ih
        apply compactN_intro
        · exact Or.inl rfl
        · simpa using hkids
    | cons l tail =>
      cases hdel : nodeDelete true t0.root (l :: tail) with
      | none =>
        have hrun : Tree.Delete t0 (l :: tail) = ((none, false), t0) := by
          rw [Tree.Delete, hdel]
        rw [hrun]
        exact ih
      | some r =>
        rcases r with ⟨v, root2⟩
        have hrun : Tree.Delete t0 (l :: tail)
            = ((some v, true), ⟨root2, t0.size - 1⟩) := by
          rw [Tree.Delete, hdel]
        rw [hrun]
        have hspec := nodeDelete_spec true t0.root (l :: tail) hwf (by simp)
        obtain ⟨_, _, _, _, hcomp⟩ := hspec.2 v root2 hdel
        exact hcomp ih

/-! Deleting a list of keys one by one, and the `Minimum` descent. -/

theorem deleteAll_spec (ks : List Key) : ∀ (t : Tree V), wfbN t.root = true →
    t.root.pfx = [] →
    wfbN (deleteAll t ks).root = true ∧ (deleteAll t ks).root.pfx = [] ∧
    entriesN [] (deleteAll t ks).root
      = (entriesN [] t.root).filter (fun e => decide (e.1 ∉ ks)) := by
  induction ks with
  | nil =>
    intro t h1 h2
    have h0 : deleteAll t [] = t := by rw [deleteAll, List.foldl_nil]
    rw [h0]
    refine ⟨h1, h2, ?_⟩
    symm
    rw [List.filter_eq_self]
    intro kv _
    simp
  | cons k tl ih =>
    intro t h1 h2
    obtain ⟨ha1, ha2, ha3, _⟩ := TreeDelete_spec t h1 h2 k
    have hfold : deleteAll t (k :: tl) = deleteAll (Tree.Delete t k).2 tl := by
      rw [deleteAll, deleteAll, List.foldl_cons]
    rw [hfold]
    obtain ⟨hb1, hb2, hb3⟩ := ih (Tree.Delete t k).2 ha1 ha2
    refine ⟨hb1, hb2, ?_⟩
    rw [hb3, ha3, List.filter_filter]
    apply List.filter_congr
    intro x _
    simp only [List.mem_cons, not_or, decide_eq_true_eq]
    rw [Bool.eq_iff_iff]
    simp only [Bool.and_eq_true, decide_eq_true_eq]
    tauto

theorem deleteAll_reachable {t : Tree V} (h : Reachable t) (ks : List Key) :
    Reachable (deleteAll t ks) := by
  induction ks generalizing t with
  | nil => exact h
  | cons k tl ih =>
    rw [deleteAll, List.foldl_cons]
    exact ih (Reachable.del k h)

theorem compact_entries_ne (n : Node V) : ∀ (hwf : wfbN n = true)
    (hc : compactN false n = true) (pre : Key), entriesN pre n ≠ [] := by
  induction n using Node.indOn with
  | _ lf p es ih =>
    intro hwf hc pre
    rw [entriesN_eq]
    simp only [Node.leaf_mk, Node.pfx_mk, Node.edges_mk]
    cases lf with
    | some v => simp
    | none =>
      simp only [List.nil_append]
      obtain ⟨hown, hkidsc⟩ := compactN_parts false _ hc
      simp only [Node.edges_mk, Node.leaf_mk] at hown hkidsc
      rcases hown with h | h | h
      · cases h
      · cases es with
        | nil => simp at h
        | cons e tl =>
          rw [entriesL_cons]
          obtain ⟨_, hkids⟩ := wfbN_parts _ hwf
          simp only [Node.edges_mk] at hkids
          have hene := ih e (List.mem_cons_self _ _)
            (hkids e (List.mem_cons_self _ _)).2.2
            (hkidsc e (List.mem_cons_self _ _)) (pre ++ p)
          intro hq
          rcases List.append_eq_nil.1 hq with ⟨hq1, _⟩
          exact hene hq1
      · simp at h

/-- The `Minimum` descent on a well-formed node with compact children and a
nonempty entry list returns the first (least) entry. -/
theorem minGo_spec (n : Node V) : ∀ (hwf : wfbN n = true)
    (hkc : ∀ e ∈ n.edges, compactN false e.2 = true) (pre : Key),
    entriesN pre n ≠ [] →
    ∃ v tl, entriesN pre n = ((minGo n (pre ++ n.pfx)).1, v) :: tl ∧
      (minGo n (pre ++ n.pfx)).2 = (some v, true) := by
  induction n using Node.indOn with
  | _ lf p es ih =>
    intro hwf hkc pre hne
    obtain ⟨hsort, hkids⟩ := wfbN_parts _ hwf
    simp only [Node.edges_mk] at hsort hkids hkc
    simp only [Node.pfx_mk]
    cases lf with
    | some v =>
      have hmin : minGo (Node.mk (some v) p es) (pre ++ p)
          = (pre ++ p, some v, true) := by
        rw [minGo.eq_def]
        simp
      rw [hmin]
      refine ⟨v, entriesL (pre ++ p) es, ?_, rfl⟩
      rw [entriesN_eq]
      simp
    | none =>
      cases es with
      | nil =>
        exfalso
        apply hne
        rw [entriesN_eq]
        simp
      | cons e tl =>
        rcases e with ⟨l0, c0⟩
        have hmin : minGo (Node.mk none p ((l0, c0) :: tl)) (pre ++ p)
            = minGo c0 ((pre ++ p) ++ c0.pfx) := by
          rw [minGo.eq_def]
          simp
        rw [hmin]
        have hc0wf : wfbN c0 = true :=
          (hkids (l0, c0) (List.mem_cons_self _ _)).2.2
        have hc0c : compactN false c0 = true :=
          hkc (l0, c0) (List.mem_cons_self _ _)
        obtain ⟨_, hc0kids⟩ := compactN_parts false c0 hc0c
        have hc0ne := compact_entries_ne c0 hc0wf hc0c (pre ++ p)
        obtain ⟨v, tl2, hev, hmv⟩ := ih (l0, c0) (List.mem_cons_self _ _)
          hc0wf hc0kids (pre ++ p) hc0ne
        refine ⟨v, tl2 ++ entriesL (pre ++ p) tl, ?_, hmv⟩
        rw [entriesN_eq]
        simp only [Node.leaf_mk, Node.pfx_mk, Node.edges_mk, List.nil_append]
        rw [entriesL_cons, hev]
        simp

/-! Evaluation of the operation chains producing the example trees. -/

theorem ins_exA1 : Tree.Insert (Tree.New : Tree Nat) [1] 10 = some (none, exA1) := by
  rw [Tree.Insert]
  have hge : (Tree.New : Tree Nat).root.getEdge 1 = none := by
    apply getEdge_none
    intro x hx
    simp [Tree.New] at hx
  rw [nodeInsert]
  simp only [hge]
  rw [Tree.New, exA1]
  simp [Node.addEdge, insEdge]

theorem ins_exA2 : Tree.Insert exA1 [1, 2] 20 = some (none, exA2) := by
  have hrec : nodeInsert (Node.mk (some 10) [1] ([] : List (Nat × Node Nat))) [2] 20
      = some (none, Node.mk (some 10) [1] [(2, Node.mk (some 20) [2] [])]) := by
    rw [nodeInsert]
    have hge0 : (Node.mk (some 10) [1] ([] : List (Nat × Node Nat))).getEdge 2
        = none := by
      apply getEdge_none
      intro x hx
      simp at hx
    simp only [hge0]
    simp [Node.addEdge, insEdge]
  rw [Tree.Insert]
  have hge : exA1.root.getEdge 1
      = some ⟨Node.mk (some 10) [1] [], ⟨1, by simp [exA1]⟩⟩ := by
    apply getEdge_present_ex <;> simp [exA1]
  rw [nodeInsert]
  simp only [hge]
  simp [longestPrefixLen, hrec, Node.replaceEdge, exA1, exA2]

theorem ins_exB2 : Tree.Insert exA1 [1, 2, 3] 30 = some (none, exB2) := by
  have hrec : nodeInsert (Node.mk (some 10) [1] ([] : List (Nat × Node Nat))) [2, 3] 30
      = some (none, Node.mk (some 10) [1] [(2, Node.mk (some 30) [2, 3] [])]) := by
    rw [nodeInsert]
    have hge0 : (Node.mk (some 10) [1] ([] : List (Nat × Node Nat))).getEdge 2
        = none := by
      apply getEdge_none
      intro x hx
      simp at hx
    simp only [hge0]
    simp [Node.addEdge, insEdge]
  rw [Tree.Insert]
  have hge : exA1.root.getEdge 1
      = some ⟨Node.mk (some 10) [1] [], ⟨1, by simp [exA1]⟩⟩ := by
    apply getEdge_present_ex <;> simp [exA1]
  rw [nodeInsert]
  simp only [hge]
  simp [longestPrefixLen, hrec, Node.replaceEdge, exA1, exB2]

theorem dp_exA3 : Tree.DeletePrefix exA2 [1, 2] = (1, exA3) := by
  have hrec : nodeDeletePrefix false
      (Node.mk (some 10) [1] [(2, Node.mk (some 20) [2] [])]) [2]
      = (1, Node.mk (some 10) [1] [(2, Node.mk none [2] [])]) := by
    rw [nodeDeletePrefix]
    have hge2 : (Node.mk (some 10) [1] [(2, Node.mk (some 20) [2] [])]).getEdge 2
        = some ⟨Node.mk (some 20) [2] [], ⟨2, by simp⟩⟩ := by
      apply getEdge_present_ex <;> simp
    simp only [hge2]
    have hcnt : (recursiveWalkN (fun _ _ => false) []
        (Node.mk (some 20) [2] ([] : List (Nat × Node Nat)))).2.length = 1 := by
      rw [walk_false_length, numLeavesN_eq]
      simp
    simp [hcnt, Node.replaceEdge]
  rw [Tree.DeletePrefix]
  have hge1 : exA2.root.getEdge 1
      = some ⟨Node.mk (some 10) [1] [(2, Node.mk (some 20) [2] [])],
        ⟨1, by simp [exA2]⟩⟩ := by
    apply getEdge_present_ex <;> simp [exA2]
  rw [nodeDeletePrefix]
  simp only [hge1]
  simp [hrec, Node.replaceEdge, exA2, exA3]

theorem ins_exC1 : Tree.Insert (Tree.New : Tree Nat) [1, 2] 20
    = some (none, exC1) := by
  rw [Tree.Insert]
  have hge : (Tree.New : Tree Nat).root.getEdge 1 = none := by
    apply getEdge_none
    intro x hx
    simp [Tree.New] at hx
  rw [nodeInsert]
  simp only [hge]
  rw [Tree.New, exC1]
  simp [Node.addEdge, insEdge]

theorem ins_exC2 : Tree.Insert exC1 [1, 3] 30 = some (none, exC2) := by
  rw [Tree.Insert]
  have hge : exC1.root.getEdge 1
      = some ⟨Node.mk (some 20) [1, 2] [], ⟨1, by simp [exC1]⟩⟩ := by
    apply getEdge_present_ex <;> simp [exC1]
  have hupd : exC1.root.updateEdge 1 (Node.mk none [1]
      [(2, Node.mk (some 20) [2] []), (3, Node.mk (some 30) [3] [])])
      = some (Node.mk none [] [(1, Node.mk none [1]
          [(2, Node.mk (some 20) [2] []), (3, Node.mk (some 30) [3] [])])]) := by
    have he : exC1.root.edges = [] ++ (1, Node.mk (some 20) [1, 2] []) :: [] := by
      simp [exC1]
    have h := updateEdge_split exC1.root (Node.mk none [1]
      [(2, Node.mk (some 20) [2] []), (3, Node.mk (some 30) [3] [])]) he
      (by intro x hx; simp at hx) (by intro x hx; simp at hx)
    rw [h]
    simp [exC1]
  rw [nodeInsert]
  simp only [hge]
  simp only [exC1] at hupd
  simp [longestPrefixLen, Node.addEdge, insEdge, hupd, exC1, exC2]

theorem dp_exC3 : Tree.DeletePrefix exC2 [1, 2] = (1, exC3) := by
  have hrec : nodeDeletePrefix false (Node.mk none [1]
      [(2, Node.mk (some 20) [2] []), (3, Node.mk (some 30) [3] [])]) [2]
      = (1, Node.mk none [1]
          [(2, Node.mk none [2] []), (3, Node.mk (some 30) [3] [])]) := by
    rw [nodeDeletePrefix]
    have hge2 : (Node.mk (none : Option Nat) [1]
        [(2, Node.mk (some 20) [2] []), (3, Node.mk (some 30) [3] [])]).getEdge 2
        = some ⟨Node.mk (some 20) [2] [], ⟨2, by simp⟩⟩ := by
      apply getEdge_present_ex <;> simp
    simp only [hge2]
    have hcnt : (recursiveWalkN (fun _ _ => false) []
        (Node.mk (some 20) [2] ([] : List (Nat × Node Nat)))).2.length = 1 := by
      rw [walk_false_length, numLeavesN_eq]
      simp
    simp [hcnt, Node.replaceEdge]
  rw [Tree.DeletePrefix]
  have hge1 : exC2.root.getEdge 1
      = some ⟨Node.mk none [1]
          [(2, Node.mk (some 20) [2] []), (3, Node.mk (some 30) [3] [])],
        ⟨1, by simp [exC2]⟩⟩ := by
    apply getEdge_present_ex <;> simp [exC2]
  rw [nodeDeletePrefix]
  simp only [hge1]
  simp [hrec, Node.replaceEdge, exC2, exC3]

theorem reach_exA3 : Reachable exA3 := by
  have h1 : Reachable exA1 := Reachable.ins Reachable.base ins_exA1
  have h2 : Reachable exA2 := Reachable.ins h1 ins_exA2
  have h3 := Reachable.dp [1, 2] h2
  rw [dp_exA3] at h3
  exact h3

theorem reach_exB2 : Reachable exB2 :=
  Reachable.ins (Reachable.ins Reachable.base ins_exA1) ins_exB2

theorem reach_exC2 : Reachable exC2 :=
  Reachable.ins (Reachable.ins Reachable.base ins_exC1) ins_exC2

theorem reach_exC3 : Reachable exC3 := by
  have h3 := Reachable.dp [1, 2] reach_exC2
  rw [dp_exC3] at h3
  exact h3

theorem reachID_exA1 : ReachableID exA1 :=
  ReachableID.ins ReachableID.base ins_exA1

/-! Evaluation of the read-only operations on the example trees. -/

theorem toMap_exA1 : Tree.ToMap exA1 = [([1], 10)] := by
  rw [toMap_entries]
  simp [exA1, entriesN_eq, entriesL_cons, entriesL_nil]

theorem toMap_exB2 : Tree.ToMap exB2 = [([1], 10), ([1, 2, 3], 30)] := by
  rw [toMap_entries]
  simp [exB2, entriesN_eq, entriesL_cons, entriesL_nil]

theorem toMap_exC2 : Tree.ToMap exC2 = [([1, 2], 20), ([1, 3], 30)] := by
  rw [toMap_entries]
  simp [exC2, entriesN_eq, entriesL_cons, entriesL_nil]

theorem toMap_exC3 : Tree.ToMap exC3 = [([1, 3], 30)] := by
  rw [toMap_entries]
  simp [exC3, entriesN_eq, entriesL_cons, entriesL_nil]

theorem compact_exA3 : compactN true exA3.root = false := by
  rw [compactN_eq]
  simp [exA3, compactL_cons, compactN_eq]

theorem get_exC2 : Tree.Get exC2 [1] = (none, true) := by
  have hinner : findGo (Node.mk none [1]
      [(2, Node.mk (some 20) [2] []), (3, Node.mk (some 30) [3] [])]) ([] : Key) none
      = ([], (none : Option (Node Nat)), Node.mk none [1]
          [(2, Node.mk (some 20) [2] []), (3, Node.mk (some 30) [3] [])]) := by
    rw [findGo]
  have hge : exC2.root.getEdge 1
      = some ⟨Node.mk none [1]
          [(2, Node.mk (some 20) [2] []), (3, Node.mk (some 30) [3] [])],
        ⟨1, by simp [exC2]⟩⟩ := by
    apply getEdge_present_ex <;> simp [exC2]
  have hf : findGo exC2.root [1] none
      = ([], (none : Option (Node Nat)), Node.mk none [1]
          [(2, Node.mk (some 20) [2] []), (3, Node.mk (some 30) [3] [])]) := by
    rw [findGo]
    simp only [hge]
    simp [exC2, hinner]
  rw [Tree.Get, Tree.Find]
  have hroot : (Tree.Root exC2) = exC2.root := rfl
  rw [hroot, hf]
  simp [Node.Value]

theorem get_new_nil : Tree.Get (Tree.New : Tree Nat) [] = (none, true) := by
  have hf : findGo (Tree.New : Tree Nat).root ([] : Key) none
      = ([], (none : Option (Node Nat)), (Tree.New : Tree Nat).root) := by
    rw [findGo]
  rw [Tree.Get, Tree.Find]
  have hroot : (Tree.Root (Tree.New : Tree Nat)) = (Tree.New : Tree Nat).root := rfl
  rw [hroot, hf]
  simp [Tree.New, Node.Value]

theorem minimum_new : Tree.Minimum (Tree.New : Tree Nat) = ([], none, false) := by
  rw [Tree.Minimum, minGo.eq_def]
  simp [Tree.New]

theorem maximum_new : Tree.Maximum (Tree.New : Tree Nat) = ([], none, false) := by
  rw [Tree.Maximum, maxGo.eq_def]
  simp [Tree.New]

theorem longestPrefix_new : Tree.LongestPrefix (Tree.New : Tree Nat) []
    = ([], none, true) := by
  have hf : findGo (Tree.New : Tree Nat).root ([] : Key) none
      = ([], (none : Option (Node Nat)), (Tree.New : Tree Nat).root) := by
    rw [findGo]
  rw [Tree.LongestPrefix, Tree.Find]
  have hroot : (Tree.Root (Tree.New : Tree Nat)) = (Tree.New : Tree Nat).root := rfl
  rw [hroot, hf]
  simp [Tree.New, Node.Value]

theorem longestPrefix_exB2 : Tree.LongestPrefix exB2 [1, 2, 9]
    = ([1], some 30, true) := by
  have hge2 : (Node.mk (some 10) [1] [(2, Node.mk (some 30) [2, 3] [])]).getEdge 2
      = some ⟨Node.mk (some 30) [2, 3] [], ⟨2, by simp⟩⟩ := by
    apply getEdge_present_ex <;> simp
  have hinner : findGo (Node.mk (some 10) [1] [(2, Node.mk (some 30) [2, 3] [])])
      [2, 9] none
      = ([2, 9], some (Node.mk (some 10) [1] [(2, Node.mk (some 30) [2, 3] [])]),
          Node.mk (some 30) [2, 3] []) := by
    rw [findGo]
    simp only [hge2]
    simp
  have hge : exB2.root.getEdge 1
      = some ⟨Node.mk (some 10) [1] [(2, Node.mk (some 30) [2, 3] [])],
        ⟨1, by simp [exB2]⟩⟩ := by
    apply getEdge_present_ex <;> simp [exB2]
  have hf : findGo exB2.root [1, 2, 9] none
      = ([2, 9], some (Node.mk (some 10) [1] [(2, Node.mk (some 30) [2, 3] [])]),
          Node.mk (some 30) [2, 3] []) := by
    rw [findGo]
    simp only [hge]
    simp [exB2, hinner]
  rw [Tree.LongestPrefix, Tree.Find]
  have hroot : (Tree.Root exB2) = exB2.root := rfl
  rw [hroot, hf]
  simp [Node.Value]

theorem minimum_exC3 : Tree.Minimum exC3 = ([], none, false) := by
  have h3 : minGo (Node.mk (none : Option Nat) [2] []) [1, 2] = ([], none, false) := by
    rw [minGo.eq_def]
    simp
  have h2 : minGo (Node.mk (none : Option Nat) [1]
      [(2, Node.mk none [2] []), (3, Node.mk (some 30) [3] [])]) [1]
      = ([], none, false) := by
    rw [minGo.eq_def]
    simp only []
    simp [h3]
  rw [Tree.Minimum, minGo.eq_def]
  simp [exC3, h2]

/-! The claims. -/

/-- C1 (corrected): the spec claims the compaction invariant — every
non-root node has at least two children or holds a value — survives any
interleaving of insert, delete and deletePrefix.  It does survive insert and
delete (the amended theorem below), but `deletePrefix` violates it: it
clears a node's value and edges without detaching the node from its
parent.  Here a tree reached by two inserts and one `DeletePrefix` has a
valueless childless non-root node. -/
theorem claim_C1_counterexample :
    Reachable exA3 ∧ compactN true exA3.root = false :=
  ⟨reach_exA3, compact_exA3⟩

/-- C1 (corrected, amended statement): after any interleaving of insert and
delete only (no deletePrefix) starting from the empty tree, every non-root
node has at least two children or holds a value, the root being exempt —
exactly the predicate `compactN true` on the root. -/
theorem claim_C1_compaction_corrected (t : Tree V) (h : ReachableID t) :
    compactN true t.root = true :=
  reachableID_compact t h

/-- Witness for C1: the amended invariant holds on the tree reached by
inserting the key `[1]`. -/
theorem claim_C1_witness : compactN true exA1.root = true :=
  claim_C1_compaction_corrected exA1 reachID_exA1

/-- C2 (code bug): on the tree storing `[1] ↦ 10` and `[1,2,3] ↦ 30`, the
longest stored prefix of the query `[1,2,9]` is `[1]`, whose value is `10`;
but `LongestPrefix` returns `([1], some 30)`, pairing the matched key with
the value of the last node visited instead of the last value-bearing node —
the source binds `Find`'s fourth result under the name `lastLeafNode`
(src/radix.go:437), discarding the third. -/
theorem claim_C2_longest_prefix_bug :
    Reachable exB2 ∧
    Tree.ToMap exB2 = [([1], 10), ([1, 2, 3], 30)] ∧
    Tree.LongestPrefix exB2 [1, 2, 9] = ([1], some 30, true) :=
  ⟨reach_exB2, toMap_exB2, longestPrefix_exB2⟩

/-- C3 (code bug): on the empty tree, `Minimum` and `Maximum` do report
`found = false`, but `Get` of the empty key reports `found = true` (with a
nil value): `Get` tests only whether the search was fully consumed, never
whether the final node holds a value (src/radix.go:424-431).
`LongestPrefix` likewise reports `found = true` with an empty match. -/
theorem claim_C3_empty_tree_bug :
    Tree.Get (Tree.New : Tree Nat) [] = (none, true) ∧
    Tree.Minimum (Tree.New : Tree Nat) = ([], none, false) ∧
    Tree.Maximum (Tree.New : Tree Nat) = ([], none, false) ∧
    Tree.LongestPrefix (Tree.New : Tree Nat) [] = ([], none, true) :=
  ⟨get_new_nil, minimum_new, maximum_new, longestPrefix_new⟩

/-- C4 (code bug): after inserting `[1,2] ↦ 20` and `[1,3] ↦ 30` the key
`[1]` exists only as a valueless split node, yet `Get [1]` reports
`found = true` (with a nil value): `Get` does not check `n.isLeaf()` before
answering (src/radix.go:424-431). -/
theorem claim_C4_get_bug :
    Reachable exC2 ∧
    Tree.ToMap exC2 = [([1, 2], 20), ([1, 3], 30)] ∧
    Tree.Get exC2 [1] = (none, true) :=
  ⟨reach_exC2, toMap_exC2, get_exC2⟩

/-- C5 (confirmed): on any reachable tree, `DeletePrefix p` returns the
number of stored keys extending `p`, and the resulting tree has the same
contents (`ToMap`) and the same `Len` as deleting each key extending `p`
individually with `Delete`. -/
theorem claim_C5_delete_prefix_equiv (t : Tree V) (h : Reachable t) (p : Key) :
    (Tree.DeletePrefix t p).1
      = ((Tree.ToMap t).filter (fun e => decide (p <+: e.1))).length ∧
    Tree.ToMap (Tree.DeletePrefix t p).2
      = Tree.ToMap (deleteAll t
          (((Tree.ToMap t).filter (fun e => decide (p <+: e.1))).map Prod.fst)) ∧
    Tree.Len (Tree.DeletePrefix t p).2
      = Tree.Len (deleteAll t
          (((Tree.ToMap t).filter (fun e => decide (p <+: e.1))).map Prod.fst)) := by
  obtain ⟨hwf, hpfx, hsize⟩ := reachable_inv t h
  obtain ⟨d1, d2, d3, d4, d5⟩ := TreeDeletePrefix_spec t hwf hpfx p
  have htm : Tree.ToMap t = entriesN [] t.root := toMap_entries t
  obtain ⟨a1, a2, a3⟩ := deleteAll_spec
    (((Tree.ToMap t).filter (fun e => decide (p <+: e.1))).map Prod.fst) t hwf hpfx
  have hmap : Tree.ToMap (Tree.DeletePrefix t p).2
      = Tree.ToMap (deleteAll t
          (((Tree.ToMap t).filter (fun e => decide (p <+: e.1))).map Prod.fst)) := by
    rw [toMap_entries, toMap_entries, d3, a3]
    apply List.filter_congr
    intro x hx
    rw [decide_eq_decide]
    constructor
    · intro hnp hmem
      rw [List.mem_map] at hmem
      obtain ⟨y, hy1, hy2⟩ := hmem
      rw [List.mem_filter] at hy1
      apply hnp
      have hps := of_decide_eq_true hy1.2
      rw [hy2] at hps
      exact hps
    · intro hnin hp2
      apply hnin
      rw [List.mem_map]
      refine ⟨x, ?_, rfl⟩
      rw [List.mem_filter]
      refine ⟨by rw [htm]; exact hx, by simp [hp2]⟩
  refine ⟨by rw [htm]; exact d4, hmap, ?_⟩
  have hr2 : Reachable (deleteAll t
      (((Tree.ToMap t).filter (fun e => decide (p <+: e.1))).map Prod.fst)) :=
    deleteAll_reachable h _
  obtain ⟨_, _, hsz2⟩ := reachable_inv _ hr2
  rw [Tree.Len, Tree.Len, d5 hsize, hsz2]
  have hlen : numLeavesN (Tree.DeletePrefix t p).2.root
      = numLeavesN (deleteAll t
          (((Tree.ToMap t).filter
            (fun e => decide (p <+: e.1))).map Prod.fst)).root := by
    rw [numLeavesN_entries _ [], numLeavesN_entries _ [],
      ← toMap_entries, ← toMap_entries, hmap]
  rw [hlen]

/-- Witness for C5 at the empty tree with the empty prefix. -/
theorem claim_C5_witness :
    (Tree.DeletePrefix (Tree.New : Tree Nat) []).1
        = ((Tree.ToMap (Tree.New : Tree Nat)).filter
            (fun e => decide (([] : Key) <+: e.1))).length ∧
    Tree.ToMap (Tree.DeletePrefix (Tree.New : Tree Nat) []).2
        = Tree.ToMap (deleteAll (Tree.New : Tree Nat)
            (((Tree.ToMap (Tree.New : Tree Nat)).filter
              (fun e => decide (([] : Key) <+: e.1))).map Prod.fst)) ∧
    Tree.Len (Tree.DeletePrefix (Tree.New : Tree Nat) []).2
        = Tree.Len (deleteAll (Tree.New : Tree Nat)
            (((Tree.ToMap (Tree.New : Tree Nat)).filter
              (fun e => decide (([] : Key) <+: e.1))).map Prod.fst)) :=
  claim_C5_delete_prefix_equiv Tree.New Reachable.base []

/-- C6 (confirmed): on any subtree of a reachable tree, `Walk` is the
early-stopping traversal (`stopTrace`) of the subtree's entry list — the
callback is invoked once per value-bearing node with its full key and value,
stopping right after the first invocation returning `true` — and that entry
list is strictly increasing in lexicographic key order. -/
theorem claim_C6_walk_sorted (t : Tree V) (h : Reachable t) (m : Node V)
    (hm : NodeIn m t.root) (pre : Key) (fn : Key → V → Bool) :
    Tree.Walk t m pre fn = stopTrace fn (entriesN pre m) ∧
    List.Pairwise (fun a b : Key × V => List.Lex (· < ·) a.1 b.1)
      (entriesN pre m) := by
  have hwf := NodeIn_wfb hm (reachable_inv t h).1
  refine ⟨?_, entries_pairwise m hwf pre⟩
  rw [Tree.Walk, recursiveWalkN_stopTrace]

/-- Witness for C6 at the empty tree's root with the constantly-false
callback. -/
theorem claim_C6_witness :
    Tree.Walk (Tree.New : Tree Nat) (Tree.New : Tree Nat).root []
        (fun _ _ => false)
      = stopTrace (fun _ _ => false) (entriesN [] (Tree.New : Tree Nat).root) ∧
    List.Pairwise (fun a b : Key × Nat => List.Lex (· < ·) a.1 b.1)
      (entriesN [] (Tree.New : Tree Nat).root) :=
  claim_C6_walk_sorted Tree.New Reachable.base _ (NodeIn.refl _) []
    (fun _ _ => false)

/-- C7 (confirmed): on any reachable tree — i.e. after any sequence of the
public mutating operations, the read-only ones returning no tree — `Len`
equals the number of value-bearing nodes. -/
theorem claim_C7_len_invariant (t : Tree V) (h : Reachable t) :
    Tree.Len t = (numLeavesN t.root : Int) := by
  rw [Tree.Len]
  exact (reachable_inv t h).2.2

/-- Witness for C7 at the empty tree. -/
theorem claim_C7_witness :
    Tree.Len (Tree.New : Tree Nat)
      = (numLeavesN (Tree.New : Tree Nat).root : Int) :=
  claim_C7_len_invariant Tree.New Reachable.base

/-- C8 (corrected): the claim quantifies over trees reachable by *any*
interleaving of the mutating operations; after a `DeletePrefix` the dangling
cleared node can sit on the minimum-descent path, and `Minimum` then reports
`found = false` on a tree that still stores a key. -/
theorem claim_C8_counterexample :
    Reachable exC3 ∧ Tree.ToMap exC3 = [([1, 3], 30)] ∧
    Tree.Minimum exC3 = ([], none, false) :=
  ⟨reach_exC3, toMap_exC3, minimum_exC3⟩

/-- C8 (corrected, amended statement): on any nonempty tree reachable by
insert and delete only, `Minimum` returns the lexicographically smallest
stored key with its value and `found = true` — the smallest key is the first
entry, and every other stored key is lexicographically greater. -/
theorem claim_C8_minimum_corrected (t : Tree V) (h : ReachableID t)
    (hne : Tree.ToMap t ≠ []) :
    ∃ v tl, Tree.ToMap t = ((Tree.Minimum t).1, v) :: tl ∧
      (Tree.Minimum t).2 = (some v, true) ∧
      ∀ e ∈ tl, List.Lex (· < ·) (Tree.Minimum t).1 e.1 := by
  obtain ⟨hwf, hpfx, _⟩ := reachable_inv t (reachableID_reachable h)
  have hcomp := reachableID_compact t h
  obtain ⟨_, hkidsc⟩ := compactN_parts true t.root hcomp
  have hne2 : entriesN [] t.root ≠ [] := by
    rw [← toMap_entries]
    exact hne
  obtain ⟨v, tl, hev, hmv⟩ := minGo_spec t.root hwf hkidsc [] hne2
  have hmin : Tree.Minimum t = minGo t.root ([] ++ t.root.pfx) := by
    rw [Tree.Minimum, hpfx]
    simp
  refine ⟨v, tl, ?_, ?_, ?_⟩
  · rw [toMap_entries, hev, hmin]
  · rw [hmin]
    exact hmv
  · have hp := entries_pairwise t.root hwf []
    rw [hev] at hp
    intro e he
    have hlex := (List.pairwise_cons.1 hp).1 e he
    rw [hmin]
    exact hlex

/-- Witness for C8 at the one-key tree reached by inserting `[1]`. -/
theorem claim_C8_witness :
    ∃ v tl, Tree.ToMap exA1 = ((Tree.Minimum exA1).1, v) :: tl ∧
      (Tree.Minimum exA1).2 = (some v, true) ∧
      ∀ e ∈ tl, List.Lex (· < ·) (Tree.Minimum exA1).1 e.1 :=
  claim_C8_minimum_corrected exA1 reachID_exA1 (by rw [toMap_exA1]; simp)

/-- C9 (confirmed): on a node with sorted edge labels, `updateEdge` returns
`none` — the source's panic — exactly when no edge carries the label; and
`Insert` on a reachable tree never reaches that panic. -/
theorem claim_C9_update_edge_panic :
    (∀ (n : Node V) (label : Nat) (c : Node V),
      List.Pairwise (· < ·) (n.edges.map Prod.fst) →
      (n.updateEdge label c = none ↔ ∀ x ∈ n.edges, x.1 ≠ label)) ∧
    (∀ (t : Tree V) (s : Key) (v : V), Reachable t →
      (Tree.Insert t s v).isSome = true) := by
  constructor
  · intro n label c hs
    constructor
    · intro hnone x hx hq
      have hmem : (label, x.2) ∈ n.edges := by
        rw [← hq]
        cases x
        exact hx
      obtain ⟨es1, es2, _, _, _, hupd⟩ := updateEdge_present n c hs hmem
      rw [hupd] at hnone
      cases hnone
    · intro hab
      exact updateEdge_absent n label c hab
  · intro t s v hr
    obtain ⟨hwf, _, _⟩ := reachable_inv t hr
    obtain ⟨old, t2, heq, _⟩ := TreeInsert_spec t hwf s v
    rw [heq]
    rfl

/-- Witness for C9: the panic condition on a concrete edgeless node, and a
concrete insertion into the empty tree. -/
theorem claim_C9_witness :
    ((Node.mk (none : Option Nat) [] []).updateEdge 5 (Node.mk none [5] [])
        = none ↔
      ∀ x ∈ (Node.mk (none : Option Nat) [] []).edges, x.1 ≠ 5) ∧
    (Tree.Insert (Tree.New : Tree Nat) [1] 10).isSome = true :=
  ⟨(claim_C9_update_edge_panic.1) (Node.mk none [] []) 5 (Node.mk none [5] [])
      (by simp),
   (claim_C9_update_edge_panic.2) Tree.New [1] 10 Reachable.base⟩

end Radix
